import Mathlib

/-!
# ocean.one matching engine: `engine/book.go`

A shallow embedding of the order book of `engine/book.go` and a verification of
its matching behaviour.

* Go pointers to orders become values that are threaded explicitly: a function
  that mutates `*Order` in place returns the updated order.
* The two callbacks of the book (`transact`, `cancel`) are external
  collaborators.  Each is modelled by the outcomes of its future invocations and
  by the record of the invocations made so far; the retry loops of `process` and
  `cancelOrder` run on these outcomes.
* `log.Panicln` is a fatal result (`Except.error`).
* `Order` and `Page` are declared in other files of package `engine`; they are
  modelled from the specification, as stated at each definition.
-/

namespace engine

/-! ## Constants of `book.go` -/

def OrderActionCreate : String := "CREATE"

def OrderActionCancel : String := "CANCEL"

def EventQueueSize : Nat := 8192

/-! ## Declarations of package `engine` that `book.go` uses -/

/-- Modelled from the spec: the constant `PageSideAsk` is declared outside `book.go`;
the spec names the side `Ask`.  Only its difference from `PageSideBid` matters. -/
def PageSideAsk : String := "ASK"

/-- Modelled from the spec: the constant `PageSideBid` is declared outside `book.go`;
the spec names the side `Bid`. -/
def PageSideBid : String := "BID"

/-- Modelled from the spec: the constant `OrderTypeLimit` is declared outside
`book.go`; the spec names the type `Limit`. -/
def OrderTypeLimit : String := "LIMIT"

/-- Modelled from the spec: the constant `OrderTypeMarket` is declared outside
`book.go`; the spec names the type `Market`. -/
def OrderTypeMarket : String := "MARKET"

/-- Modelled from the spec: the struct `Order` is declared outside `book.go`.  The
fields are those of the spec's data model (Id, Side, Type, Price, Amount,
RemainingAmount, FilledAmount).  `book.go` compares `Side` and `Type` with string
constants and applies `<`, `>`, `==`, `+` and `-` to the numeric fields, so these
have a built-in numeric type of Go; the type is declared with the struct and the spec
gives no width, and an unsigned 64-bit integer is taken.  A field holds a natural
number, a value of the type is below `2 ^ 64` (`Order.typed`), and the sum that Go's
`+` gives is the exact sum reduced by `wrap`.  The only subtraction, in `process`,
never subtracts more than is there. -/
structure Order where
  Id : String
  Side : String
  «Type» : String
  Price : Nat
  Amount : Nat
  RemainingAmount : Nat
  FilledAmount : Nat
deriving DecidableEq, Repr

/-- Modelled from the spec: the value that Go's `+` on the numeric fields of `Order`
gives for an exact sum: the type of the fields, declared outside `book.go`, is taken
to be an unsigned 64-bit integer, so the sum wraps at `2 ^ 64`. -/
def wrap (n : Nat) : Nat := n % 2 ^ 64

/-- Modelled from the spec: a price level of a ladder, "a price value plus a
time-ordered (oldest-first) queue of resting Orders at that price". -/
structure Entry where
  price : Nat
  list : List Order
deriving DecidableEq, Repr

/-- Modelled from the spec: the type `Page` (the spec's Ladder) is declared outside
`book.go`: "an ordered sequence of price levels for one side", best level first. -/
structure Page where
  Side : String
  points : List Entry
deriving DecidableEq, Repr

/-- Modelled from the spec: `NewPage` is declared outside `book.go`; a new ladder
holds no level. -/
def NewPage (side : String) : Page := ⟨side, []⟩

/-- Modelled from the spec: the order of the levels of a ladder, "Ask ladder orders
levels ascending by price (lowest first = best ask); Bid ladder orders descending by
price (highest first = best bid)".  `better side p q` says that price `p` comes
before price `q`. -/
def better (side : String) (p q : Nat) : Bool :=
  if side = PageSideAsk then decide (p < q) else decide (q < p)

/-- Modelled from the spec: the part of `insert` that "appends the order to the tail
of the time queue at its price". -/
def appendAt (order : Order) : List Entry → List Entry
  | [] => []
  | e :: es =>
    if e.price = order.Price then ⟨e.price, e.list ++ [order]⟩ :: es
    else e :: appendAt order es

/-- Modelled from the spec: the part of `insert` "creating the level if absent", at
its place in the order of the levels. -/
def insertLevel (side : String) (order : Order) : List Entry → List Entry
  | [] => [⟨order.Price, [order]⟩]
  | e :: es =>
    if better side order.Price e.price then ⟨order.Price, [order]⟩ :: e :: es
    else e :: insertLevel side order es

/-- Modelled from the spec: `Page.Put` is declared outside `book.go`; it is the
spec's `insert(order)`: "appends the order to the tail of the time queue at its
price, creating the level if absent". -/
def Page.Put (page : Page) (order : Order) : Page :=
  if page.points.any (fun e => decide (e.price = order.Price)) then
    { page with points := appendAt order page.points }
  else
    { page with points := insertLevel page.Side order page.points }

/-- Modelled from the spec: the levels after `remove`: the order is located "by
identity within its price level (not assumed to be at the head)", the level is
pruned "if it becomes empty", and nothing happens "if the order is not currently
resting" there. -/
def removePoints (order : Order) : List Entry → List Entry
  | [] => []
  | e :: es =>
    if e.price = order.Price then
      if e.list.any (fun o => decide (o.Id = order.Id)) then
        if (e.list.eraseP (fun o => decide (o.Id = order.Id))).isEmpty then es
        else ⟨e.price, e.list.eraseP (fun o => decide (o.Id = order.Id))⟩ :: es
      else e :: es
    else e :: removePoints order es

/-- Modelled from the spec: `Page.Remove` is declared outside `book.go`; it is the
spec's `remove(orderId)`. -/
def Page.Remove (page : Page) (order : Order) : Page :=
  { page with points := removePoints order page.points }

/-- Modelled from the spec: the spec's `bestFirst()`: the resting orders "in priority
order — levels from best to worst price, and within a level oldest to newest". -/
def Page.bestFirst (page : Page) : List Order :=
  page.points.flatMap (fun e => e.list)

/-- Modelled from the spec: the walk of `Page.Iterate` through one time queue.  The
hook is called on each order, oldest first; an order whose RemainingAmount the hook
leaves at zero is removed at once; the walk ends when the hook returns true.  The
result is the hook's state, the queue that is left, and whether the walk ended. -/
def iterateList {σ : Type} (hook : σ → Order → σ × Order × Bool) :
    σ → List Order → σ × List Order × Bool
  | s, [] => (s, [], false)
  | s, o :: rest =>
    if (hook s o).2.2 then
      ((hook s o).1, (if (hook s o).2.1.RemainingAmount = 0 then [] else [(hook s o).2.1]) ++ rest,
        true)
    else
      ((iterateList hook (hook s o).1 rest).1,
        (if (hook s o).2.1.RemainingAmount = 0 then [] else [(hook s o).2.1]) ++
          (iterateList hook (hook s o).1 rest).2.1,
        (iterateList hook (hook s o).1 rest).2.2)

/-- Modelled from the spec: the walk of `Page.Iterate` through the levels, best level
first; a level whose queue empties is destroyed ("no empty levels persist"). -/
def iteratePoints {σ : Type} (hook : σ → Order → σ × Order × Bool) :
    σ → List Entry → σ × List Entry
  | s, [] => (s, [])
  | s, e :: es =>
    if (iterateList hook s e.list).2.2 then
      ((iterateList hook s e.list).1,
        (if (iterateList hook s e.list).2.1.isEmpty then []
          else [⟨e.price, (iterateList hook s e.list).2.1⟩]) ++ es)
    else
      ((iteratePoints hook (iterateList hook s e.list).1 es).1,
        (if (iterateList hook s e.list).2.1.isEmpty then []
          else [⟨e.price, (iterateList hook s e.list).2.1⟩]) ++
          (iteratePoints hook (iterateList hook s e.list).1 es).2)

/-- Modelled from the spec: `Page.Iterate` is declared outside `book.go`.  It walks
the spec's `bestFirst()` sequence and calls the hook on each order until the hook
returns true, and it carries the spec's removal on fill: "If this leaves the
opponent's RemainingAmount at zero, remove the opponent from its Ladder
immediately".  The Go hook is a closure that mutates captured variables; here it
takes and returns them as the state `σ`, and returns the updated opponent. -/
def Page.Iterate {σ : Type} (page : Page) (hook : σ → Order → σ × Order × Bool) (s : σ) :
    σ × Page :=
  ((iteratePoints hook s page.points).1,
    { page with points := (iteratePoints hook s page.points).2 })

/-! ## The collaborators -/

/-- A callback of the book (`TransactCallback`, `CancelCallback`) as seen from the
book: `script` holds the outcomes of its next invocations (`true`: the invocation
returns an error) and every invocation after the script returns `nil`; `calls` is the
record of the invocations made so far, oldest first, each with its argument and
whether it returned an error. -/
structure Callback (α : Type) where
  script : List Bool
  calls : List (α × Bool)
deriving DecidableEq, Repr

abbrev TransactCallback := Callback (Order × Order)

abbrev CancelCallback := Callback Order

/-- The retry loop of `process` and of `cancelOrder`:
`for { err := cb(a); if err == nil { break }; ...; time.Sleep(...) }`.
The arguments are the outcomes still to come and the record so far. -/
def retryLoop {α : Type} (a : α) : List Bool → List (α × Bool) → Callback α
  | [], calls => ⟨[], calls ++ [(a, false)]⟩
  | false :: script, calls => ⟨script, calls ++ [(a, false)]⟩
  | true :: script, calls => retryLoop a script (calls ++ [(a, true)])

def Callback.retry {α : Type} (cb : Callback α) (a : α) : Callback α :=
  retryLoop a cb.script cb.calls

/-- The invocations that returned `nil`, oldest first. -/
def Callback.reports {α : Type} (cb : Callback α) : List α :=
  (cb.calls.filter (fun c => !c.2)).map (fun c => c.1)

/-! ## `book.go` -/

structure OrderEvent where
  Order : Order
  Action : String
deriving DecidableEq, Repr

structure Book where
  PricePrecision : Int
  AmountPrecision : Int
  queue : List OrderEvent
  createIndex : List String
  cancelIndex : List String
  transact : TransactCallback
  cancel : CancelCallback
  asks : Page
  bids : Page
deriving DecidableEq, Repr

/-- The fatal aborts (`log.Panicln`) of `book.go`, by the place they are raised. -/
inductive Fatal where
  | attachSide
  | attachType
  | attachAction
  | cancelSide
  | runAction
deriving DecidableEq, Repr

def NewBook (pricePrecision amountPrecision : Int) (transact : TransactCallback)
    (cancel : CancelCallback) : Book :=
  { PricePrecision := pricePrecision
    AmountPrecision := amountPrecision
    queue := []
    createIndex := []
    cancelIndex := []
    transact := transact
    cancel := cancel
    asks := NewPage PageSideAsk
    bids := NewPage PageSideBid }

deriving instance DecidableEq for Except

/-- The function `Book.AttachOrderEvent`.  A command that passes the three checks is
sent to the queue (the wait of the sender while the queue holds `EventQueueSize`
events is not modelled) and the Go function returns `nil`. -/
def AttachOrderEvent (book : Book) (order : Order) (action : String) : Except Fatal Book :=
  if order.Side ≠ PageSideAsk ∧ order.Side ≠ PageSideBid then .error Fatal.attachSide
  else if order.«Type» ≠ OrderTypeLimit ∧ order.«Type» ≠ OrderTypeMarket then
    .error Fatal.attachType
  else if action = OrderActionCreate ∨ action = OrderActionCancel then
    .ok { book with queue := book.queue ++ [⟨order, action⟩] }
  else .error Fatal.attachAction

/-- The function `Book.process`: the amounts of both orders are updated, then the
trade is reported until the collaborator accepts it.  The two additions are Go's `+`
on the field's type (`wrap`); the two subtractions take at most what is there. -/
def process (transact : TransactCallback) (order opponent : Order) :
    TransactCallback × Order × Order :=
  let matchedAmount :=
    if opponent.RemainingAmount < order.RemainingAmount then opponent.RemainingAmount
    else order.RemainingAmount
  let order1 : Order :=
    { order with
      RemainingAmount := order.RemainingAmount - matchedAmount
      FilledAmount := wrap (order.FilledAmount + matchedAmount) }
  let opponent1 : Order :=
    { opponent with
      RemainingAmount := opponent.RemainingAmount - matchedAmount
      FilledAmount := wrap (opponent.FilledAmount + matchedAmount) }
  (transact.retry (order1, opponent1), order1, opponent1)

/-- The closure that `createOrder` passes to `book.bids.Iterate` for an ask.  Its
state is what the closure captures and changes: the collaborator `book.transact` and
the incoming order. -/
def askHook (s : TransactCallback × Order) (opponent : Order) :
    (TransactCallback × Order) × Order × Bool :=
  if s.2.«Type» = OrderTypeLimit ∧ opponent.Price < s.2.Price then (s, opponent, true)
  else
    (((process s.1 s.2 opponent).1, (process s.1 s.2 opponent).2.1),
      (process s.1 s.2 opponent).2.2,
      decide ((process s.1 s.2 opponent).2.1.RemainingAmount = 0))

/-- The closure that `createOrder` passes to `book.asks.Iterate` for a bid. -/
def bidHook (s : TransactCallback × Order) (opponent : Order) :
    (TransactCallback × Order) × Order × Bool :=
  if s.2.«Type» = OrderTypeLimit ∧ opponent.Price > s.2.Price then (s, opponent, true)
  else
    (((process s.1 s.2 opponent).1, (process s.1 s.2 opponent).2.1),
      (process s.1 s.2 opponent).2.2,
      decide ((process s.1 s.2 opponent).2.1.RemainingAmount = 0))

/-- The function `Book.createOrder`.  It returns the book and the incoming order as
they are when the Go function returns. -/
def createOrder (book : Book) (order : Order) : Book × Order :=
  if order.Id ∈ book.createIndex then (book, order)
  else
    let book1 : Book := { book with createIndex := order.Id :: book.createIndex }
    if order.Side = PageSideAsk then
      let r := book1.bids.Iterate askHook (book1.transact, order)
      let book2 : Book := { book1 with transact := r.1.1, bids := r.2 }
      if r.1.2.«Type» = OrderTypeLimit ∧ r.1.2.RemainingAmount > 0 then
        ({ book2 with asks := book2.asks.Put r.1.2 }, r.1.2)
      else (book2, r.1.2)
    else if order.Side = PageSideBid then
      let r := book1.asks.Iterate bidHook (book1.transact, order)
      let book2 : Book := { book1 with transact := r.1.1, asks := r.2 }
      if r.1.2.«Type» = OrderTypeLimit ∧ r.1.2.RemainingAmount > 0 then
        ({ book2 with bids := book2.bids.Put r.1.2 }, r.1.2)
      else (book2, r.1.2)
    else (book1, order)

/-- The function `Book.cancelOrder`.  The order itself is not changed. -/
def cancelOrder (book : Book) (order : Order) : Except Fatal Book :=
  if order.Id ∈ book.cancelIndex then .ok book
  else
    let book1 : Book :=
      { book with
        cancelIndex := order.Id :: book.cancelIndex
        cancel := book.cancel.retry order }
    if order.Side = PageSideAsk then .ok { book1 with asks := book1.asks.Remove order }
    else if order.Side = PageSideBid then .ok { book1 with bids := book1.bids.Remove order }
    else .error Fatal.cancelSide

/-- The retry loop of `cancelOrder` once more, keeping the collaborator as it stands
after each invocation of the loop body, oldest first; the last one is the collaborator
that `retryLoop` ends with. -/
def retryLoopTrace {α : Type} (a : α) : List Bool → List (α × Bool) → List (Callback α)
  | [], calls => [⟨[], calls ++ [(a, false)]⟩]
  | false :: script, calls => [⟨script, calls ++ [(a, false)]⟩]
  | true :: script, calls =>
    ⟨script, calls ++ [(a, true)]⟩ :: retryLoopTrace a script (calls ++ [(a, true)])

def Callback.retryTrace {α : Type} (cb : Callback α) (a : α) : List (Callback α) :=
  retryLoopTrace a cb.script cb.calls

/-- The function `Book.cancelOrder` once more, statement by statement: the book as it
stands after `book.cancelIndex[order.Id] = true`, then after each invocation of
`book.cancel(order)` in the loop, then after `Remove`, oldest first.  A replay takes
no step, and the fatal abort of the last branch leaves no state after the loop. -/
def cancelOrderTrace (book : Book) (order : Order) : List Book :=
  if order.Id ∈ book.cancelIndex then []
  else
    let book1 : Book := { book with cancelIndex := order.Id :: book.cancelIndex }
    let notified : List Book :=
      (book1.cancel.retryTrace order).map (fun cb => { book1 with cancel := cb })
    let book2 : Book := { book1 with cancel := book1.cancel.retry order }
    if order.Side = PageSideAsk then
      book1 :: notified ++ [{ book2 with asks := book2.asks.Remove order }]
    else if order.Side = PageSideBid then
      book1 :: notified ++ [{ book2 with bids := book2.bids.Remove order }]
    else book1 :: notified

/-- The body of the loop of `Book.Run` for one event taken from the queue. -/
def dispatch (book : Book) (event : OrderEvent) : Except Fatal Book :=
  if event.Action = OrderActionCreate then .ok (createOrder book event.Order).1
  else if event.Action = OrderActionCancel then cancelOrder book event.Order
  else .error Fatal.runAction

/-- The events of a list applied one after the other, as `Book.Run` applies the
events it takes from the queue; a fatal abort ends the run. -/
def applyEvents : Book → List OrderEvent → Except Fatal Book
  | book, [] => .ok book
  | book, event :: events =>
    match dispatch book event with
    | .ok book1 => applyEvents book1 events
    | .error e => .error e

/-- The loop of `Book.Run` on the events that the queue holds: each event is taken
from the head of the queue and dispatched, and a fatal abort ends the run.  (The Go
loop then waits for the next event, forever.) -/
def runQueue : Book → List OrderEvent → Except Fatal Book
  | book, [] => .ok book
  | book, event :: events =>
    match dispatch { book with queue := events } event with
    | .ok book1 => runQueue book1 events
    | .error e => .error e

/-- The function `Book.Run`, until the queue is empty. -/
def Run (book : Book) : Except Fatal Book := runQueue book book.queue

/-- The orders resting in the book: the ask ladder, then the bid ladder. -/
def Book.resting (book : Book) : List Order :=
  book.asks.bestFirst ++ book.bids.bestFirst


/-- The two closures of `createOrder` differ only in the test that stops the walk of
a Limit order; `matchHook stops` is the closure with that test as a parameter
(`askHook` and `bidHook` are instances, see `askHook_eq` and `bidHook_eq`). -/
def matchHook (stops : Order → Order → Bool) (s : TransactCallback × Order) (opponent : Order) :
    (TransactCallback × Order) × Order × Bool :=
  if s.2.«Type» = OrderTypeLimit ∧ stops s.2 opponent = true then (s, opponent, true)
  else
    (((process s.1 s.2 opponent).1, (process s.1 s.2 opponent).2.1),
      (process s.1 s.2 opponent).2.2,
      decide ((process s.1 s.2 opponent).2.1.RemainingAmount = 0))

/-- The test that stops the walk of a Limit ask: the bid does not reach its price. -/
def askStops (order opponent : Order) : Bool := decide (opponent.Price < order.Price)

/-- The test that stops the walk of a Limit bid: the ask is above its price. -/
def bidStops (order opponent : Order) : Bool := decide (opponent.Price > order.Price)

/-- The numeric fields of the order hold values of their Go type: each is below
`2 ^ 64`.  Every order of the Go program is of this kind. -/
def Order.typed (o : Order) : Prop :=
  o.Price < 2 ^ 64 ∧ o.Amount < 2 ^ 64 ∧ o.RemainingAmount < 2 ^ 64 ∧ o.FilledAmount < 2 ^ 64

instance (o : Order) : Decidable o.typed :=
  inferInstanceAs (Decidable
    (o.Price < 2 ^ 64 ∧ o.Amount < 2 ^ 64 ∧ o.RemainingAmount < 2 ^ 64 ∧
      o.FilledAmount < 2 ^ 64))

/-- The amounts of an order add up: `FilledAmount + RemainingAmount == Amount`. -/
def Order.conserved (o : Order) : Prop := o.FilledAmount + o.RemainingAmount = o.Amount

instance (o : Order) : Decidable o.conserved :=
  inferInstanceAs (Decidable (o.FilledAmount + o.RemainingAmount = o.Amount))

/-- The amounts of the order add up and its Amount is a value of the Go type, so that
FilledAmount can take the whole RemainingAmount without wrapping. -/
def Order.balanced (o : Order) : Prop := o.conserved ∧ o.Amount < 2 ^ 64

instance (o : Order) : Decidable o.balanced :=
  inferInstanceAs (Decidable (o.conserved ∧ o.Amount < 2 ^ 64))

/-- FilledAmount can take the whole RemainingAmount without wrapping:
`FilledAmount + RemainingAmount` is below `2 ^ 64`. -/
def Order.fits (o : Order) : Prop := o.FilledAmount + o.RemainingAmount < 2 ^ 64

instance (o : Order) : Decidable o.fits :=
  inferInstanceAs (Decidable (o.FilledAmount + o.RemainingAmount < 2 ^ 64))

/-- The resting-order invariant for one order: `Type = Limit` and
`RemainingAmount > 0`. -/
def Order.restingOK (o : Order) : Prop := o.«Type» = OrderTypeLimit ∧ 0 < o.RemainingAmount

instance (o : Order) : Decidable o.restingOK :=
  inferInstanceAs (Decidable (o.«Type» = OrderTypeLimit ∧ 0 < o.RemainingAmount))

/-- The fields of an order that `book.go` never assigns: Id, Side, Type, Price and
Amount.  Two values with the same `ident` are the same order at different moments. -/
def Order.ident (o : Order) : String × String × String × Nat × Nat :=
  (o.Id, o.Side, o.«Type», o.Price, o.Amount)

/-- What `Page.Iterate` leaves of an order after the hook has run on it. -/
def keep (o : Order) : List Order := if o.RemainingAmount = 0 then [] else [o]

/-- The sum of `RemainingAmount` over a list of orders. -/
def totalRemaining (l : List Order) : Nat := (l.map (fun o => o.RemainingAmount)).sum

/-- The Id is new to the book: it is not in `createIndex` and no resting order
carries it. -/
def Book.fresh (book : Book) (id : String) : Prop :=
  id ∉ book.createIndex ∧ ∀ o ∈ book.resting, o.Id ≠ id

instance (book : Book) (id : String) : Decidable (book.fresh id) :=
  inferInstanceAs (Decidable (id ∉ book.createIndex ∧ ∀ o ∈ book.resting, o.Id ≠ id))

/-- The time queue of the first level at a price in a list of levels (empty if there
is no such level). -/
def levelOf (price : Nat) : List Entry → List Order
  | [] => []
  | e :: es => if e.price = price then e.list else levelOf price es

/-- The time queue of the level of a ladder at a price (empty if there is no such
level). -/
def Page.levelAt (page : Page) (price : Nat) : List Order := levelOf price page.points

/-- A ladder is well formed: its levels are in the order of its side, with a different
price each, and every order rests in the level of its Price. -/
def Page.wf (page : Page) : Prop :=
  page.points.Pairwise (fun e f => better page.Side e.price f.price = true) ∧
    ∀ e ∈ page.points, ∀ o ∈ e.list, o.Price = e.price

instance (page : Page) : Decidable page.wf :=
  inferInstanceAs (Decidable
    (page.points.Pairwise (fun e f : Entry => better page.Side e.price f.price = true) ∧
      ∀ e ∈ page.points, ∀ o ∈ e.list, o.Price = e.price))

/-- A book is well formed: its two ladders are the ladder of the asks and the ladder of
the bids, and both are well formed. -/
def Book.wf (book : Book) : Prop :=
  book.asks.Side = PageSideAsk ∧ book.bids.Side = PageSideBid ∧ book.asks.wf ∧ book.bids.wf

instance (book : Book) : Decidable book.wf :=
  inferInstanceAs (Decidable
    (book.asks.Side = PageSideAsk ∧ book.bids.Side = PageSideBid ∧ book.asks.wf ∧
      book.bids.wf))

/-! ## Books and orders of the scenarios -/

/-- A book as `NewBook` returns it, with collaborators that never fail. -/
def emptyBook : Book := NewBook 8 8 ⟨[], []⟩ ⟨[], []⟩

/-- Scenario A: B1 (Bid, Limit, price 10, amount 5). -/
def orderB1 : Order := ⟨"B1", PageSideBid, OrderTypeLimit, 10, 5, 5, 0⟩

/-- Scenario A: A1 (Ask, Limit, price 10, amount 3). -/
def orderA1 : Order := ⟨"A1", PageSideAsk, OrderTypeLimit, 10, 3, 3, 0⟩

/-- Scenario A: the book after Create B1. -/
def bookB1 : Book := (createOrder emptyBook orderB1).1

/-- Scenario A: the book after Create B1, Create A1. -/
def bookB1A1 : Book := (createOrder bookB1 orderA1).1

/-- A bid above the price of B1: B2 (Bid, Limit, price 12, amount 1). -/
def orderB2 : Order := ⟨"B2", PageSideBid, OrderTypeLimit, 12, 1, 1, 0⟩

/-- An ask between the prices of B1 and B2: A3 (Ask, Limit, price 11, amount 3). -/
def orderA3 : Order := ⟨"A3", PageSideAsk, OrderTypeLimit, 11, 3, 3, 0⟩

/-- The book after Create B1, Create B2: the bids are B2 at 12, then B1 at 10. -/
def bookB1B2 : Book := (createOrder bookB1 orderB2).1

/-- A second bid at the price of B1, submitted after it: B3 (Bid, Limit, price 10,
amount 4). -/
def orderB3 : Order := ⟨"B3", PageSideBid, OrderTypeLimit, 10, 4, 4, 0⟩

/-- An ask that crosses B1 and B3 and exceeds B1: A4 (Ask, Limit, price 10, amount 7). -/
def orderA4 : Order := ⟨"A4", PageSideAsk, OrderTypeLimit, 10, 7, 7, 0⟩

/-- The book after Create B1, Create B3: both bids rest at price 10, B1 first. -/
def bookB1B3 : Book := (createOrder bookB1 orderB3).1

/-- Scenario C: the resting ask at price 9 with quantity 10. -/
def orderS9 : Order := ⟨"S9", PageSideAsk, OrderTypeLimit, 9, 10, 10, 0⟩

/-- Scenario C: the resting ask at price 10 with quantity 5. -/
def orderS10 : Order := ⟨"S10", PageSideAsk, OrderTypeLimit, 10, 5, 5, 0⟩

/-- Scenario C: M1 (Bid, Market, amount 100). -/
def orderM1 : Order := ⟨"M1", PageSideBid, OrderTypeMarket, 0, 100, 100, 0⟩

/-- Scenario C: the book whose ask ladder holds price 9 quantity 10 and price 10
quantity 5; the ask at 10 was submitted first. -/
def bookS : Book := (createOrder (createOrder emptyBook orderS10).1 orderS9).1

/-- The book of Scenario C with a trade-report collaborator whose first invocation
fails. -/
def bookSfail : Book := { bookS with transact := ⟨[true], []⟩ }

/-- A bid below every ask of the scenarios: B8 (Bid, Limit, price 8, amount 5). -/
def orderB8 : Order := ⟨"B8", PageSideBid, OrderTypeLimit, 8, 5, 5, 0⟩

/-- Scenario B: A2 (Ask, Limit, price 9, amount 10). -/
def orderA2 : Order := ⟨"A2", PageSideAsk, OrderTypeLimit, 9, 10, 10, 0⟩

/-- Scenario B: a book with no bid that crosses A2 (a bid at 8) and an ask already
resting at the price of A2. -/
def bookB8S9 : Book := (createOrder (createOrder emptyBook orderB8).1 orderS9).1

/-- Scenario A followed by Cancel A1: the book after the three commands. -/
def bookB1A1Cancel : Book :=
  { bookB1A1 with
    cancelIndex := ["A1"]
    cancel := ⟨[], [(orderA1, false)]⟩ }


/-! ## Commands -/

/-- Commands submitted one after the other through `AttachOrderEvent`; a fatal abort
ends the submission. -/
def attachEvents : Book → List OrderEvent → Except Fatal Book
  | book, [] => .ok book
  | book, event :: events =>
    match AttachOrderEvent book event.Order event.Action with
    | .ok book1 => attachEvents book1 events
    | .error e => .error e

/-- The command passes the three checks of `AttachOrderEvent`. -/
def OrderEvent.valid (event : OrderEvent) : Prop :=
  (event.Order.Side = PageSideAsk ∨ event.Order.Side = PageSideBid) ∧
    (event.Order.«Type» = OrderTypeLimit ∨ event.Order.«Type» = OrderTypeMarket) ∧
    (event.Action = OrderActionCreate ∨ event.Action = OrderActionCancel)

instance (event : OrderEvent) : Decidable event.valid :=
  inferInstanceAs (Decidable
    ((event.Order.Side = PageSideAsk ∨ event.Order.Side = PageSideBid) ∧
      (event.Order.«Type» = OrderTypeLimit ∨ event.Order.«Type» = OrderTypeMarket) ∧
      (event.Action = OrderActionCreate ∨ event.Action = OrderActionCancel)))

/-! ## Invariants of the book -/

/-- The resting orders are known to the book: no two of them carry the same Id, the Id
of each is in `createIndex`, and each rests in the ladder of its Side. -/
def Book.idsOK (book : Book) : Prop :=
  (book.resting.map (fun o => o.Id)).Nodup ∧
    (∀ o ∈ book.resting, o.Id ∈ book.createIndex) ∧
    (∀ o ∈ book.asks.bestFirst, o.Side = PageSideAsk) ∧
    ∀ o ∈ book.bids.bestFirst, o.Side = PageSideBid

instance (book : Book) : Decidable book.idsOK :=
  inferInstanceAs (Decidable
    ((book.resting.map (fun o : Order => o.Id)).Nodup ∧
      (∀ o ∈ book.resting, o.Id ∈ book.createIndex) ∧
      (∀ o ∈ book.asks.bestFirst, o.Side = PageSideAsk) ∧
      ∀ o ∈ book.bids.bestFirst, o.Side = PageSideBid))

/-- The book is not crossed: every resting bid has a Price strictly lower than every
resting ask. -/
def Book.uncrossed (book : Book) : Prop :=
  ∀ a ∈ book.asks.bestFirst, ∀ b ∈ book.bids.bestFirst, b.Price < a.Price

instance (book : Book) : Decidable book.uncrossed :=
  inferInstanceAs (Decidable
    (∀ a ∈ book.asks.bestFirst, ∀ b ∈ book.bids.bestFirst, b.Price < a.Price))

/-! ## More books of the scenarios -/

/-- A trade-report collaborator that fails twice, succeeds, then fails again. -/
def flakyTransact : TransactCallback := ⟨[true, true, false, true], []⟩

/-- The book after Create B1 with a cancel-notice collaborator that fails twice,
succeeds, then fails again. -/
def bookB1flaky : Book := { bookB1 with cancel := ⟨[true, true, false, true], []⟩ }

/-- An ask whose FilledAmount is the largest value of an unsigned 64-bit field, with
one unit remaining. -/
def orderFull : Order :=
  ⟨"A9", PageSideAsk, OrderTypeLimit, 10, 18446744073709551615, 1, 18446744073709551615⟩

/-- The new book after Cancel B1, before any Create. -/
def bookCancelB1 : Book :=
  { emptyBook with
    cancelIndex := ["B1"]
    cancel := ⟨[], [(orderB1, false)]⟩ }

/-- The book after Create B1, Create B3, Cancel B1. -/
def bookB1B3CancelB1 : Book :=
  { bookB1B3 with
    cancelIndex := orderB1.Id :: bookB1B3.cancelIndex
    cancel := bookB1B3.cancel.retry orderB1
    bids := bookB1B3.bids.Remove orderB1 }


theorem iterateList_append {σ : Type} (hook : σ → Order → σ × Order × Bool) :
    ∀ (l1 l2 : List Order) (s : σ),
      iterateList hook s (l1 ++ l2) =
        if (iterateList hook s l1).2.2 then
          ((iterateList hook s l1).1, (iterateList hook s l1).2.1 ++ l2, true)
        else
          ((iterateList hook (iterateList hook s l1).1 l2).1,
            (iterateList hook s l1).2.1 ++ (iterateList hook (iterateList hook s l1).1 l2).2.1,
            (iterateList hook (iterateList hook s l1).1 l2).2.2)
  | [], l2, s => by simp [iterateList]
  | o :: rest, l2, s => by
    by_cases hd : (hook s o).2.2 = true
    · simp [iterateList, hd]
    · have ih := iterateList_append hook rest l2 (hook s o).1
      by_cases hr : (iterateList hook (hook s o).1 rest).2.2 = true
      · simp [iterateList, hd, ih, hr]
      · simp [iterateList, hd, ih, hr]

theorem iteratePoints_flat {σ : Type} (hook : σ → Order → σ × Order × Bool) :
    ∀ (es : List Entry) (s : σ),
      (iteratePoints hook s es).1 = (iterateList hook s (es.flatMap (fun e => e.list))).1 ∧
      (iteratePoints hook s es).2.flatMap (fun e => e.list) =
        (iterateList hook s (es.flatMap (fun e => e.list))).2.1
  | [], s => by simp [iteratePoints, iterateList]
  | e :: es, s => by
    have ih := iteratePoints_flat hook es (iterateList hook s e.list).1
    have hk : (if (iterateList hook s e.list).2.1 = [] then ([] : List Entry)
          else [⟨e.price, (iterateList hook s e.list).2.1⟩]).flatMap (fun e => e.list) =
        (iterateList hook s e.list).2.1 := by
      by_cases he : (iterateList hook s e.list).2.1 = []
      · simp [he]
      · simp [he]
    by_cases hd : (iterateList hook s e.list).2.2 = true
    · simp [iteratePoints, hd, List.flatMap_cons, iterateList_append, List.flatMap_append, hk]
    · simp [iteratePoints, hd, List.flatMap_cons, iterateList_append, List.flatMap_append, hk, ih]

theorem Iterate_fst {σ : Type} (page : Page) (hook : σ → Order → σ × Order × Bool) (s : σ) :
    (page.Iterate hook s).1 = (iterateList hook s page.bestFirst).1 :=
  (iteratePoints_flat hook page.points s).1

theorem Iterate_bestFirst {σ : Type} (page : Page) (hook : σ → Order → σ × Order × Bool) (s : σ) :
    (page.Iterate hook s).2.bestFirst = (iterateList hook s page.bestFirst).2.1 :=
  (iteratePoints_flat hook page.points s).2


theorem askHook_eq : askHook = matchHook askStops := by
  funext s opponent
  simp [askHook, matchHook, askStops]

theorem bidHook_eq : bidHook = matchHook bidStops := by
  funext s opponent
  simp [bidHook, matchHook, bidStops]

/-! ### The retry loop -/

theorem retryLoop_calls {α : Type} (a : α) :
    ∀ (script : List Bool) (calls : List (α × Bool)),
      ∃ k, (retryLoop a script calls).calls = calls ++ List.replicate k (a, true) ++ [(a, false)]
  | [], calls => ⟨0, by simp [retryLoop]⟩
  | false :: script, calls => ⟨0, by simp [retryLoop]⟩
  | true :: script, calls => by
    obtain ⟨k, hk⟩ := retryLoop_calls a script (calls ++ [(a, true)])
    refine ⟨k + 1, ?_⟩
    simp [retryLoop, hk, List.replicate_succ]

theorem retry_calls {α : Type} (cb : Callback α) (a : α) :
    ∃ k, (cb.retry a).calls = cb.calls ++ List.replicate k (a, true) ++ [(a, false)] :=
  retryLoop_calls a cb.script cb.calls

theorem retry_mem {α : Type} (cb : Callback α) (a : α) (c : α × Bool)
    (h : c ∈ (cb.retry a).calls) : c ∈ cb.calls ∨ c.1 = a := by
  obtain ⟨k, hk⟩ := retry_calls cb a
  rw [hk] at h
  simp only [List.mem_append, List.mem_replicate, List.mem_singleton] at h
  rcases h with (h | h) | h
  · exact Or.inl h
  · exact Or.inr (by rw [h.2])
  · exact Or.inr (by rw [h])

theorem retry_reports {α : Type} (cb : Callback α) (a : α) :
    (cb.retry a).reports = cb.reports ++ [a] := by
  obtain ⟨k, hk⟩ := retry_calls cb a
  simp [Callback.reports, hk, List.filter_append, List.filter_replicate]

/-! ### Invariants of a walk -/

theorem iterateList_inv {σ : Type} (hook : σ → Order → σ × Order × Bool) (I : σ → Prop)
    (Q : Order → Prop) (hI : ∀ s o, I s → Q o → I (hook s o).1 ∧ Q (hook s o).2.1) :
    ∀ (l : List Order) (s : σ), I s → (∀ o ∈ l, Q o) →
      I (iterateList hook s l).1 ∧ ∀ o ∈ (iterateList hook s l).2.1, Q o
  | [], s, hs, _ => by simpa [iterateList] using hs
  | o :: rest, s, hs, hl => by
    have h1 := hI s o hs (hl o (List.mem_cons_self _ _))
    have hrest : ∀ x ∈ rest, Q x := fun x hx => hl x (List.mem_cons_of_mem _ hx)
    have ih := iterateList_inv hook I Q hI rest (hook s o).1 h1.1 hrest
    by_cases hd : (hook s o).2.2 = true
    · simp only [iterateList, hd, if_true]
      refine ⟨h1.1, ?_⟩
      intro x hx
      rcases List.mem_append.1 hx with hx | hx
      · split at hx
        · simp at hx
        · rw [List.mem_singleton.1 hx]; exact h1.2
      · exact hrest x hx
    · simp only [iterateList, hd]
      refine ⟨ih.1, ?_⟩
      intro x hx
      rcases List.mem_append.1 hx with hx | hx
      · split at hx
        · simp at hx
        · rw [List.mem_singleton.1 hx]; exact h1.2
      · exact ih.2 x hx

theorem iterateList_keeps {σ : Type} (hook : σ → Order → σ × Order × Bool)
    (Q : Order → Prop)
    (hQ : ∀ s o, Q o → (hook s o).2.1.RemainingAmount ≠ 0 → Q (hook s o).2.1) :
    ∀ (l : List Order) (s : σ), (∀ o ∈ l, Q o) → ∀ o ∈ (iterateList hook s l).2.1, Q o
  | [], s, _ => by simp [iterateList]
  | o :: rest, s, hl => by
    have hrest : ∀ x ∈ rest, Q x := fun x hx => hl x (List.mem_cons_of_mem _ hx)
    have ih := iterateList_keeps hook Q hQ rest (hook s o).1 hrest
    have hk : ∀ x ∈ (if (hook s o).2.1.RemainingAmount = 0 then []
        else [(hook s o).2.1]), Q x := by
      intro x hx
      split at hx
      · simp at hx
      · rw [List.mem_singleton.1 hx]
        exact hQ s o (hl o (List.mem_cons_self _ _)) (by assumption)
    by_cases hd : (hook s o).2.2 = true
    · simp only [iterateList, hd, if_true]
      intro x hx
      rcases List.mem_append.1 hx with hx | hx
      · exact hk x hx
      · exact hrest x hx
    · simp only [iterateList, hd]
      intro x hx
      rcases List.mem_append.1 hx with hx | hx
      · exact hk x hx
      · exact ih x hx


/-! ### `createOrder` in terms of the walk of the opposite ladder -/

theorem createOrder_dup (book : Book) (order : Order) (h : order.Id ∈ book.createIndex) :
    createOrder book order = (book, order) := by
  simp [createOrder, h]

theorem createOrder_ask_eq (book : Book) (order : Order) (h : order.Id ∉ book.createIndex)
    (hs : order.Side = PageSideAsk) :
    createOrder book order =
      if (book.bids.Iterate (matchHook askStops) (book.transact, order)).1.2.«Type» =
            OrderTypeLimit ∧
          (book.bids.Iterate (matchHook askStops) (book.transact, order)).1.2.RemainingAmount > 0
      then
        ({ book with
            createIndex := order.Id :: book.createIndex
            transact := (book.bids.Iterate (matchHook askStops) (book.transact, order)).1.1
            bids := (book.bids.Iterate (matchHook askStops) (book.transact, order)).2
            asks := book.asks.Put
              (book.bids.Iterate (matchHook askStops) (book.transact, order)).1.2 },
          (book.bids.Iterate (matchHook askStops) (book.transact, order)).1.2)
      else
        ({ book with
            createIndex := order.Id :: book.createIndex
            transact := (book.bids.Iterate (matchHook askStops) (book.transact, order)).1.1
            bids := (book.bids.Iterate (matchHook askStops) (book.transact, order)).2 },
          (book.bids.Iterate (matchHook askStops) (book.transact, order)).1.2) := by
  simp only [createOrder, if_neg h, if_pos hs, askHook_eq]

theorem side_ne : PageSideBid ≠ PageSideAsk := by decide

theorem type_ne : OrderTypeMarket ≠ OrderTypeLimit := by decide

theorem createOrder_bid_eq (book : Book) (order : Order) (h : order.Id ∉ book.createIndex)
    (hs : order.Side = PageSideBid) :
    createOrder book order =
      if (book.asks.Iterate (matchHook bidStops) (book.transact, order)).1.2.«Type» =
            OrderTypeLimit ∧
          (book.asks.Iterate (matchHook bidStops) (book.transact, order)).1.2.RemainingAmount > 0
      then
        ({ book with
            createIndex := order.Id :: book.createIndex
            transact := (book.asks.Iterate (matchHook bidStops) (book.transact, order)).1.1
            asks := (book.asks.Iterate (matchHook bidStops) (book.transact, order)).2
            bids := book.bids.Put
              (book.asks.Iterate (matchHook bidStops) (book.transact, order)).1.2 },
          (book.asks.Iterate (matchHook bidStops) (book.transact, order)).1.2)
      else
        ({ book with
            createIndex := order.Id :: book.createIndex
            transact := (book.asks.Iterate (matchHook bidStops) (book.transact, order)).1.1
            asks := (book.asks.Iterate (matchHook bidStops) (book.transact, order)).2 },
          (book.asks.Iterate (matchHook bidStops) (book.transact, order)).1.2) := by
  have hs2 : order.Side ≠ PageSideAsk := by rw [hs]; exact side_ne
  simp only [createOrder, if_neg h, if_neg hs2, if_pos hs, bidHook_eq]

theorem createOrder_other (book : Book) (order : Order) (h : order.Id ∉ book.createIndex)
    (ha : order.Side ≠ PageSideAsk) (hb : order.Side ≠ PageSideBid) :
    createOrder book order =
      ({ book with createIndex := order.Id :: book.createIndex }, order) := by
  simp only [createOrder, if_neg h, if_neg ha, if_neg hb]

/-- The result of an ask, field by field, in terms of the walk of the bids. -/
theorem createOrder_ask (book : Book) (order : Order) (h : order.Id ∉ book.createIndex)
    (hs : order.Side = PageSideAsk) :
    (createOrder book order).2 =
        (iterateList (matchHook askStops) (book.transact, order) book.bids.bestFirst).1.2 ∧
      (createOrder book order).1.transact =
        (iterateList (matchHook askStops) (book.transact, order) book.bids.bestFirst).1.1 ∧
      (createOrder book order).1.bids.bestFirst =
        (iterateList (matchHook askStops) (book.transact, order) book.bids.bestFirst).2.1 ∧
      (createOrder book order).1.asks =
        (if (iterateList (matchHook askStops) (book.transact, order)
              book.bids.bestFirst).1.2.«Type» = OrderTypeLimit ∧
            (iterateList (matchHook askStops) (book.transact, order)
              book.bids.bestFirst).1.2.RemainingAmount > 0
          then book.asks.Put
            (iterateList (matchHook askStops) (book.transact, order) book.bids.bestFirst).1.2
          else book.asks) := by
  have h1 := Iterate_fst book.bids (matchHook askStops) (book.transact, order)
  have h2 := Iterate_bestFirst book.bids (matchHook askStops) (book.transact, order)
  rw [createOrder_ask_eq book order h hs, h1]
  split <;> simp [h2]

/-- The result of a bid, field by field, in terms of the walk of the asks. -/
theorem createOrder_bid (book : Book) (order : Order) (h : order.Id ∉ book.createIndex)
    (hs : order.Side = PageSideBid) :
    (createOrder book order).2 =
        (iterateList (matchHook bidStops) (book.transact, order) book.asks.bestFirst).1.2 ∧
      (createOrder book order).1.transact =
        (iterateList (matchHook bidStops) (book.transact, order) book.asks.bestFirst).1.1 ∧
      (createOrder book order).1.asks.bestFirst =
        (iterateList (matchHook bidStops) (book.transact, order) book.asks.bestFirst).2.1 ∧
      (createOrder book order).1.bids =
        (if (iterateList (matchHook bidStops) (book.transact, order)
              book.asks.bestFirst).1.2.«Type» = OrderTypeLimit ∧
            (iterateList (matchHook bidStops) (book.transact, order)
              book.asks.bestFirst).1.2.RemainingAmount > 0
          then book.bids.Put
            (iterateList (matchHook bidStops) (book.transact, order) book.asks.bestFirst).1.2
          else book.bids) := by
  have h1 := Iterate_fst book.asks (matchHook bidStops) (book.transact, order)
  have h2 := Iterate_bestFirst book.asks (matchHook bidStops) (book.transact, order)
  rw [createOrder_bid_eq book order h hs, h1]
  split <;> simp [h2]


/-! ### `Put` and `Remove` on the best-first sequence -/

theorem appendAt_mem (order : Order) (x : Order) :
    ∀ (es : List Entry), (∃ e ∈ es, e.price = order.Price) →
      (x ∈ (appendAt order es).flatMap (fun e => e.list) ↔
        x ∈ es.flatMap (fun e => e.list) ∨ x = order)
  | [], h => by simp at h
  | e :: es, h => by
    by_cases hp : e.price = order.Price
    · simp only [appendAt, if_pos hp, List.flatMap_cons, List.mem_append, List.mem_singleton]
      tauto
    · have h2 : ∃ e ∈ es, e.price = order.Price := by
        obtain ⟨e1, he1, hp1⟩ := h
        rcases List.mem_cons.1 he1 with he1 | he1
        · exact absurd (he1 ▸ hp1) hp
        · exact ⟨e1, he1, hp1⟩
      have ih := appendAt_mem order x es h2
      simp only [appendAt, if_neg hp, List.flatMap_cons, List.mem_append, ih]
      tauto

theorem insertLevel_mem (side : String) (order : Order) (x : Order) :
    ∀ (es : List Entry),
      (x ∈ (insertLevel side order es).flatMap (fun e => e.list) ↔
        x ∈ es.flatMap (fun e => e.list) ∨ x = order)
  | [] => by simp [insertLevel]
  | e :: es => by
    have ih := insertLevel_mem side order x es
    by_cases hb : better side order.Price e.price = true
    · simp only [insertLevel, if_pos hb, List.flatMap_cons, List.mem_append, List.mem_singleton]
      tauto
    · simp only [insertLevel, if_neg hb, List.flatMap_cons, List.mem_append, ih]
      tauto

theorem Put_mem (page : Page) (order : Order) (x : Order) :
    x ∈ (page.Put order).bestFirst ↔ x ∈ page.bestFirst ∨ x = order := by
  unfold Page.Put Page.bestFirst
  split
  · rename_i h
    have h2 : ∃ e ∈ page.points, e.price = order.Price := by
      simpa [List.any_eq_true] using h
    exact appendAt_mem order x page.points h2
  · exact insertLevel_mem page.Side order x page.points

theorem removePoints_mem (order : Order) (x : Order) :
    ∀ (es : List Entry), x ∈ (removePoints order es).flatMap (fun e => e.list) →
      x ∈ es.flatMap (fun e => e.list)
  | [], h => by simp [removePoints] at h
  | e :: es, h => by
    by_cases hp : e.price = order.Price
    · simp only [removePoints, if_pos hp] at h
      split at h
      · split at h
        · simp only [List.flatMap_cons, List.mem_append]
          exact Or.inr h
        · simp only [List.flatMap_cons, List.mem_append] at h ⊢
          rcases h with h | h
          · exact Or.inl (List.eraseP_subset _ h)
          · exact Or.inr h
      · exact h
    · simp only [removePoints, if_neg hp, List.flatMap_cons, List.mem_append] at h ⊢
      rcases h with h | h
      · exact Or.inl h
      · exact Or.inr (removePoints_mem order x es h)

theorem Remove_mem (page : Page) (order : Order) (x : Order)
    (h : x ∈ (page.Remove order).bestFirst) : x ∈ page.bestFirst :=
  removePoints_mem order x page.points h

/-! ### One match step -/

theorem process_balanced (transact : TransactCallback) (order opponent : Order)
    (ho : order.balanced) (hp : opponent.balanced) :
    (process transact order opponent).2.1.balanced ∧
      (process transact order opponent).2.2.balanced := by
  unfold Order.balanced Order.conserved at *
  simp only [process, wrap]
  split_ifs <;> refine ⟨⟨?_, ?_⟩, ?_, ?_⟩ <;> omega

theorem process_calls (transact : TransactCallback) (order opponent : Order) :
    ∀ c ∈ (process transact order opponent).1.calls,
      c ∈ transact.calls ∨
        c.1 = ((process transact order opponent).2.1, (process transact order opponent).2.2) := by
  intro c hc
  exact retry_mem transact _ c hc


theorem matchHook_balanced (stops : Order → Order → Bool) (t0 : TransactCallback)
    (s : TransactCallback × Order) (o : Order)
    (hs : s.2.balanced ∧
      ∀ c ∈ s.1.calls, c ∈ t0.calls ∨ (c.1.1.balanced ∧ c.1.2.balanced))
    (ho : o.balanced) :
    ((matchHook stops s o).1.2.balanced ∧
      ∀ c ∈ (matchHook stops s o).1.1.calls,
        c ∈ t0.calls ∨ (c.1.1.balanced ∧ c.1.2.balanced)) ∧
      (matchHook stops s o).2.1.balanced := by
  unfold matchHook
  split
  · exact ⟨hs, ho⟩
  · have hp := process_balanced s.1 s.2 o hs.1 ho
    refine ⟨⟨hp.1, ?_⟩, hp.2⟩
    intro c hc
    rcases process_calls s.1 s.2 o c hc with h | h
    · exact hs.2 c h
    · right
      rw [h]
      exact hp

theorem walk_balanced (stops : Order → Order → Bool) (t : TransactCallback) (order : Order)
    (l : List Order) (ho : order.balanced) (hl : ∀ o ∈ l, o.balanced) :
    (iterateList (matchHook stops) (t, order) l).1.2.balanced ∧
      (∀ c ∈ (iterateList (matchHook stops) (t, order) l).1.1.calls,
        c ∈ t.calls ∨ (c.1.1.balanced ∧ c.1.2.balanced)) ∧
      ∀ o ∈ (iterateList (matchHook stops) (t, order) l).2.1, o.balanced := by
  have h := iterateList_inv (matchHook stops)
    (fun s => s.2.balanced ∧
      ∀ c ∈ s.1.calls, c ∈ t.calls ∨ (c.1.1.balanced ∧ c.1.2.balanced))
    Order.balanced (fun s o hs ho => matchHook_balanced stops t s o hs ho) l (t, order)
    ⟨ho, fun c hc => Or.inl hc⟩ hl
  exact ⟨h.1.1, h.1.2, h.2⟩

theorem createOrder_balanced (book : Book) (order : Order)
    (ho : order.balanced) (hr : ∀ o ∈ book.resting, o.balanced) :
    (createOrder book order).2.balanced ∧
      (∀ o ∈ (createOrder book order).1.resting, o.balanced) ∧
      (∀ c ∈ (createOrder book order).1.transact.calls,
        c ∈ book.transact.calls ∨ (c.1.1.balanced ∧ c.1.2.balanced)) := by
  have hra : ∀ o ∈ book.asks.bestFirst, o.balanced :=
    fun o h => hr o (List.mem_append.2 (Or.inl h))
  have hrb : ∀ o ∈ book.bids.bestFirst, o.balanced :=
    fun o h => hr o (List.mem_append.2 (Or.inr h))
  by_cases hd : order.Id ∈ book.createIndex
  · rw [createOrder_dup book order hd]
    exact ⟨ho, hr, fun c hc => Or.inl hc⟩
  · by_cases hs : order.Side = PageSideAsk
    · obtain ⟨e1, e2, e3, e4⟩ := createOrder_ask book order hd hs
      have hw := walk_balanced askStops book.transact order book.bids.bestFirst ho hrb
      refine ⟨by rw [e1]; exact hw.1, ?_, by rw [e2]; exact hw.2.1⟩
      intro o hmem
      rcases List.mem_append.1 hmem with hmem | hmem
      · rw [e4] at hmem
        split at hmem
        · rcases (Put_mem _ _ _).1 hmem with h | h
          · exact hra o h
          · rw [h]; exact hw.1
        · exact hra o hmem
      · rw [e3] at hmem
        exact hw.2.2 o hmem
    · by_cases hs2 : order.Side = PageSideBid
      · obtain ⟨e1, e2, e3, e4⟩ := createOrder_bid book order hd hs2
        have hw := walk_balanced bidStops book.transact order book.asks.bestFirst ho hra
        refine ⟨by rw [e1]; exact hw.1, ?_, by rw [e2]; exact hw.2.1⟩
        intro o hmem
        rcases List.mem_append.1 hmem with hmem | hmem
        · rw [e3] at hmem
          exact hw.2.2 o hmem
        · rw [e4] at hmem
          split at hmem
          · rcases (Put_mem _ _ _).1 hmem with h | h
            · exact hrb o h
            · rw [h]; exact hw.1
          · exact hrb o hmem
      · rw [createOrder_other book order hd hs hs2]
        exact ⟨ho, hr, fun c hc => Or.inl hc⟩

theorem cancelOrder_resting (book : Book) (order : Order) (b : Book)
    (h : cancelOrder book order = .ok b) :
    (∀ o ∈ b.asks.bestFirst, o ∈ book.asks.bestFirst) ∧
      (∀ o ∈ b.bids.bestFirst, o ∈ book.bids.bestFirst) := by
  unfold cancelOrder at h
  split at h
  · cases h; exact ⟨fun _ h => h, fun _ h => h⟩
  · split at h
    · cases h
      exact ⟨fun o ho => Remove_mem _ _ _ ho, fun _ h => h⟩
    · split at h
      · cases h
        exact ⟨fun _ h => h, fun o ho => Remove_mem _ _ _ ho⟩
      · cases h

/-- C1. Conservation of amounts.  For orders whose numeric fields hold values of their
Go type: if `FilledAmount + RemainingAmount == Amount` holds for the incoming order
and for every resting order, then after `createOrder` it holds for the incoming
order, for every resting order and for both orders of every trade report made by the
call (an opponent that was resting and left the ladder filled is the opponent of such
a report); after `cancelOrder` it holds for every resting order (the incoming order
is not changed); and one `process` step preserves it for the order and the
opponent. -/
theorem conservation_of_amounts (book : Book) (order : Order)
    (ht : order.typed) (htr : ∀ o ∈ book.resting, o.typed)
    (ho : order.conserved) (hr : ∀ o ∈ book.resting, o.conserved) :
    ((createOrder book order).2.conserved ∧
      (∀ o ∈ (createOrder book order).1.resting, o.conserved) ∧
      (∀ c ∈ (createOrder book order).1.transact.calls,
        c ∈ book.transact.calls ∨ (c.1.1.conserved ∧ c.1.2.conserved))) ∧
      (∀ b, cancelOrder book order = .ok b → ∀ o ∈ b.resting, o.conserved) ∧
      (∀ (transact : TransactCallback) (opponent : Order), opponent.typed →
        opponent.conserved →
        (process transact order opponent).2.1.conserved ∧
          (process transact order opponent).2.2.conserved) := by
  have hb : order.balanced := ⟨ho, ht.2.1⟩
  have hbr : ∀ o ∈ book.resting, o.balanced := fun o h => ⟨hr o h, (htr o h).2.1⟩
  have hc := createOrder_balanced book order hb hbr
  refine ⟨⟨hc.1.1, fun o h => (hc.2.1 o h).1, ?_⟩, ?_, ?_⟩
  · intro c hmem
    rcases hc.2.2 c hmem with h | h
    · exact Or.inl h
    · exact Or.inr ⟨h.1.1, h.2.1⟩
  · intro b hb o hmem
    have hc := cancelOrder_resting book order b hb
    rcases List.mem_append.1 hmem with hmem | hmem
    · exact hr o (List.mem_append.2 (Or.inl (hc.1 o hmem)))
    · exact hr o (List.mem_append.2 (Or.inr (hc.2 o hmem)))
  · intro transact opponent htp hp
    have h := process_balanced transact order opponent hb ⟨hp, htp.2.1⟩
    exact ⟨h.1.1, h.2.1⟩


theorem conservation_of_amounts_witness :
    orderA1.typed ∧ (∀ o ∈ bookB1.resting, o.typed) ∧
      orderA1.conserved ∧ (∀ o ∈ bookB1.resting, o.conserved) ∧
      (createOrder bookB1 orderA1).2.conserved ∧
      (∀ o ∈ (createOrder bookB1 orderA1).1.resting, o.conserved) :=
  ⟨by decide, by decide, by decide, by decide,
    (conservation_of_amounts bookB1 orderA1 (by decide) (by decide) (by decide)
      (by decide)).1.1,
    (conservation_of_amounts bookB1 orderA1 (by decide) (by decide) (by decide)
      (by decide)).1.2.1⟩

/-! ### The resting-order invariant -/

theorem process_type (transact : TransactCallback) (order opponent : Order) :
    (process transact order opponent).2.2.«Type» = opponent.«Type» := rfl

theorem matchHook_restingOK (stops : Order → Order → Bool) (s : TransactCallback × Order)
    (o : Order) (ho : o.restingOK) (hr : (matchHook stops s o).2.1.RemainingAmount ≠ 0) :
    (matchHook stops s o).2.1.restingOK := by
  unfold matchHook at hr ⊢
  split
  · exact ho
  · rename_i hc
    rw [if_neg hc] at hr
    exact ⟨ho.1, Nat.pos_of_ne_zero hr⟩

theorem walk_restingOK (stops : Order → Order → Bool) (s : TransactCallback × Order)
    (l : List Order) (hl : ∀ o ∈ l, o.restingOK) :
    ∀ o ∈ (iterateList (matchHook stops) s l).2.1, o.restingOK :=
  iterateList_keeps (matchHook stops) Order.restingOK
    (fun s o ho hr => matchHook_restingOK stops s o ho hr) l s hl

theorem createOrder_restingOK (book : Book) (order : Order)
    (hr : ∀ o ∈ book.resting, o.restingOK) :
    ∀ o ∈ (createOrder book order).1.resting, o.restingOK := by
  have hra : ∀ o ∈ book.asks.bestFirst, o.restingOK :=
    fun o h => hr o (List.mem_append.2 (Or.inl h))
  have hrb : ∀ o ∈ book.bids.bestFirst, o.restingOK :=
    fun o h => hr o (List.mem_append.2 (Or.inr h))
  by_cases hd : order.Id ∈ book.createIndex
  · rw [createOrder_dup book order hd]; exact hr
  · by_cases hs : order.Side = PageSideAsk
    · obtain ⟨_, _, e3, e4⟩ := createOrder_ask book order hd hs
      have hw := walk_restingOK askStops (book.transact, order) book.bids.bestFirst hrb
      intro o hmem
      rcases List.mem_append.1 hmem with hmem | hmem
      · rw [e4] at hmem
        split at hmem
        · rename_i hc
          rcases (Put_mem _ _ _).1 hmem with h | h
          · exact hra o h
          · rw [h]; exact hc
        · exact hra o hmem
      · rw [e3] at hmem
        exact hw o hmem
    · by_cases hs2 : order.Side = PageSideBid
      · obtain ⟨_, _, e3, e4⟩ := createOrder_bid book order hd hs2
        have hw := walk_restingOK bidStops (book.transact, order) book.asks.bestFirst hra
        intro o hmem
        rcases List.mem_append.1 hmem with hmem | hmem
        · rw [e3] at hmem
          exact hw o hmem
        · rw [e4] at hmem
          split at hmem
          · rename_i hc
            rcases (Put_mem _ _ _).1 hmem with h | h
            · exact hrb o h
            · rw [h]; exact hc
          · exact hrb o hmem
      · rw [createOrder_other book order hd hs hs2]; exact hr

theorem cancelOrder_restingOK (book : Book) (order : Order) (b : Book)
    (h : cancelOrder book order = .ok b) (hr : ∀ o ∈ book.resting, o.restingOK) :
    ∀ o ∈ b.resting, o.restingOK := by
  intro o hmem
  have hc := cancelOrder_resting book order b h
  rcases List.mem_append.1 hmem with hmem | hmem
  · exact hr o (List.mem_append.2 (Or.inl (hc.1 o hmem)))
  · exact hr o (List.mem_append.2 (Or.inr (hc.2 o hmem)))

theorem dispatch_restingOK (book : Book) (event : OrderEvent) (b : Book)
    (h : dispatch book event = .ok b) (hr : ∀ o ∈ book.resting, o.restingOK) :
    ∀ o ∈ b.resting, o.restingOK := by
  unfold dispatch at h
  split at h
  · cases h; exact createOrder_restingOK book event.Order hr
  · split at h
    · exact cancelOrder_restingOK book event.Order b h hr
    · cases h

theorem applyEvents_restingOK :
    ∀ (events : List OrderEvent) (book b : Book), applyEvents book events = .ok b →
      (∀ o ∈ book.resting, o.restingOK) → ∀ o ∈ b.resting, o.restingOK
  | [], book, b, h, hr => by
    simp only [applyEvents] at h
    cases h; exact hr
  | event :: events, book, b, h, hr => by
    simp only [applyEvents] at h
    split at h
    · rename_i b1 hb1
      exact applyEvents_restingOK events b1 b h (dispatch_restingOK book event b1 hb1 hr)
    · cases h

/-- C2. Resting-order invariant.  In every state reached from a new book (`NewBook`)
by a finite sequence of commands applied through `createOrder` and `cancelOrder`,
every order in the ask or the bid ladder has `Type = Limit` and
`RemainingAmount > 0`; so no opponent that a match brought to zero is in a ladder
when `createOrder` returns. -/
theorem resting_order_invariant (pricePrecision amountPrecision : Int)
    (transact : TransactCallback) (cancel : CancelCallback) (events : List OrderEvent)
    (b : Book)
    (h : applyEvents (NewBook pricePrecision amountPrecision transact cancel) events = .ok b) :
    ∀ o ∈ b.resting, o.«Type» = OrderTypeLimit ∧ o.RemainingAmount > 0 :=
  applyEvents_restingOK events _ b h (by simp [NewBook, Book.resting, NewPage, Page.bestFirst])

theorem resting_order_invariant_witness :
    applyEvents (NewBook 8 8 ⟨[], []⟩ ⟨[], []⟩)
        [⟨orderB1, OrderActionCreate⟩, ⟨orderA1, OrderActionCreate⟩,
          ⟨orderA1, OrderActionCancel⟩] = .ok bookB1A1Cancel ∧
      bookB1A1Cancel.resting = [⟨"B1", PageSideBid, OrderTypeLimit, 10, 5, 2, 3⟩] ∧
      ∀ o ∈ bookB1A1Cancel.resting, o.«Type» = OrderTypeLimit ∧ o.RemainingAmount > 0 :=
  ⟨by decide, by decide,
    resting_order_invariant 8 8 ⟨[], []⟩ ⟨[], []⟩
      [⟨orderB1, OrderActionCreate⟩, ⟨orderA1, OrderActionCreate⟩,
        ⟨orderA1, OrderActionCancel⟩] bookB1A1Cancel (by decide)⟩


/-! ### The walk of `createOrder`, step by step -/

theorem walk_nil (stops : Order → Order → Bool) (s : TransactCallback × Order) :
    iterateList (matchHook stops) s [] = (s, [], false) := rfl

theorem walk_stop (stops : Order → Order → Bool) (s : TransactCallback × Order) (p : Order)
    (rest : List Order) (h : s.2.«Type» = OrderTypeLimit ∧ stops s.2 p = true) :
    iterateList (matchHook stops) s (p :: rest) = (s, keep p ++ rest, true) := by
  simp [iterateList, matchHook, h, keep]

theorem walk_done (stops : Order → Order → Bool) (s : TransactCallback × Order) (p : Order)
    (rest : List Order) (h : ¬(s.2.«Type» = OrderTypeLimit ∧ stops s.2 p = true))
    (hz : (process s.1 s.2 p).2.1.RemainingAmount = 0) :
    iterateList (matchHook stops) s (p :: rest) =
      (((process s.1 s.2 p).1, (process s.1 s.2 p).2.1),
        keep (process s.1 s.2 p).2.2 ++ rest, true) := by
  simp only [iterateList, matchHook, if_neg h, hz, keep]
  simp

theorem process_remaining_zero (t : TransactCallback) (o p : Order)
    (hz : (process t o p).2.1.RemainingAmount ≠ 0) :
    (process t o p).2.2.RemainingAmount = 0 := by
  simp only [process] at hz ⊢
  split_ifs at hz ⊢ <;> omega

theorem walk_next (stops : Order → Order → Bool) (s : TransactCallback × Order) (p : Order)
    (rest : List Order) (h : ¬(s.2.«Type» = OrderTypeLimit ∧ stops s.2 p = true))
    (hz : (process s.1 s.2 p).2.1.RemainingAmount ≠ 0) :
    iterateList (matchHook stops) s (p :: rest) =
      iterateList (matchHook stops) ((process s.1 s.2 p).1, (process s.1 s.2 p).2.1) rest := by
  have hp := process_remaining_zero s.1 s.2 p hz
  simp only [iterateList, matchHook, if_neg h, hz, hp]
  simp

theorem process_ident (t : TransactCallback) (o p : Order) :
    (process t o p).2.1.ident = o.ident ∧ (process t o p).2.2.ident = p.ident :=
  ⟨rfl, rfl⟩

theorem process_reports (t : TransactCallback) (o p : Order) :
    (process t o p).1.reports = t.reports ++ [((process t o p).2.1, (process t o p).2.2)] :=
  retry_reports t _


theorem mem_dropLast_cons {α : Type} (x : α) (xs : List α) (c : α)
    (h : c ∈ (x :: xs).dropLast) : c = x ∨ c ∈ xs.dropLast := by
  cases xs with
  | nil => simp at h
  | cons y ys =>
    rw [List.dropLast_cons₂] at h
    exact List.mem_cons.1 h

theorem keep_suffix (p : Order) (rest : List Order) : (keep p ++ rest) <:+ (p :: rest) := by
  unfold keep
  split
  · exact List.suffix_cons p rest
  · exact List.suffix_refl _

theorem filter_keep (p : Order) :
    [p].filter (fun q => decide (q.RemainingAmount ≠ 0)) = keep p := by
  unfold keep
  by_cases h : p.RemainingAmount = 0 <;> simp [h]

/-- The walk of `createOrder` through the best-first sequence `l`: the trades it
reports, and what it leaves of `l`. -/
theorem walk_spec (stops : Order → Order → Bool)
    (hst : ∀ a b p q : Order, a.Price = b.Price → p.Price = q.Price → stops a p = stops b q) :
    ∀ (l : List Order) (s : TransactCallback × Order),
      ∃ (news : List (Order × Order)) (rest : List Order),
        (iterateList (matchHook stops) s l).1.1.reports = s.1.reports ++ news ∧
        (iterateList (matchHook stops) s l).2.1 =
          (news.map Prod.snd).filter (fun q => decide (q.RemainingAmount ≠ 0)) ++ rest ∧
        rest <:+ l.drop news.length ∧
        news.map (fun c => c.2.ident) = (l.take news.length).map Order.ident ∧
        (∀ c ∈ news, c.1.ident = s.2.ident) ∧
        (∀ c ∈ news.dropLast, c.2.RemainingAmount = 0) ∧
        (s.2.«Type» = OrderTypeLimit → ∀ c ∈ news, stops s.2 c.2 = false) ∧
        (iterateList (matchHook stops) s l).1.2.ident = s.2.ident
  | [], s => ⟨[], [], by simp [walk_nil]⟩
  | p :: tail, s => by
    by_cases h : s.2.«Type» = OrderTypeLimit ∧ stops s.2 p = true
    · rw [walk_stop stops s p tail h]
      exact ⟨[], keep p ++ tail, by simp, by simp, by simpa using keep_suffix p tail, by simp,
        by simp, by simp, by simp, rfl⟩
    · have hcross : s.2.«Type» = OrderTypeLimit → stops s.2 (process s.1 s.2 p).2.2 = false := by
        intro hl
        have h1 : stops s.2 p ≠ true := fun hc => h ⟨hl, hc⟩
        rw [hst s.2 s.2 (process s.1 s.2 p).2.2 p rfl rfl]
        simpa using h1
      by_cases hz : (process s.1 s.2 p).2.1.RemainingAmount = 0
      · rw [walk_done stops s p tail h hz]
        refine ⟨[((process s.1 s.2 p).2.1, (process s.1 s.2 p).2.2)], tail, ?_, ?_, ?_, ?_, ?_,
          ?_, ?_, ?_⟩
        · exact process_reports s.1 s.2 p
        · simp only [List.map_cons, List.map_nil, filter_keep]
        · simp
        · simp [(process_ident s.1 s.2 p).2]
        · intro c hc
          rw [List.mem_singleton.1 hc]
          exact (process_ident s.1 s.2 p).1
        · simp
        · intro hl c hc
          rw [List.mem_singleton.1 hc]
          exact hcross hl
        · exact (process_ident s.1 s.2 p).1
      · rw [walk_next stops s p tail h hz]
        obtain ⟨news, rest, h1, h2, h3, h4, h5, h6, h7, h8⟩ :=
          walk_spec stops hst tail ((process s.1 s.2 p).1, (process s.1 s.2 p).2.1)
        have hp := process_remaining_zero s.1 s.2 p hz
        refine ⟨((process s.1 s.2 p).2.1, (process s.1 s.2 p).2.2) :: news, rest, ?_, ?_, ?_, ?_,
          ?_, ?_, ?_, ?_⟩
        · rw [h1, process_reports]
          simp
        · rw [h2]
          simp [hp]
        · simpa using h3
        · simp only [List.map_cons, List.length_cons, List.take_succ_cons, h4,
            (process_ident s.1 s.2 p).2]
        · intro c hc
          rcases List.mem_cons.1 hc with hc | hc
          · rw [hc]; exact (process_ident s.1 s.2 p).1
          · rw [h5 c hc]; exact (process_ident s.1 s.2 p).1
        · intro c hc
          rcases mem_dropLast_cons _ _ _ hc with hc | hc
          · rw [hc]; exact hp
          · exact h6 c hc
        · intro hl c hc
          rcases List.mem_cons.1 hc with hc | hc
          · rw [hc]; exact hcross hl
          · have := h7 hl c hc
            rw [← this]
            exact hst _ _ _ _ rfl rfl
        · rw [h8]; exact (process_ident s.1 s.2 p).1

theorem askStops_price (a b p q : Order) (h1 : a.Price = b.Price) (h2 : p.Price = q.Price) :
    askStops a p = askStops b q := by
  simp [askStops, h1, h2]

theorem bidStops_price (a b p q : Order) (h1 : a.Price = b.Price) (h2 : p.Price = q.Price) :
    bidStops a p = bidStops b q := by
  simp [bidStops, h1, h2]


/-! ### Ladders stay in price order -/

theorem better_trans (side : String) (p q r : Nat) (h1 : better side p q = true)
    (h2 : better side q r = true) : better side p r = true := by
  unfold better at *
  split at h1 <;> simp_all <;> omega

theorem better_total (side : String) (p q : Nat) (h1 : ¬ better side p q = true)
    (h2 : p ≠ q) : better side q p = true := by
  unfold better at *
  split at h1 <;> simp_all <;> omega

theorem insertLevel_entry (side : String) (order : Order) (x : Entry) :
    ∀ (es : List Entry), x ∈ insertLevel side order es ↔ x = ⟨order.Price, [order]⟩ ∨ x ∈ es
  | [] => by simp [insertLevel]
  | e :: es => by
    by_cases hb : better side order.Price e.price = true
    · simp [insertLevel, hb]
    · simp only [insertLevel, if_neg hb, List.mem_cons, insertLevel_entry side order x es]
      tauto

theorem insertLevel_pairwise (side : String) (order : Order) :
    ∀ (es : List Entry), es.Pairwise (fun e f => better side e.price f.price = true) →
      (∀ e ∈ es, e.price ≠ order.Price) →
      (insertLevel side order es).Pairwise (fun e f => better side e.price f.price = true)
  | [], _, _ => by simp [insertLevel]
  | e :: es, hp, hne => by
    have hc := List.pairwise_cons.1 hp
    by_cases hb : better side order.Price e.price = true
    · simp only [insertLevel, if_pos hb]
      refine List.pairwise_cons.2 ⟨?_, hp⟩
      intro f hf
      rcases List.mem_cons.1 hf with hf | hf
      · rw [hf]; exact hb
      · exact better_trans side _ _ _ hb (hc.1 f hf)
    · simp only [insertLevel, if_neg hb]
      refine List.pairwise_cons.2 ⟨?_, insertLevel_pairwise side order es hc.2
        (fun x hx => hne x (List.mem_cons_of_mem _ hx))⟩
      intro f hf
      rcases (insertLevel_entry side order f es).1 hf with hf | hf
      · rw [hf]
        exact better_total side _ _ hb (fun h => hne e (List.mem_cons_self _ _) h.symm)
      · exact hc.1 f hf

theorem appendAt_prices (order : Order) :
    ∀ (es : List Entry), (appendAt order es).map (fun e => e.price) = es.map (fun e => e.price)
  | [] => rfl
  | e :: es => by
    by_cases hp : e.price = order.Price
    · simp [appendAt, hp]
    · simp [appendAt, hp, appendAt_prices order es]

theorem appendAt_levels (order : Order) :
    ∀ (es : List Entry), (∀ e ∈ es, ∀ o ∈ e.list, o.Price = e.price) →
      ∀ e ∈ appendAt order es, ∀ o ∈ e.list, o.Price = e.price
  | [], _ => by simp [appendAt]
  | e :: es, h => by
    have he := h e (List.mem_cons_self _ _)
    have hes : ∀ x ∈ es, ∀ o ∈ x.list, o.Price = x.price :=
      fun x hx => h x (List.mem_cons_of_mem _ hx)
    by_cases hp : e.price = order.Price
    · simp only [appendAt, if_pos hp]
      intro x hx o ho
      rcases List.mem_cons.1 hx with hx | hx
      · rw [hx] at ho ⊢
        rcases List.mem_append.1 ho with ho | ho
        · exact he o ho
        · rw [List.mem_singleton.1 ho]; exact hp.symm
      · exact hes x hx o ho
    · simp only [appendAt, if_neg hp]
      intro x hx o ho
      rcases List.mem_cons.1 hx with hx | hx
      · rw [hx] at ho ⊢; exact he o ho
      · exact appendAt_levels order es hes x hx o ho

theorem pairwise_of_prices (side : String) (es es1 : List Entry)
    (hsub : (es1.map (fun e => e.price)).Sublist (es.map (fun e => e.price)))
    (h : es.Pairwise (fun e f => better side e.price f.price = true)) :
    es1.Pairwise (fun e f => better side e.price f.price = true) := by
  have h1 : (es.map (fun e => e.price)).Pairwise (fun p q => better side p q = true) :=
    List.pairwise_map.2 h
  exact List.pairwise_map.1 (h1.sublist hsub)

theorem Put_wf (page : Page) (order : Order) (h : page.wf) : (page.Put order).wf := by
  unfold Page.Put
  split
  · refine ⟨?_, appendAt_levels order page.points h.2⟩
    refine pairwise_of_prices page.Side page.points (appendAt order page.points) ?_ h.1
    rw [appendAt_prices]
  · rename_i hn
    have h2 : ∀ e ∈ page.points, e.price ≠ order.Price := by
      simpa [List.any_eq_true] using hn
    refine ⟨insertLevel_pairwise page.Side order page.points h.1 h2, ?_⟩
    intro e he o ho
    rcases (insertLevel_entry page.Side order e page.points).1 he with he | he
    · rw [he] at ho ⊢
      rw [List.mem_singleton.1 ho]
    · exact h.2 e he o ho

theorem Put_side (page : Page) (order : Order) : (page.Put order).Side = page.Side := by
  unfold Page.Put
  split <;> rfl

theorem removePoints_prices (order : Order) :
    ∀ (es : List Entry),
      ((removePoints order es).map (fun e => e.price)).Sublist (es.map (fun e => e.price))
  | [] => by simp [removePoints]
  | e :: es => by
    by_cases hp : e.price = order.Price
    · simp only [removePoints, if_pos hp]
      split
      · split
        · exact List.Sublist.cons _ (List.Sublist.refl _)
        · exact List.Sublist.refl _
      · exact List.Sublist.refl _
    · simp only [removePoints, if_neg hp, List.map_cons]
      exact List.Sublist.cons₂ _ (removePoints_prices order es)

theorem removePoints_levels (order : Order) :
    ∀ (es : List Entry), (∀ e ∈ es, ∀ o ∈ e.list, o.Price = e.price) →
      ∀ e ∈ removePoints order es, ∀ o ∈ e.list, o.Price = e.price
  | [], _ => by simp [removePoints]
  | e :: es, h => by
    have he := h e (List.mem_cons_self _ _)
    have hes : ∀ x ∈ es, ∀ o ∈ x.list, o.Price = x.price :=
      fun x hx => h x (List.mem_cons_of_mem _ hx)
    by_cases hp : e.price = order.Price
    · simp only [removePoints, if_pos hp]
      split
      · split
        · exact hes
        · intro x hx o ho
          rcases List.mem_cons.1 hx with hx | hx
          · rw [hx] at ho ⊢
            exact he o (List.eraseP_subset _ ho)
          · exact hes x hx o ho
      · exact h
    · simp only [removePoints, if_neg hp]
      intro x hx o ho
      rcases List.mem_cons.1 hx with hx | hx
      · rw [hx] at ho ⊢; exact he o ho
      · exact removePoints_levels order es hes x hx o ho

theorem Remove_wf (page : Page) (order : Order) (h : page.wf) : (page.Remove order).wf :=
  ⟨pairwise_of_prices page.Side page.points (removePoints order page.points)
    (removePoints_prices order page.points) h.1, removePoints_levels order page.points h.2⟩

theorem iteratePoints_prices {σ : Type} (hook : σ → Order → σ × Order × Bool) :
    ∀ (es : List Entry) (s : σ),
      (((iteratePoints hook s es).2).map (fun e => e.price)).Sublist
        (es.map (fun e => e.price))
  | [], s => by simp [iteratePoints]
  | e :: es, s => by
    have ih := iteratePoints_prices hook es (iterateList hook s e.list).1
    by_cases hd : (iterateList hook s e.list).2.2 = true
    · by_cases hempty : (iterateList hook s e.list).2.1.isEmpty = true
      · simp only [iteratePoints, hd, if_true, hempty, List.nil_append, List.map_cons]
        exact List.Sublist.cons _ (List.Sublist.refl _)
      · simp only [iteratePoints, hd, if_true, hempty, List.singleton_append, List.map_cons]
        exact List.Sublist.refl _
    · by_cases hempty : (iterateList hook s e.list).2.1.isEmpty = true
      · simp only [iteratePoints, hd, hempty, if_true, List.nil_append, List.map_cons]
        exact List.Sublist.cons _ ih
      · simp only [iteratePoints, hd, hempty, List.singleton_append, List.map_cons]
        exact List.Sublist.cons₂ _ ih

theorem iteratePoints_levels {σ : Type} (hook : σ → Order → σ × Order × Bool)
    (hprice : ∀ s o, (hook s o).2.1.Price = o.Price) :
    ∀ (es : List Entry) (s : σ), (∀ e ∈ es, ∀ o ∈ e.list, o.Price = e.price) →
      ∀ e ∈ (iteratePoints hook s es).2, ∀ o ∈ e.list, o.Price = e.price
  | [], s, _ => by simp [iteratePoints]
  | e :: es, s, h => by
    have he := h e (List.mem_cons_self _ _)
    have hes : ∀ x ∈ es, ∀ o ∈ x.list, o.Price = x.price :=
      fun x hx => h x (List.mem_cons_of_mem _ hx)
    have hk := iterateList_keeps hook (fun o => o.Price = e.price)
      (fun s o ho _ => by
        show (hook s o).2.1.Price = e.price
        rw [hprice]; exact ho) e.list s he
    have ih := iteratePoints_levels hook hprice es (iterateList hook s e.list).1 hes
    have hhead : ∀ x ∈ (if (iterateList hook s e.list).2.1.isEmpty = true then ([] : List Entry)
        else [⟨e.price, (iterateList hook s e.list).2.1⟩]), ∀ o ∈ x.list, o.Price = x.price := by
      intro x hx o ho
      split at hx
      · simp at hx
      · rw [List.mem_singleton.1 hx] at ho ⊢
        exact hk o ho
    by_cases hd : (iterateList hook s e.list).2.2 = true
    · simp only [iteratePoints, hd, if_true]
      intro x hx o ho
      rcases List.mem_append.1 hx with hx | hx
      · exact hhead x hx o ho
      · exact hes x hx o ho
    · simp only [iteratePoints, hd]
      intro x hx o ho
      rcases List.mem_append.1 hx with hx | hx
      · exact hhead x hx o ho
      · exact ih x hx o ho

theorem Iterate_wf {σ : Type} (page : Page) (hook : σ → Order → σ × Order × Bool) (s : σ)
    (hprice : ∀ s o, (hook s o).2.1.Price = o.Price) (h : page.wf) :
    (page.Iterate hook s).2.wf := by
  exact ⟨pairwise_of_prices page.Side page.points (iteratePoints hook s page.points).2
    (iteratePoints_prices hook page.points s) h.1,
    iteratePoints_levels hook hprice page.points s h.2⟩

theorem matchHook_price (stops : Order → Order → Bool) (s : TransactCallback × Order)
    (o : Order) : (matchHook stops s o).2.1.Price = o.Price := by
  unfold matchHook
  split <;> rfl


theorem Iterate_side {σ : Type} (page : Page) (hook : σ → Order → σ × Order × Bool) (s : σ) :
    (page.Iterate hook s).2.Side = page.Side := rfl

theorem createOrder_wf (book : Book) (order : Order) (h : book.wf) :
    (createOrder book order).1.wf := by
  obtain ⟨ha, hb, hwa, hwb⟩ := h
  by_cases hd : order.Id ∈ book.createIndex
  · rw [createOrder_dup book order hd]; exact ⟨ha, hb, hwa, hwb⟩
  · by_cases hs : order.Side = PageSideAsk
    · have hw := Iterate_wf book.bids (matchHook askStops) (book.transact, order)
        (matchHook_price askStops) hwb
      rw [createOrder_ask_eq book order hd hs]
      split
      · exact ⟨by rw [Put_side]; exact ha, hb, Put_wf _ _ hwa, hw⟩
      · exact ⟨ha, hb, hwa, hw⟩
    · by_cases hs2 : order.Side = PageSideBid
      · have hw := Iterate_wf book.asks (matchHook bidStops) (book.transact, order)
          (matchHook_price bidStops) hwa
        rw [createOrder_bid_eq book order hd hs2]
        split
        · exact ⟨ha, by rw [Put_side]; exact hb, hw, Put_wf _ _ hwb⟩
        · exact ⟨ha, hb, hw, hwb⟩
      · rw [createOrder_other book order hd hs hs2]; exact ⟨ha, hb, hwa, hwb⟩

theorem cancelOrder_wf (book : Book) (order : Order) (b : Book)
    (h : cancelOrder book order = .ok b) (hw : book.wf) : b.wf := by
  obtain ⟨ha, hb, hwa, hwb⟩ := hw
  unfold cancelOrder at h
  split at h
  · cases h; exact ⟨ha, hb, hwa, hwb⟩
  · split at h
    · cases h
      exact ⟨ha, hb, Remove_wf _ _ hwa, hwb⟩
    · split at h
      · cases h
        exact ⟨ha, hb, hwa, Remove_wf _ _ hwb⟩
      · cases h

theorem dispatch_wf (book : Book) (event : OrderEvent) (b : Book)
    (h : dispatch book event = .ok b) (hw : book.wf) : b.wf := by
  unfold dispatch at h
  split at h
  · cases h; exact createOrder_wf book event.Order hw
  · split at h
    · exact cancelOrder_wf book event.Order b h hw
    · cases h

theorem applyEvents_wf :
    ∀ (events : List OrderEvent) (book b : Book), applyEvents book events = .ok b →
      book.wf → b.wf
  | [], book, b, h, hw => by
    simp only [applyEvents] at h
    cases h; exact hw
  | event :: events, book, b, h, hw => by
    simp only [applyEvents] at h
    split at h
    · rename_i b1 hb1
      exact applyEvents_wf events b1 b h (dispatch_wf book event b1 hb1 hw)
    · cases h

theorem NewBook_wf (pricePrecision amountPrecision : Int) (transact : TransactCallback)
    (cancel : CancelCallback) : (NewBook pricePrecision amountPrecision transact cancel).wf := by
  simp [NewBook, Book.wf, Page.wf, NewPage]

theorem wf_bestFirst (page : Page) (h : page.wf) :
    page.bestFirst.Pairwise
      (fun a b => a.Price = b.Price ∨ better page.Side a.Price b.Price = true) := by
  unfold Page.bestFirst
  rw [List.pairwise_flatMap]
  constructor
  · intro e he
    refine (List.pairwise_of_forall (l := e.list) (R := fun _ _ => True)
      (fun _ _ => trivial)).imp_of_mem ?_
    intro a b ha hb _
    exact Or.inl (by rw [h.2 e he a ha, h.2 e he b hb])
  · refine h.1.imp_of_mem ?_
    intro e f he hf hef a ha b hb
    right
    rw [h.2 e he a ha, h.2 f hf b hb]
    exact hef

/-- In a well-formed book the bids are in best-first order from the highest price to
the lowest and the asks from the lowest price to the highest. -/
theorem wf_sorted (book : Book) (h : book.wf) :
    book.bids.bestFirst.Pairwise (fun a b => b.Price ≤ a.Price) ∧
      book.asks.bestFirst.Pairwise (fun a b => a.Price ≤ b.Price) := by
  obtain ⟨ha, hb, hwa, hwb⟩ := h
  constructor
  · refine (wf_bestFirst book.bids hwb).imp ?_
    intro a b hab
    rw [hb] at hab
    rcases hab with hab | hab
    · omega
    · simp only [better, if_neg side_ne, decide_eq_true_eq] at hab
      omega
  · refine (wf_bestFirst book.asks hwa).imp ?_
    intro a b hab
    rw [ha] at hab
    rcases hab with hab | hab
    · omega
    · simp only [better, if_true, decide_eq_true_eq] at hab
      omega

/-- Every book reached from a new book is well formed. -/
theorem reachable_wf (pricePrecision amountPrecision : Int) (transact : TransactCallback)
    (cancel : CancelCallback) (events : List OrderEvent) (b : Book)
    (h : applyEvents (NewBook pricePrecision amountPrecision transact cancel) events = .ok b) :
    b.wf :=
  applyEvents_wf events _ b h (NewBook_wf pricePrecision amountPrecision transact cancel)


/-! ### The crossing boundary -/

theorem matchHook_crossing (stops : Order → Order → Bool)
    (hst : ∀ a b p q : Order, a.Price = b.Price → p.Price = q.Price → stops a p = stops b q)
    (order : Order) (t0 : TransactCallback) (s : TransactCallback × Order) (o : Order)
    (hs : (s.2.ident = order.ident) ∧
      ∀ c ∈ s.1.calls, c ∈ t0.calls ∨ stops order c.1.2 = false)
    (hl : order.«Type» = OrderTypeLimit) :
    ((matchHook stops s o).1.2.ident = order.ident) ∧
      ∀ c ∈ (matchHook stops s o).1.1.calls, c ∈ t0.calls ∨ stops order c.1.2 = false := by
  have hty : s.2.«Type» = OrderTypeLimit := by
    have := hs.1
    simp only [Order.ident, Prod.mk.injEq] at this
    rw [this.2.2.1]; exact hl
  have hpr : s.2.Price = order.Price := by
    have := hs.1
    simp only [Order.ident, Prod.mk.injEq] at this
    exact this.2.2.2.1
  unfold matchHook
  split
  · exact hs
  · rename_i hc
    refine ⟨by rw [← hs.1]; rfl, ?_⟩
    intro c hmem
    rcases process_calls s.1 s.2 o c hmem with h | h
    · exact hs.2 c h
    · right
      rw [h]
      have h1 : stops s.2 o ≠ true := fun hh => hc ⟨hty, hh⟩
      rw [hst order s.2 (process s.1 s.2 o).2.2 o hpr.symm rfl]
      simpa using h1

theorem walk_crossing (stops : Order → Order → Bool)
    (hst : ∀ a b p q : Order, a.Price = b.Price → p.Price = q.Price → stops a p = stops b q)
    (t : TransactCallback) (order : Order) (l : List Order)
    (hl : order.«Type» = OrderTypeLimit) :
    ∀ c ∈ (iterateList (matchHook stops) (t, order) l).1.1.calls,
      c ∈ t.calls ∨ stops order c.1.2 = false :=
  (iterateList_inv (matchHook stops)
    (fun s => (s.2.ident = order.ident) ∧
      ∀ c ∈ s.1.calls, c ∈ t.calls ∨ stops order c.1.2 = false)
    (fun _ => True)
    (fun s o hs _ => ⟨matchHook_crossing stops hst order t s o hs hl, trivial⟩) l (t, order)
    ⟨rfl, fun _ hc => Or.inl hc⟩ (fun _ _ => trivial)).1.2

theorem walk_stops_at (stops : Order → Order → Bool)
    (hst : ∀ a b p q : Order, a.Price = b.Price → p.Price = q.Price → stops a p = stops b q)
    (s : TransactCallback × Order) (pre post : List Order) (x : Order)
    (hl : s.2.«Type» = OrderTypeLimit) (hx : stops s.2 x = true) :
    post <:+ (iterateList (matchHook stops) s (pre ++ x :: post)).2.1 ∧
      (x.RemainingAmount ≠ 0 →
        (x :: post) <:+ (iterateList (matchHook stops) s (pre ++ x :: post)).2.1) ∧
      (iterateList (matchHook stops) s (pre ++ x :: post)).1.1.reports.length ≤
        s.1.reports.length + pre.length := by
  obtain ⟨news, rest, h1, _, _, h4, _, _, _, h8⟩ := walk_spec stops hst pre s
  have hlen : news.length ≤ pre.length := by
    have := congrArg List.length h4
    simp only [List.length_map, List.length_take] at this
    omega
  have hrep : (iterateList (matchHook stops) s pre).1.1.reports.length ≤
      s.1.reports.length + pre.length := by
    rw [h1, List.length_append]; omega
  rw [iterateList_append]
  split
  · refine ⟨?_, fun _ => ?_, hrep⟩
    · exact (List.suffix_cons x post).trans (List.suffix_append _ _)
    · exact List.suffix_append _ _
  · have hid := h8
    simp only [Order.ident, Prod.mk.injEq] at hid
    have hstop : (iterateList (matchHook stops) s pre).1.2.«Type» = OrderTypeLimit ∧
        stops (iterateList (matchHook stops) s pre).1.2 x = true := by
      refine ⟨by rw [hid.2.2.1]; exact hl, ?_⟩
      rw [hst _ s.2 x x hid.2.2.2.1 rfl]; exact hx
    rw [walk_stop stops _ x post hstop]
    refine ⟨?_, fun hx0 => ?_, hrep⟩
    · exact (List.suffix_append _ _).trans (List.suffix_append _ _)
    · have hk : keep x = [x] := by simp [keep, hx0]
      rw [hk]
      exact List.suffix_append _ _

/-- C3. Crossing boundary.  For a Limit order that `createOrder` applies, no call of
the trade-report collaborator made by the call has an opponent whose price does not
cross (a bid with `Price < P` for an ask at `P`, an ask with `Price > P` for a bid at
`P`); and the walk stops at a non-crossing opponent `x`: the orders after `x` in the
best-first sequence are still the tail of the ladder, unchanged (with `x` before them
unless its RemainingAmount was already zero), and there are at most as many trades as
there are opponents before `x`. -/
theorem crossing_boundary (book : Book) (order : Order)
    (hl : order.«Type» = OrderTypeLimit) :
    (order.Side = PageSideAsk →
      (∀ c ∈ (createOrder book order).1.transact.calls,
        c ∈ book.transact.calls ∨ ¬ c.1.2.Price < order.Price) ∧
      ∀ (pre post : List Order) (x : Order), book.bids.bestFirst = pre ++ x :: post →
        x.Price < order.Price →
          post <:+ (createOrder book order).1.bids.bestFirst ∧
          (x.RemainingAmount ≠ 0 → (x :: post) <:+ (createOrder book order).1.bids.bestFirst) ∧
          (createOrder book order).1.transact.reports.length ≤
            book.transact.reports.length + pre.length) ∧
    (order.Side = PageSideBid →
      (∀ c ∈ (createOrder book order).1.transact.calls,
        c ∈ book.transact.calls ∨ ¬ c.1.2.Price > order.Price) ∧
      ∀ (pre post : List Order) (x : Order), book.asks.bestFirst = pre ++ x :: post →
        x.Price > order.Price →
          post <:+ (createOrder book order).1.asks.bestFirst ∧
          (x.RemainingAmount ≠ 0 → (x :: post) <:+ (createOrder book order).1.asks.bestFirst) ∧
          (createOrder book order).1.transact.reports.length ≤
            book.transact.reports.length + pre.length) := by
  by_cases hid : order.Id ∈ book.createIndex
  · rw [createOrder_dup book order hid]
    constructor <;> intro _ <;> refine ⟨fun c hc => Or.inl hc, ?_⟩ <;>
      intro pre post x hsplit _ <;> rw [hsplit] <;>
      exact ⟨(List.suffix_cons x post).trans (List.suffix_append _ _),
        fun _ => List.suffix_append _ _, Nat.le_add_right _ _⟩
  constructor
  · intro hs
    obtain ⟨_, e2, e3, _⟩ := createOrder_ask book order hid hs
    rw [e2, e3]
    constructor
    · intro c hc
      rcases walk_crossing askStops askStops_price book.transact order _ hl c hc with h | h
      · exact Or.inl h
      · exact Or.inr (by simpa [askStops] using h)
    · intro pre post x hsplit hx
      rw [hsplit]
      exact walk_stops_at askStops askStops_price (book.transact, order) pre post x hl
        (by simpa [askStops] using hx)
  · intro hs
    obtain ⟨_, e2, e3, _⟩ := createOrder_bid book order hid hs
    rw [e2, e3]
    constructor
    · intro c hc
      rcases walk_crossing bidStops bidStops_price book.transact order _ hl c hc with h | h
      · exact Or.inl h
      · exact Or.inr (by simpa [bidStops] using h)
    · intro pre post x hsplit hx
      rw [hsplit]
      exact walk_stops_at bidStops bidStops_price (book.transact, order) pre post x hl
        (by simpa [bidStops] using hx)

theorem crossing_boundary_witness :
    orderA3.«Type» = OrderTypeLimit ∧
      orderA3.Side = PageSideAsk ∧
      bookB1B2.bids.bestFirst = [orderB2] ++ orderB1 :: [] ∧ orderB1.Price < orderA3.Price ∧
      ([] <:+ (createOrder bookB1B2 orderA3).1.bids.bestFirst ∧
        (orderB1.RemainingAmount ≠ 0 →
          (orderB1 :: []) <:+ (createOrder bookB1B2 orderA3).1.bids.bestFirst) ∧
        (createOrder bookB1B2 orderA3).1.transact.reports.length ≤
          bookB1B2.transact.reports.length + [orderB2].length) :=
  ⟨by decide, by decide, by decide, by decide,
    ((crossing_boundary bookB1B2 orderA3 (by decide)).1 (by decide)).2
      [orderB2] [] orderB1 (by decide) (by decide)⟩


/-! ### The amount filled by a create -/

theorem process_amounts (t : TransactCallback) (o p : Order) :
    (process t o p).2.1.RemainingAmount =
        o.RemainingAmount - min o.RemainingAmount p.RemainingAmount ∧
      (process t o p).2.1.FilledAmount =
        wrap (o.FilledAmount + min o.RemainingAmount p.RemainingAmount) ∧
      (process t o p).2.2.RemainingAmount =
        p.RemainingAmount - min o.RemainingAmount p.RemainingAmount ∧
      (process t o p).2.2.FilledAmount =
        wrap (p.FilledAmount + min o.RemainingAmount p.RemainingAmount) := by
  simp only [process, wrap]
  split_ifs <;> refine ⟨?_, ?_, ?_, ?_⟩ <;> omega

theorem totalRemaining_cons (p : Order) (l : List Order) :
    totalRemaining (p :: l) = p.RemainingAmount + totalRemaining l := by
  simp [totalRemaining]

theorem totalRemaining_keep (p : Order) (l : List Order) :
    totalRemaining (keep p ++ l) = p.RemainingAmount + totalRemaining l := by
  unfold keep
  split
  · rename_i h
    simp [totalRemaining, h]
  · simp [totalRemaining]

theorem walk_fill (stops : Order → Order → Bool)
    (hst : ∀ a b p q : Order, a.Price = b.Price → p.Price = q.Price → stops a p = stops b q) :
    ∀ (l : List Order) (s : TransactCallback × Order), s.2.«Type» = OrderTypeLimit →
      l.Pairwise (fun a b => stops s.2 a = true → stops s.2 b = true) →
      (wrap (iterateList (matchHook stops) s l).1.2.FilledAmount =
          wrap (s.2.FilledAmount +
            min s.2.RemainingAmount (totalRemaining (l.filter (fun p => !stops s.2 p)))) ∧
        (s.2.FilledAmount < 2 ^ 64 →
          (iterateList (matchHook stops) s l).1.2.FilledAmount < 2 ^ 64)) ∧
        (iterateList (matchHook stops) s l).1.2.RemainingAmount =
          s.2.RemainingAmount -
            min s.2.RemainingAmount (totalRemaining (l.filter (fun p => !stops s.2 p))) ∧
        totalRemaining (iterateList (matchHook stops) s l).2.1 +
            min s.2.RemainingAmount (totalRemaining (l.filter (fun p => !stops s.2 p))) =
          totalRemaining l
  | [], s, _, _ => by simp [walk_nil, totalRemaining]
  | p :: tail, s, hl, hsorted => by
    have hp := List.pairwise_cons.1 hsorted
    by_cases hx : stops s.2 p = true
    · rw [walk_stop stops s p tail ⟨hl, hx⟩]
      have hall : (p :: tail).filter (fun q => !stops s.2 q) = [] := by
        rw [List.filter_eq_nil_iff]
        intro q hq
        rcases List.mem_cons.1 hq with hq | hq
        · simp [hq, hx]
        · simp [hp.1 q hq hx]
      rw [hall, totalRemaining_keep, totalRemaining_cons]
      simp [totalRemaining]
    · have hno : ¬(s.2.«Type» = OrderTypeLimit ∧ stops s.2 p = true) := fun h => hx h.2
      have hf : (p :: tail).filter (fun q => !stops s.2 q) =
          p :: tail.filter (fun q => !stops s.2 q) := by
        simp [List.filter_cons, hx]
      obtain ⟨a1, a2, a3, _⟩ := process_amounts s.1 s.2 p
      rw [hf, totalRemaining_cons, totalRemaining_cons]
      by_cases hz : (process s.1 s.2 p).2.1.RemainingAmount = 0
      · rw [walk_done stops s p tail hno hz, totalRemaining_keep]
        simp only
        rw [a2, a3]
        rw [a1] at hz
        simp only [wrap]
        refine ⟨⟨?_, ?_⟩, ?_, ?_⟩ <;> omega
      · rw [walk_next stops s p tail hno hz]
        have hsame : ∀ q, stops (process s.1 s.2 p).2.1 q = stops s.2 q :=
          fun q => hst _ _ q q rfl rfl
        have ih := walk_fill stops hst tail ((process s.1 s.2 p).1, (process s.1 s.2 p).2.1) hl
          (by simpa [hsame] using hp.2)
        simp only [hsame] at ih
        rw [a1, a2] at ih
        rw [a1] at hz
        obtain ⟨⟨i1, i0⟩, i2, i3⟩ := ih
        rw [i2]
        simp only [wrap] at i1 i0 ⊢
        refine ⟨⟨?_, ?_⟩, ?_, ?_⟩
        · rw [i1]; omega
        · intro _
          exact i0 (Nat.mod_lt _ (by norm_num))
        · omega
        · omega


theorem askStops_filter (order : Order) (l : List Order) :
    l.filter (fun p => !askStops order p) = l.filter (fun p => decide (order.Price ≤ p.Price)) := by
  apply List.filter_congr
  intro p _
  by_cases h : p.Price < order.Price
  · simp [askStops, h]
  · simp [askStops, h, Nat.le_of_not_lt h]

theorem bidStops_filter (order : Order) (l : List Order) :
    l.filter (fun p => !bidStops order p) = l.filter (fun p => decide (p.Price ≤ order.Price)) := by
  apply List.filter_congr
  intro p _
  by_cases h : order.Price < p.Price
  · simp [bidStops, h]
  · simp [bidStops, h, Nat.le_of_not_lt h]

/-- C4. Fill amount of a create.  A Limit ask with an Id not yet applied, price `P`
and RemainingAmount `r`, applied to a book whose bids are in price order (highest
first), has its FilledAmount increased by exactly `min r L`, where `L` is the sum of
RemainingAmount over the resting bids with `Price >= P`: for an order whose fields
hold values of their Go type the new FilledAmount is the sum `FilledAmount + min r L`
as Go's `+` gives it, which is the exact sum when `FilledAmount + r` is below
`2 ^ 64`.  Its RemainingAmount and the total RemainingAmount of the bid side decrease
by the same quantity.  The same holds for a Limit bid against the asks (lowest first)
with `Price <= P`. -/
theorem fill_amount_of_create (book : Book) (order : Order)
    (hid : order.Id ∉ book.createIndex) (hl : order.«Type» = OrderTypeLimit) :
    (order.Side = PageSideAsk →
      book.bids.bestFirst.Pairwise (fun a b => b.Price ≤ a.Price) →
      (order.typed →
        (createOrder book order).2.FilledAmount =
          wrap (order.FilledAmount + min order.RemainingAmount
            (totalRemaining
              (book.bids.bestFirst.filter (fun b => decide (order.Price ≤ b.Price)))))) ∧
        (order.fits →
          (createOrder book order).2.FilledAmount =
            order.FilledAmount + min order.RemainingAmount
              (totalRemaining
                (book.bids.bestFirst.filter (fun b => decide (order.Price ≤ b.Price))))) ∧
        (createOrder book order).2.RemainingAmount =
          order.RemainingAmount - min order.RemainingAmount
            (totalRemaining (book.bids.bestFirst.filter (fun b => decide (order.Price ≤ b.Price)))) ∧
        totalRemaining (createOrder book order).1.bids.bestFirst +
            min order.RemainingAmount
              (totalRemaining
                (book.bids.bestFirst.filter (fun b => decide (order.Price ≤ b.Price)))) =
          totalRemaining book.bids.bestFirst) ∧
    (order.Side = PageSideBid →
      book.asks.bestFirst.Pairwise (fun a b => a.Price ≤ b.Price) →
      (order.typed →
        (createOrder book order).2.FilledAmount =
          wrap (order.FilledAmount + min order.RemainingAmount
            (totalRemaining
              (book.asks.bestFirst.filter (fun a => decide (a.Price ≤ order.Price)))))) ∧
        (order.fits →
          (createOrder book order).2.FilledAmount =
            order.FilledAmount + min order.RemainingAmount
              (totalRemaining
                (book.asks.bestFirst.filter (fun a => decide (a.Price ≤ order.Price))))) ∧
        (createOrder book order).2.RemainingAmount =
          order.RemainingAmount - min order.RemainingAmount
            (totalRemaining (book.asks.bestFirst.filter (fun a => decide (a.Price ≤ order.Price)))) ∧
        totalRemaining (createOrder book order).1.asks.bestFirst +
            min order.RemainingAmount
              (totalRemaining
                (book.asks.bestFirst.filter (fun a => decide (a.Price ≤ order.Price)))) =
          totalRemaining book.asks.bestFirst) := by
  have hfinish : ∀ (f r l : Nat) (x : Nat), (wrap x = wrap (f + min r l) ∧
      (f < 2 ^ 64 → x < 2 ^ 64)) →
      ((f < 2 ^ 64 → x = wrap (f + min r l)) ∧ (f + r < 2 ^ 64 → x = f + min r l)) := by
    intro f r l x h
    obtain ⟨h1, h2⟩ := h
    simp only [wrap] at h1 ⊢
    constructor
    · intro hf
      have := h2 hf
      omega
    · intro hf
      have := h2 (by omega)
      omega
  constructor
  · intro hs hsorted
    obtain ⟨e1, _, e3, _⟩ := createOrder_ask book order hid hs
    rw [e1, e3, ← askStops_filter]
    have hw := walk_fill askStops askStops_price book.bids.bestFirst (book.transact, order) hl
      (hsorted.imp (by
        intro a b hab ha
        simp only [askStops, decide_eq_true_eq] at ha ⊢
        omega))
    have hf := hfinish _ _ _ _ hw.1
    exact ⟨fun ht => hf.1 ht.2.2.2, fun hfit => hf.2 hfit, hw.2.1, hw.2.2⟩
  · intro hs hsorted
    obtain ⟨e1, _, e3, _⟩ := createOrder_bid book order hid hs
    rw [e1, e3, ← bidStops_filter]
    have hw := walk_fill bidStops bidStops_price book.asks.bestFirst (book.transact, order) hl
      (hsorted.imp (by
        intro a b hab ha
        simp only [bidStops, decide_eq_true_eq] at ha ⊢
        omega))
    have hf := hfinish _ _ _ _ hw.1
    exact ⟨fun ht => hf.1 ht.2.2.2, fun hfit => hf.2 hfit, hw.2.1, hw.2.2⟩

theorem fill_amount_of_create_witness :
    orderA1.Id ∉ bookB1.createIndex ∧ orderA1.«Type» = OrderTypeLimit ∧
      orderA1.Side = PageSideAsk ∧
      bookB1.bids.bestFirst.Pairwise (fun a b => b.Price ≤ a.Price) ∧
      orderA1.typed ∧ orderA1.fits ∧
      (createOrder bookB1 orderA1).2.FilledAmount =
        wrap (orderA1.FilledAmount + min orderA1.RemainingAmount
          (totalRemaining
            (bookB1.bids.bestFirst.filter (fun b => decide (orderA1.Price ≤ b.Price))))) ∧
      (createOrder bookB1 orderA1).2.FilledAmount =
        orderA1.FilledAmount + min orderA1.RemainingAmount
          (totalRemaining
            (bookB1.bids.bestFirst.filter (fun b => decide (orderA1.Price ≤ b.Price)))) ∧
      (createOrder bookB1 orderA1).2.RemainingAmount =
        orderA1.RemainingAmount - min orderA1.RemainingAmount
          (totalRemaining
            (bookB1.bids.bestFirst.filter (fun b => decide (orderA1.Price ≤ b.Price)))) ∧
      (createOrder bookB1 orderA1).1.transact.calls =
        [((⟨"A1", PageSideAsk, OrderTypeLimit, 10, 3, 0, 3⟩,
          ⟨"B1", PageSideBid, OrderTypeLimit, 10, 5, 2, 3⟩), false)] ∧
      (createOrder bookB1 orderA1).1.asks.bestFirst = [] ∧
      (createOrder bookB1 orderA1).1.bids.bestFirst =
        [⟨"B1", PageSideBid, OrderTypeLimit, 10, 5, 2, 3⟩] :=
  ⟨by decide, by decide, by decide, by decide, by decide, by decide,
    ((fill_amount_of_create bookB1 orderA1 (by decide) (by decide)).1 (by decide)
      (by decide)).1 (by decide),
    ((fill_amount_of_create bookB1 orderA1 (by decide) (by decide)).1 (by decide)
      (by decide)).2.1 (by decide),
    ((fill_amount_of_create bookB1 orderA1 (by decide) (by decide)).1 (by decide)
      (by decide)).2.2.1,
    by decide, by decide, by decide⟩


/-! ### Time priority and the order of the reports -/

theorem filter_length_le_one {α : Type} (p : α → Bool) :
    ∀ (l : List α), (∀ c ∈ l.dropLast, p c = false) → (l.filter p).length ≤ 1
  | [], _ => by simp
  | [x], _ => by
    by_cases h : p x = true <;> simp [h]
  | x :: y :: l, h => by
    have hx : p x = false := h x (by simp [List.dropLast_cons₂])
    have ih := filter_length_le_one p (y :: l) (fun c hc => h c (by
      rw [List.dropLast_cons₂]; exact List.mem_cons_of_mem _ hc))
    rw [List.filter_cons_of_neg (by simp [hx])]
    exact ih

theorem walk_time_priority (stops : Order → Order → Bool)
    (hst : ∀ a b p q : Order, a.Price = b.Price → p.Price = q.Price → stops a p = stops b q)
    (l : List Order) (s : TransactCallback × Order) :
    ∃ (news : List (Order × Order)) (rest : List Order),
      (iterateList (matchHook stops) s l).1.1.reports = s.1.reports ++ news ∧
      news.map (fun c => c.2.ident) = (l.take news.length).map Order.ident ∧
      (∀ c ∈ news.dropLast, c.2.RemainingAmount = 0) ∧
      (iterateList (matchHook stops) s l).2.1 =
        (news.map Prod.snd).filter (fun q => decide (q.RemainingAmount ≠ 0)) ++ rest ∧
      ((news.map Prod.snd).filter (fun q => decide (q.RemainingAmount ≠ 0))).length ≤ 1 ∧
      rest <:+ l.drop news.length := by
  obtain ⟨news, rest, h1, h2, h3, h4, _, h6, _, _⟩ := walk_spec stops hst l s
  refine ⟨news, rest, h1, h4, h6, h2, ?_, h3⟩
  apply filter_length_le_one
  intro c hc
  rw [← List.map_dropLast] at hc
  obtain ⟨d, hd, hdc⟩ := List.mem_map.1 hc
  rw [← hdc]
  simp [h6 d hd]

/-- C5. Time priority.  The trades that one `createOrder` reports are made with the
opponents at the head of the opposite ladder's priority order, in that order, and
every opponent matched before the last one is reported with `RemainingAmount = 0`:
a later opponent (B2) is matched only after each earlier one (B1) is fully consumed.
The ladder that is left is the opponents matched and not filled, of which there is at
most one, followed by opponents that the walk did not match, unchanged. -/
theorem time_priority (book : Book) (order : Order) :
    (order.Side = PageSideAsk →
      ∃ (news : List (Order × Order)) (rest : List Order),
        (createOrder book order).1.transact.reports = book.transact.reports ++ news ∧
        news.map (fun c => c.2.ident) =
          (book.bids.bestFirst.take news.length).map Order.ident ∧
        (∀ c ∈ news.dropLast, c.2.RemainingAmount = 0) ∧
        (createOrder book order).1.bids.bestFirst =
          (news.map Prod.snd).filter (fun q => decide (q.RemainingAmount ≠ 0)) ++ rest ∧
        ((news.map Prod.snd).filter (fun q => decide (q.RemainingAmount ≠ 0))).length ≤ 1 ∧
        rest <:+ book.bids.bestFirst.drop news.length) ∧
    (order.Side = PageSideBid →
      ∃ (news : List (Order × Order)) (rest : List Order),
        (createOrder book order).1.transact.reports = book.transact.reports ++ news ∧
        news.map (fun c => c.2.ident) =
          (book.asks.bestFirst.take news.length).map Order.ident ∧
        (∀ c ∈ news.dropLast, c.2.RemainingAmount = 0) ∧
        (createOrder book order).1.asks.bestFirst =
          (news.map Prod.snd).filter (fun q => decide (q.RemainingAmount ≠ 0)) ++ rest ∧
        ((news.map Prod.snd).filter (fun q => decide (q.RemainingAmount ≠ 0))).length ≤ 1 ∧
        rest <:+ book.asks.bestFirst.drop news.length) := by
  by_cases hid : order.Id ∈ book.createIndex
  · rw [createOrder_dup book order hid]
    exact ⟨fun _ => ⟨[], book.bids.bestFirst, by simp⟩,
      fun _ => ⟨[], book.asks.bestFirst, by simp⟩⟩
  constructor
  · intro hs
    obtain ⟨_, e2, e3, _⟩ := createOrder_ask book order hid hs
    rw [e2, e3]
    exact walk_time_priority askStops askStops_price book.bids.bestFirst (book.transact, order)
  · intro hs
    obtain ⟨_, e2, e3, _⟩ := createOrder_bid book order hid hs
    rw [e2, e3]
    exact walk_time_priority bidStops bidStops_price book.asks.bestFirst (book.transact, order)

theorem time_priority_witness :
    orderA4.Side = PageSideAsk ∧
      bookB1B3.bids.bestFirst = [orderB1, orderB3] ∧
      (createOrder bookB1B3 orderA4).1.transact.reports =
        [(⟨"A4", PageSideAsk, OrderTypeLimit, 10, 7, 2, 5⟩,
            ⟨"B1", PageSideBid, OrderTypeLimit, 10, 5, 0, 5⟩),
          (⟨"A4", PageSideAsk, OrderTypeLimit, 10, 7, 0, 7⟩,
            ⟨"B3", PageSideBid, OrderTypeLimit, 10, 4, 2, 2⟩)] ∧
      ∃ (news : List (Order × Order)) (rest : List Order),
        (createOrder bookB1B3 orderA4).1.transact.reports = bookB1B3.transact.reports ++ news ∧
        news.map (fun c => c.2.ident) =
          (bookB1B3.bids.bestFirst.take news.length).map Order.ident ∧
        (∀ c ∈ news.dropLast, c.2.RemainingAmount = 0) ∧
        (createOrder bookB1B3 orderA4).1.bids.bestFirst =
          (news.map Prod.snd).filter (fun q => decide (q.RemainingAmount ≠ 0)) ++ rest ∧
        ((news.map Prod.snd).filter (fun q => decide (q.RemainingAmount ≠ 0))).length ≤ 1 ∧
        rest <:+ bookB1B3.bids.bestFirst.drop news.length :=
  ⟨by decide, by decide, by decide, (time_priority bookB1B3 orderA4).1 (by decide)⟩


theorem matchHook_first_arg (stops : Order → Order → Bool) (order : Order)
    (t0 : TransactCallback) (s : TransactCallback × Order) (o : Order)
    (hs : (s.2.ident = order.ident) ∧
      ∀ c ∈ s.1.calls, c ∈ t0.calls ∨ c.1.1.ident = order.ident) :
    ((matchHook stops s o).1.2.ident = order.ident) ∧
      ∀ c ∈ (matchHook stops s o).1.1.calls, c ∈ t0.calls ∨ c.1.1.ident = order.ident := by
  unfold matchHook
  split
  · exact hs
  · refine ⟨by rw [← hs.1]; rfl, ?_⟩
    intro c hmem
    rcases process_calls s.1 s.2 o c hmem with h | h
    · exact hs.2 c h
    · right
      rw [h, ← hs.1]
      rfl

theorem walk_first_arg (stops : Order → Order → Bool) (t : TransactCallback) (order : Order)
    (l : List Order) :
    ∀ c ∈ (iterateList (matchHook stops) (t, order) l).1.1.calls,
      c ∈ t.calls ∨ c.1.1.ident = order.ident :=
  (iterateList_inv (matchHook stops)
    (fun s => (s.2.ident = order.ident) ∧
      ∀ c ∈ s.1.calls, c ∈ t.calls ∨ c.1.1.ident = order.ident)
    (fun _ => True)
    (fun s o hs _ => ⟨matchHook_first_arg stops order t s o hs, trivial⟩) l (t, order)
    ⟨rfl, fun _ hc => Or.inl hc⟩ (fun _ _ => trivial)).1.2

theorem matchHook_calls_reported (stops : Order → Order → Bool) (t0 : TransactCallback)
    (s : TransactCallback × Order) (o : Order)
    (hs : ∃ nw : List (Order × Order), s.1.reports = t0.reports ++ nw ∧
      ∀ c ∈ s.1.calls, c ∈ t0.calls ∨ c.1 ∈ nw) :
    ∃ nw : List (Order × Order), (matchHook stops s o).1.1.reports = t0.reports ++ nw ∧
      ∀ c ∈ (matchHook stops s o).1.1.calls, c ∈ t0.calls ∨ c.1 ∈ nw := by
  unfold matchHook
  split
  · exact hs
  · obtain ⟨nw, h1, h2⟩ := hs
    refine ⟨nw ++ [((process s.1 s.2 o).2.1, (process s.1 s.2 o).2.2)], ?_, ?_⟩
    · simp only [process_reports, h1, List.append_assoc]
    · intro c hmem
      rcases process_calls s.1 s.2 o c hmem with h | h
      · rcases h2 c h with h | h
        · exact Or.inl h
        · exact Or.inr (List.mem_append.2 (Or.inl h))
      · exact Or.inr (List.mem_append.2 (Or.inr (by rw [h]; exact List.mem_singleton.2 rfl)))

theorem walk_calls_reported (stops : Order → Order → Bool) (s : TransactCallback × Order)
    (l : List Order) :
    ∃ nw : List (Order × Order),
      (iterateList (matchHook stops) s l).1.1.reports = s.1.reports ++ nw ∧
      ∀ c ∈ (iterateList (matchHook stops) s l).1.1.calls, c ∈ s.1.calls ∨ c.1 ∈ nw :=
  (iterateList_inv (matchHook stops)
    (fun s1 => ∃ nw : List (Order × Order), s1.1.reports = s.1.reports ++ nw ∧
      ∀ c ∈ s1.1.calls, c ∈ s.1.calls ∨ c.1 ∈ nw)
    (fun _ => True)
    (fun s1 o hs _ => ⟨matchHook_calls_reported stops s.1 s1 o hs, trivial⟩) l s
    ⟨[], by simp, fun _ hc => Or.inl hc⟩ (fun _ _ => trivial)).1

theorem walk_prefix (stops : Order → Order → Bool)
    (hst : ∀ a b p q : Order, a.Price = b.Price → p.Price = q.Price → stops a p = stops b q)
    (l : List Order) (s : TransactCallback × Order) :
    ∃ news : List (Order × Order),
      (iterateList (matchHook stops) s l).1.1.reports = s.1.reports ++ news ∧
      news.map (fun c => c.2.ident) <+: l.map Order.ident ∧
      (∀ c ∈ news, c.1.ident = s.2.ident) ∧
      ∀ c ∈ (iterateList (matchHook stops) s l).1.1.calls, c ∈ s.1.calls ∨ c.1 ∈ news := by
  obtain ⟨news, rest, h1, _, _, h4, h5, _, _, _⟩ := walk_spec stops hst l s
  obtain ⟨nw, g1, g2⟩ := walk_calls_reported stops s l
  have hnw : nw = news := List.append_cancel_left (g1.symm.trans h1)
  refine ⟨news, h1, ?_, h5, hnw ▸ g2⟩
  rw [h4, List.map_take]
  exact List.take_prefix _ _

theorem Put_two_bids (lo hi : Order) (h : lo.Price < hi.Price) :
    (((NewPage PageSideBid).Put lo).Put hi).bestFirst = [hi, lo] ∧
      (((NewPage PageSideBid).Put hi).Put lo).bestFirst = [hi, lo] := by
  have h1 : ¬ lo.Price = hi.Price := by omega
  have h2 : ¬ hi.Price = lo.Price := by omega
  have h3 : ¬ hi.Price < lo.Price := by omega
  constructor <;>
    simp [NewPage, Page.Put, insertLevel, appendAt, better, Page.bestFirst, h, h1, h2, h3,
      side_ne]

theorem Put_two_asks (lo hi : Order) (h : lo.Price < hi.Price) :
    (((NewPage PageSideAsk).Put lo).Put hi).bestFirst = [lo, hi] ∧
      (((NewPage PageSideAsk).Put hi).Put lo).bestFirst = [lo, hi] := by
  have h1 : ¬ lo.Price = hi.Price := by omega
  have h2 : ¬ hi.Price = lo.Price := by omega
  have h3 : ¬ hi.Price < lo.Price := by omega
  constructor <;>
    simp [NewPage, Page.Put, insertLevel, appendAt, better, Page.bestFirst, h, h1, h2, h3]

/-- C6 (amended). Price priority and report order.  Every call of the trade-report
collaborator made by one `createOrder` has the incoming order as its first argument.
The opponents of the trades it reports (the calls that succeed, one per match) are, in
order, a prefix of the opposite ladder's best-first sequence as it stood before the
call, and a call that fails carries the pair of one of these trades (it is retried
with the same pair).  In the best-first sequence a higher bid comes before a lower bid
and a lower ask before a higher ask whatever the order in which they were inserted, so
a bid at 101 is matched before a bid at 100; in every book reached from a new book
the bids are in best-first order from the highest price to the lowest and the asks
from the lowest to the highest. -/
theorem report_order (book : Book) (order : Order) :
    (order.Side = PageSideAsk →
      (∀ c ∈ (createOrder book order).1.transact.calls,
        c ∈ book.transact.calls ∨ c.1.1.ident = order.ident) ∧
      ∃ news : List (Order × Order),
        (createOrder book order).1.transact.reports = book.transact.reports ++ news ∧
        news.map (fun c => c.2.ident) <+: book.bids.bestFirst.map Order.ident ∧
        (∀ c ∈ news, c.1.ident = order.ident) ∧
        ∀ c ∈ (createOrder book order).1.transact.calls,
          c ∈ book.transact.calls ∨ c.1 ∈ news) ∧
    (order.Side = PageSideBid →
      (∀ c ∈ (createOrder book order).1.transact.calls,
        c ∈ book.transact.calls ∨ c.1.1.ident = order.ident) ∧
      ∃ news : List (Order × Order),
        (createOrder book order).1.transact.reports = book.transact.reports ++ news ∧
        news.map (fun c => c.2.ident) <+: book.asks.bestFirst.map Order.ident ∧
        (∀ c ∈ news, c.1.ident = order.ident) ∧
        ∀ c ∈ (createOrder book order).1.transact.calls,
          c ∈ book.transact.calls ∨ c.1 ∈ news) ∧
    (∀ lo hi : Order, lo.Price < hi.Price →
      (((NewPage PageSideBid).Put lo).Put hi).bestFirst = [hi, lo] ∧
      (((NewPage PageSideBid).Put hi).Put lo).bestFirst = [hi, lo] ∧
      (((NewPage PageSideAsk).Put lo).Put hi).bestFirst = [lo, hi] ∧
      (((NewPage PageSideAsk).Put hi).Put lo).bestFirst = [lo, hi]) ∧
    (∀ (pricePrecision amountPrecision : Int) (transact : TransactCallback)
        (cancel : CancelCallback) (events : List OrderEvent) (b : Book),
      applyEvents (NewBook pricePrecision amountPrecision transact cancel) events = .ok b →
        b.bids.bestFirst.Pairwise (fun x y => y.Price ≤ x.Price) ∧
        b.asks.bestFirst.Pairwise (fun x y => x.Price ≤ y.Price)) := by
  have hsorted : ∀ (pricePrecision amountPrecision : Int) (transact : TransactCallback)
      (cancel : CancelCallback) (events : List OrderEvent) (b : Book),
      applyEvents (NewBook pricePrecision amountPrecision transact cancel) events = .ok b →
        b.bids.bestFirst.Pairwise (fun x y => y.Price ≤ x.Price) ∧
        b.asks.bestFirst.Pairwise (fun x y => x.Price ≤ y.Price) :=
    fun pp ap t c events b h => wf_sorted b (reachable_wf pp ap t c events b h)
  have hput : ∀ lo hi : Order, lo.Price < hi.Price →
      (((NewPage PageSideBid).Put lo).Put hi).bestFirst = [hi, lo] ∧
      (((NewPage PageSideBid).Put hi).Put lo).bestFirst = [hi, lo] ∧
      (((NewPage PageSideAsk).Put lo).Put hi).bestFirst = [lo, hi] ∧
      (((NewPage PageSideAsk).Put hi).Put lo).bestFirst = [lo, hi] := fun lo hi h =>
    ⟨(Put_two_bids lo hi h).1, (Put_two_bids lo hi h).2, (Put_two_asks lo hi h).1,
      (Put_two_asks lo hi h).2⟩
  by_cases hid : order.Id ∈ book.createIndex
  · rw [createOrder_dup book order hid]
    exact ⟨fun _ => ⟨fun c hc => Or.inl hc, [], by simp, by simp, by simp,
        fun c hc => Or.inl hc⟩,
      fun _ => ⟨fun c hc => Or.inl hc, [], by simp, by simp, by simp,
        fun c hc => Or.inl hc⟩, hput, hsorted⟩
  refine ⟨?_, ?_, hput, hsorted⟩
  · intro hs
    obtain ⟨_, e2, _, _⟩ := createOrder_ask book order hid hs
    rw [e2]
    exact ⟨walk_first_arg askStops book.transact order _,
      walk_prefix askStops askStops_price book.bids.bestFirst (book.transact, order)⟩
  · intro hs
    obtain ⟨_, e2, _, _⟩ := createOrder_bid book order hid hs
    rw [e2]
    exact ⟨walk_first_arg bidStops book.transact order _,
      walk_prefix bidStops bidStops_price book.asks.bestFirst (book.transact, order)⟩

theorem report_order_witness :
    orderM1.Side = PageSideBid ∧
      bookS.asks.bestFirst = [orderS9, orderS10] ∧
      (createOrder bookS orderM1).1.transact.calls =
        [((⟨"M1", PageSideBid, OrderTypeMarket, 0, 100, 90, 10⟩,
            ⟨"S9", PageSideAsk, OrderTypeLimit, 9, 10, 0, 10⟩), false),
          ((⟨"M1", PageSideBid, OrderTypeMarket, 0, 100, 85, 15⟩,
            ⟨"S10", PageSideAsk, OrderTypeLimit, 10, 5, 0, 5⟩), false)] ∧
      (createOrder bookS orderM1).1.asks.points = [] ∧
      (createOrder bookS orderM1).1.bids.points = [] ∧
      ((∀ c ∈ (createOrder bookS orderM1).1.transact.calls,
        c ∈ bookS.transact.calls ∨ c.1.1.ident = orderM1.ident) ∧
      ∃ news : List (Order × Order),
        (createOrder bookS orderM1).1.transact.reports = bookS.transact.reports ++ news ∧
        news.map (fun c => c.2.ident) <+: bookS.asks.bestFirst.map Order.ident ∧
        (∀ c ∈ news, c.1.ident = orderM1.ident) ∧
        ∀ c ∈ (createOrder bookS orderM1).1.transact.calls,
          c ∈ bookS.transact.calls ∨ c.1 ∈ news) :=
  ⟨by decide, by decide, by decide, by decide, by decide,
    (report_order bookS orderM1).2.1 (by decide)⟩

/-- C6 as stated fails when a call of the collaborator fails: in Scenario C with a
trade-report collaborator whose first invocation returns an error, the opponents
passed to it are S9, S9, S10, which is not a prefix of the best-first sequence S9,
S10 of the asks before the call. -/
theorem report_order_counterexample :
    orderM1.Id ∉ bookSfail.createIndex ∧ orderM1.Side = PageSideBid ∧
      bookSfail.transact.calls = [] ∧
      (createOrder bookSfail orderM1).1.transact.calls.map (fun c => c.1.2.Id) =
        ["S9", "S9", "S10"] ∧
      bookSfail.asks.bestFirst.map (fun o => o.Id) = ["S9", "S10"] ∧
      ¬ ((createOrder bookSfail orderM1).1.transact.calls.map (fun c => c.1.2.ident) <+:
        bookSfail.asks.bestFirst.map Order.ident) := by
  decide


/-! ### Market orders -/

theorem walk_market (stops : Order → Order → Bool) :
    ∀ (l : List Order) (s : TransactCallback × Order), s.2.«Type» ≠ OrderTypeLimit →
      (iterateList (matchHook stops) s l).1.2.RemainingAmount = 0 ∨
        ((iterateList (matchHook stops) s l).2.1 = [] ∧
          (iterateList (matchHook stops) s l).2.2 = false)
  | [], s, _ => by simp [walk_nil]
  | p :: tail, s, hm => by
    have hno : ¬(s.2.«Type» = OrderTypeLimit ∧ stops s.2 p = true) := fun h => hm h.1
    by_cases hz : (process s.1 s.2 p).2.1.RemainingAmount = 0
    · rw [walk_done stops s p tail hno hz]
      exact Or.inl hz
    · rw [walk_next stops s p tail hno hz]
      exact walk_market stops tail ((process s.1 s.2 p).1, (process s.1 s.2 p).2.1) hm

theorem iteratePoints_nil {σ : Type} (hook : σ → Order → σ × Order × Bool) :
    ∀ (es : List Entry) (s : σ),
      (iterateList hook s (es.flatMap (fun e => e.list))).2.2 = false →
      (iterateList hook s (es.flatMap (fun e => e.list))).2.1 = [] →
      (iteratePoints hook s es).2 = []
  | [], s, _, _ => by simp [iteratePoints]
  | e :: es, s, hd, hn => by
    rw [List.flatMap_cons, iterateList_append] at hd hn
    by_cases h1 : (iterateList hook s e.list).2.2 = true
    · simp [h1] at hd
    · simp only [h1] at hd hn
      simp only [Bool.false_eq_true, if_false, List.append_eq_nil] at hd hn
      have ih := iteratePoints_nil hook es (iterateList hook s e.list).1 hd hn.2
      simp [iteratePoints, h1, hn.1, ih]

theorem matchHook_id (stops : Order → Order → Bool) (s : TransactCallback × Order)
    (o : Order) : (matchHook stops s o).2.1.Id = o.Id := by
  unfold matchHook
  split <;> rfl

theorem walk_ids (stops : Order → Order → Bool) (s : TransactCallback × Order)
    (l : List Order) (id : String) (hl : ∀ o ∈ l, o.Id ≠ id) :
    ∀ o ∈ (iterateList (matchHook stops) s l).2.1, o.Id ≠ id :=
  iterateList_keeps (matchHook stops) (fun o => o.Id ≠ id)
    (fun s o ho _ => by
      show (matchHook stops s o).2.1.Id ≠ id
      rw [matchHook_id]; exact ho) l s hl

theorem walk_ident (stops : Order → Order → Bool)
    (hst : ∀ a b p q : Order, a.Price = b.Price → p.Price = q.Price → stops a p = stops b q)
    (l : List Order) (s : TransactCallback × Order) :
    (iterateList (matchHook stops) s l).1.2.Id = s.2.Id ∧
      (iterateList (matchHook stops) s l).1.2.«Type» = s.2.«Type» ∧
      (iterateList (matchHook stops) s l).1.2.Price = s.2.Price := by
  obtain ⟨_, _, _, _, _, _, _, _, _, h8⟩ := walk_spec stops hst l s
  simp only [Order.ident, Prod.mk.injEq] at h8
  exact ⟨h8.1, h8.2.2.1, h8.2.2.2.1⟩

theorem createOrder_ask_bids (book : Book) (order : Order) (h : order.Id ∉ book.createIndex)
    (hs : order.Side = PageSideAsk) :
    (createOrder book order).1.bids =
      (book.bids.Iterate (matchHook askStops) (book.transact, order)).2 := by
  rw [createOrder_ask_eq book order h hs]
  split <;> rfl

theorem createOrder_bid_asks (book : Book) (order : Order) (h : order.Id ∉ book.createIndex)
    (hs : order.Side = PageSideBid) :
    (createOrder book order).1.asks =
      (book.asks.Iterate (matchHook bidStops) (book.transact, order)).2 := by
  rw [createOrder_bid_eq book order h hs]
  split <;> rfl

/-- C7. Market sweep.  For a Market order with a fresh Id, whatever its Price field
and the prices of the opponents, when `createOrder` returns either the order's
RemainingAmount is 0 or the opposite ladder is empty; the order's own ladder is
unchanged and no order in either ladder carries its Id: the unmatched remainder is
discarded. -/
theorem market_sweep (book : Book) (order : Order) (hfresh : book.fresh order.Id)
    (hm : order.«Type» = OrderTypeMarket) :
    (order.Side = PageSideAsk →
      ((createOrder book order).2.RemainingAmount = 0 ∨
        (createOrder book order).1.bids.points = []) ∧
      (createOrder book order).1.asks = book.asks ∧
      ∀ x ∈ (createOrder book order).1.resting, x.Id ≠ order.Id) ∧
    (order.Side = PageSideBid →
      ((createOrder book order).2.RemainingAmount = 0 ∨
        (createOrder book order).1.asks.points = []) ∧
      (createOrder book order).1.bids = book.bids ∧
      ∀ x ∈ (createOrder book order).1.resting, x.Id ≠ order.Id) := by
  have hnl : order.«Type» ≠ OrderTypeLimit := by rw [hm]; exact type_ne
  have hra : ∀ o ∈ book.asks.bestFirst, o.Id ≠ order.Id :=
    fun o h => hfresh.2 o (List.mem_append.2 (Or.inl h))
  have hrb : ∀ o ∈ book.bids.bestFirst, o.Id ≠ order.Id :=
    fun o h => hfresh.2 o (List.mem_append.2 (Or.inr h))
  constructor
  · intro hs
    obtain ⟨e1, _, e3, e4⟩ := createOrder_ask book order hfresh.1 hs
    have hty := (walk_ident askStops askStops_price book.bids.bestFirst
      (book.transact, order)).2.1
    have hasks : (createOrder book order).1.asks = book.asks := by
      rw [e4, if_neg]
      intro hc
      exact hnl (hty ▸ hc.1)
    refine ⟨?_, hasks, ?_⟩
    · rcases walk_market askStops book.bids.bestFirst (book.transact, order) hnl with h | h
      · exact Or.inl (by rw [e1]; exact h)
      · right
        rw [createOrder_ask_bids book order hfresh.1 hs]
        exact iteratePoints_nil (matchHook askStops) book.bids.points (book.transact, order)
          h.2 h.1
    · intro x hx
      rcases List.mem_append.1 hx with hx | hx
      · rw [hasks] at hx; exact hra x hx
      · rw [e3] at hx
        exact walk_ids askStops (book.transact, order) _ order.Id hrb x hx
  · intro hs
    obtain ⟨e1, _, e3, e4⟩ := createOrder_bid book order hfresh.1 hs
    have hty := (walk_ident bidStops bidStops_price book.asks.bestFirst
      (book.transact, order)).2.1
    have hbids : (createOrder book order).1.bids = book.bids := by
      rw [e4, if_neg]
      intro hc
      exact hnl (hty ▸ hc.1)
    refine ⟨?_, hbids, ?_⟩
    · rcases walk_market bidStops book.asks.bestFirst (book.transact, order) hnl with h | h
      · exact Or.inl (by rw [e1]; exact h)
      · right
        rw [createOrder_bid_asks book order hfresh.1 hs]
        exact iteratePoints_nil (matchHook bidStops) book.asks.points (book.transact, order)
          h.2 h.1
    · intro x hx
      rcases List.mem_append.1 hx with hx | hx
      · rw [e3] at hx
        exact walk_ids bidStops (book.transact, order) _ order.Id hra x hx
      · rw [hbids] at hx; exact hrb x hx

theorem market_sweep_witness :
    bookS.fresh orderM1.Id ∧ orderM1.«Type» = OrderTypeMarket ∧ orderM1.Side = PageSideBid ∧
      (createOrder bookS orderM1).2.RemainingAmount = 85 ∧
      (((createOrder bookS orderM1).2.RemainingAmount = 0 ∨
        (createOrder bookS orderM1).1.asks.points = []) ∧
      (createOrder bookS orderM1).1.bids = bookS.bids ∧
      ∀ x ∈ (createOrder bookS orderM1).1.resting, x.Id ≠ orderM1.Id) :=
  ⟨by decide, by decide, by decide, by decide,
    (market_sweep bookS orderM1 (by decide) (by decide)).2 (by decide)⟩


/-! ### The level in which an order rests -/

theorem levelOf_none (price : Nat) :
    ∀ (es : List Entry), (∀ e ∈ es, e.price ≠ price) → levelOf price es = []
  | [], _ => rfl
  | e :: es, h => by
    have hp : ¬ e.price = price := h e (List.mem_cons_self _ _)
    simp only [levelOf, if_neg hp]
    exact levelOf_none price es (fun x hx => h x (List.mem_cons_of_mem _ hx))

theorem appendAt_levelOf (order : Order) :
    ∀ (es : List Entry), (∃ e ∈ es, e.price = order.Price) →
      levelOf order.Price (appendAt order es) = levelOf order.Price es ++ [order]
  | [], h => by simp at h
  | e :: es, h => by
    by_cases hp : e.price = order.Price
    · simp only [appendAt, if_pos hp, levelOf]
    · have h2 : ∃ e ∈ es, e.price = order.Price := by
        obtain ⟨e1, he1, hp1⟩ := h
        rcases List.mem_cons.1 he1 with he1 | he1
        · exact absurd (he1 ▸ hp1) hp
        · exact ⟨e1, he1, hp1⟩
      simp only [appendAt, if_neg hp, levelOf]
      exact appendAt_levelOf order es h2

theorem appendAt_levelOf_ne (order : Order) (q : Nat) (hq : q ≠ order.Price) :
    ∀ (es : List Entry), levelOf q (appendAt order es) = levelOf q es
  | [] => rfl
  | e :: es => by
    by_cases hp : e.price = order.Price
    · have hne : ¬ e.price = q := by rw [hp]; exact fun h => hq h.symm
      simp only [appendAt, if_pos hp, levelOf, if_neg hne]
    · simp only [appendAt, if_neg hp, levelOf]
      rw [appendAt_levelOf_ne order q hq es]

theorem insertLevel_levelOf (side : String) (order : Order) :
    ∀ (es : List Entry), (∀ e ∈ es, e.price ≠ order.Price) →
      levelOf order.Price (insertLevel side order es) = [order]
  | [], _ => by simp [insertLevel, levelOf]
  | e :: es, h => by
    have hp : ¬ e.price = order.Price := h e (List.mem_cons_self _ _)
    by_cases hb : better side order.Price e.price = true
    · simp only [insertLevel, if_pos hb, levelOf, if_true]
    · simp only [insertLevel, if_neg hb, levelOf, if_neg hp]
      exact insertLevel_levelOf side order es (fun x hx => h x (List.mem_cons_of_mem _ hx))

theorem insertLevel_levelOf_ne (side : String) (order : Order) (q : Nat)
    (hq : q ≠ order.Price) :
    ∀ (es : List Entry), levelOf q (insertLevel side order es) = levelOf q es
  | [] => by
    have hne : ¬ order.Price = q := fun h => hq h.symm
    simp only [insertLevel, levelOf, if_neg hne]
  | e :: es => by
    have hne : ¬ order.Price = q := fun h => hq h.symm
    by_cases hb : better side order.Price e.price = true
    · simp only [insertLevel, if_pos hb, levelOf, if_neg hne]
    · simp only [insertLevel, if_neg hb, levelOf]
      rw [insertLevel_levelOf_ne side order q hq es]

theorem Put_levelAt (page : Page) (order : Order) :
    (page.Put order).levelAt order.Price = page.levelAt order.Price ++ [order] ∧
      ∀ q, q ≠ order.Price → (page.Put order).levelAt q = page.levelAt q := by
  unfold Page.Put Page.levelAt
  split
  · rename_i h
    have h2 : ∃ e ∈ page.points, e.price = order.Price := by
      simpa [List.any_eq_true] using h
    exact ⟨appendAt_levelOf order page.points h2,
      fun q hq => appendAt_levelOf_ne order q hq page.points⟩
  · rename_i h
    have h2 : ∀ e ∈ page.points, e.price ≠ order.Price := by
      simpa [List.any_eq_true] using h
    refine ⟨?_, fun q hq => insertLevel_levelOf_ne page.Side order q hq page.points⟩
    rw [levelOf_none order.Price page.points h2]
    exact insertLevel_levelOf page.Side order page.points h2

/-- C8. Resting of a limit remainder.  After `createOrder` applies a Limit order with
a fresh Id, an order with that Id is in the ladder of its own side if and only if the
order's RemainingAmount after the walk is positive.  Then the order is the last of
the time queue of the level at its Price, behind the orders that rested at that
price, and the other levels are as before; otherwise that ladder is unchanged.  No
order with that Id is in the opposite ladder. -/
theorem limit_remainder_rests (book : Book) (order : Order) (hfresh : book.fresh order.Id)
    (hl : order.«Type» = OrderTypeLimit) :
    (order.Side = PageSideAsk →
      ((∃ x ∈ (createOrder book order).1.asks.bestFirst, x.Id = order.Id) ↔
        0 < (createOrder book order).2.RemainingAmount) ∧
      (0 < (createOrder book order).2.RemainingAmount →
        (createOrder book order).1.asks.levelAt order.Price =
          book.asks.levelAt order.Price ++ [(createOrder book order).2] ∧
        ∀ q, q ≠ order.Price →
          (createOrder book order).1.asks.levelAt q = book.asks.levelAt q) ∧
      ((createOrder book order).2.RemainingAmount = 0 →
        (createOrder book order).1.asks = book.asks) ∧
      ∀ x ∈ (createOrder book order).1.bids.bestFirst, x.Id ≠ order.Id) ∧
    (order.Side = PageSideBid →
      ((∃ x ∈ (createOrder book order).1.bids.bestFirst, x.Id = order.Id) ↔
        0 < (createOrder book order).2.RemainingAmount) ∧
      (0 < (createOrder book order).2.RemainingAmount →
        (createOrder book order).1.bids.levelAt order.Price =
          book.bids.levelAt order.Price ++ [(createOrder book order).2] ∧
        ∀ q, q ≠ order.Price →
          (createOrder book order).1.bids.levelAt q = book.bids.levelAt q) ∧
      ((createOrder book order).2.RemainingAmount = 0 →
        (createOrder book order).1.bids = book.bids) ∧
      ∀ x ∈ (createOrder book order).1.asks.bestFirst, x.Id ≠ order.Id) := by
  have hra : ∀ o ∈ book.asks.bestFirst, o.Id ≠ order.Id :=
    fun o h => hfresh.2 o (List.mem_append.2 (Or.inl h))
  have hrb : ∀ o ∈ book.bids.bestFirst, o.Id ≠ order.Id :=
    fun o h => hfresh.2 o (List.mem_append.2 (Or.inr h))
  constructor
  · intro hs
    obtain ⟨e1, _, e3, e4⟩ := createOrder_ask book order hfresh.1 hs
    obtain ⟨hid, hty, hpr⟩ := walk_ident askStops askStops_price book.bids.bestFirst
      (book.transact, order)
    rw [← e1] at e4 hid hty hpr
    have hty2 : (createOrder book order).2.«Type» = OrderTypeLimit := by rw [hty]; exact hl
    refine ⟨?_, ?_, ?_, ?_⟩
    · constructor
      · rintro ⟨x, hx, hxid⟩
        rw [e4] at hx
        split at hx
        · rename_i hc; exact hc.2
        · exact absurd hxid (hra x hx)
      · intro hpos
        refine ⟨(createOrder book order).2, ?_, hid⟩
        rw [e4, if_pos ⟨hty2, hpos⟩]
        exact (Put_mem _ _ _).2 (Or.inr rfl)
    · intro hpos
      rw [e4, if_pos ⟨hty2, hpos⟩, ← hpr]
      exact Put_levelAt book.asks (createOrder book order).2
    · intro hz
      rw [e4, if_neg]
      intro hc
      omega
    · intro x hx
      rw [e3] at hx
      exact walk_ids askStops (book.transact, order) _ order.Id hrb x hx
  · intro hs
    obtain ⟨e1, _, e3, e4⟩ := createOrder_bid book order hfresh.1 hs
    obtain ⟨hid, hty, hpr⟩ := walk_ident bidStops bidStops_price book.asks.bestFirst
      (book.transact, order)
    rw [← e1] at e4 hid hty hpr
    have hty2 : (createOrder book order).2.«Type» = OrderTypeLimit := by rw [hty]; exact hl
    refine ⟨?_, ?_, ?_, ?_⟩
    · constructor
      · rintro ⟨x, hx, hxid⟩
        rw [e4] at hx
        split at hx
        · rename_i hc; exact hc.2
        · exact absurd hxid (hrb x hx)
      · intro hpos
        refine ⟨(createOrder book order).2, ?_, hid⟩
        rw [e4, if_pos ⟨hty2, hpos⟩]
        exact (Put_mem _ _ _).2 (Or.inr rfl)
    · intro hpos
      rw [e4, if_pos ⟨hty2, hpos⟩, ← hpr]
      exact Put_levelAt book.bids (createOrder book order).2
    · intro hz
      rw [e4, if_neg]
      intro hc
      omega
    · intro x hx
      rw [e3] at hx
      exact walk_ids bidStops (book.transact, order) _ order.Id hra x hx

theorem limit_remainder_rests_witness :
    bookB8S9.fresh orderA2.Id ∧ orderA2.«Type» = OrderTypeLimit ∧
      orderA2.Side = PageSideAsk ∧
      (createOrder bookB8S9 orderA2).2 = orderA2 ∧
      (createOrder bookB8S9 orderA2).1.asks.points = [⟨9, [orderS9, orderA2]⟩] ∧
      (createOrder bookB8S9 orderA2).1.bids.points = [⟨8, [orderB8]⟩] ∧
      (((∃ x ∈ (createOrder bookB8S9 orderA2).1.asks.bestFirst, x.Id = orderA2.Id) ↔
        0 < (createOrder bookB8S9 orderA2).2.RemainingAmount) ∧
      (0 < (createOrder bookB8S9 orderA2).2.RemainingAmount →
        (createOrder bookB8S9 orderA2).1.asks.levelAt orderA2.Price =
          bookB8S9.asks.levelAt orderA2.Price ++ [(createOrder bookB8S9 orderA2).2] ∧
        ∀ q, q ≠ orderA2.Price →
          (createOrder bookB8S9 orderA2).1.asks.levelAt q = bookB8S9.asks.levelAt q) ∧
      ((createOrder bookB8S9 orderA2).2.RemainingAmount = 0 →
        (createOrder bookB8S9 orderA2).1.asks = bookB8S9.asks) ∧
      ∀ x ∈ (createOrder bookB8S9 orderA2).1.bids.bestFirst, x.Id ≠ orderA2.Id) :=
  ⟨by decide, by decide, by decide, by decide, by decide, by decide,
    (limit_remainder_rests bookB8S9 orderA2 (by decide) (by decide)).1 (by decide)⟩


/-! ### Idempotence -/

theorem createOrder_index (book : Book) (order : Order) :
    order.Id ∈ (createOrder book order).1.createIndex := by
  by_cases hd : order.Id ∈ book.createIndex
  · rw [createOrder_dup book order hd]; exact hd
  · by_cases hs : order.Side = PageSideAsk
    · rw [createOrder_ask_eq book order hd hs]
      split <;> exact List.mem_cons_self _ _
    · by_cases hs2 : order.Side = PageSideBid
      · rw [createOrder_bid_eq book order hd hs2]
        split <;> exact List.mem_cons_self _ _
      · rw [createOrder_other book order hd hs hs2]
        exact List.mem_cons_self _ _

/-- C9. Create idempotence.  For an order whose Id is in `createIndex`, `createOrder`
returns the book and the order as they are: the ladders, both indexes, the amounts of
every order and the record of the calls of the trade-report collaborator are
unchanged (no call is made).  So after `createOrder` has applied an order, applying
an order with the same Id again changes nothing. -/
theorem create_idempotence (book : Book) (order : Order) :
    (order.Id ∈ book.createIndex → createOrder book order = (book, order)) ∧
      ∀ replay : Order, replay.Id = order.Id →
        createOrder (createOrder book order).1 replay = ((createOrder book order).1, replay) := by
  refine ⟨createOrder_dup book order, ?_⟩
  intro replay hr
  exact createOrder_dup _ replay (by rw [hr]; exact createOrder_index book order)

theorem create_idempotence_witness :
    orderA1.Id ∈ bookB1A1.createIndex ∧
      createOrder bookB1A1 orderA1 = (bookB1A1, orderA1) ∧
      (createOrder bookB1 orderA1).2.Id = orderA1.Id ∧
      createOrder (createOrder bookB1 orderA1).1 (createOrder bookB1 orderA1).2 =
        ((createOrder bookB1 orderA1).1, (createOrder bookB1 orderA1).2) :=
  ⟨by decide, (create_idempotence bookB1A1 orderA1).1 (by decide), by decide,
    (create_idempotence bookB1 orderA1).2 (createOrder bookB1 orderA1).2 (by decide)⟩

theorem cancelOrder_dup (book : Book) (order : Order) (h : order.Id ∈ book.cancelIndex) :
    cancelOrder book order = .ok book := by
  simp [cancelOrder, h]

theorem cancelOrder_fresh (book : Book) (order : Order) (b : Book)
    (hn : order.Id ∉ book.cancelIndex) (h : cancelOrder book order = .ok b) :
    b.cancelIndex = order.Id :: book.cancelIndex ∧ b.cancel = book.cancel.retry order := by
  unfold cancelOrder at h
  rw [if_neg hn] at h
  split at h
  · cases h; exact ⟨rfl, rfl⟩
  · split at h
    · cases h; exact ⟨rfl, rfl⟩
    · cases h

/-- C10. Cancel idempotence.  For an order whose Id is in `cancelIndex`,
`cancelOrder` returns the book as it is and calls the cancel-notice collaborator zero
times.  So after `cancelOrder` has applied an order, applying an order with the same
Id again changes nothing, and the two applications together make exactly one
successful call of the cancel-notice collaborator. -/
theorem cancel_idempotence (book : Book) (order : Order) :
    (order.Id ∈ book.cancelIndex → cancelOrder book order = .ok book) ∧
      (∀ b : Book, cancelOrder book order = .ok b →
        ∀ replay : Order, replay.Id = order.Id → cancelOrder b replay = .ok b) ∧
      (order.Id ∉ book.cancelIndex → ∀ b : Book, cancelOrder book order = .ok b →
        b.cancel.reports = book.cancel.reports ++ [order]) := by
  refine ⟨cancelOrder_dup book order, ?_, ?_⟩
  · intro b hb replay hr
    apply cancelOrder_dup
    rw [hr]
    by_cases hn : order.Id ∈ book.cancelIndex
    · rw [cancelOrder_dup book order hn] at hb
      cases hb
      exact hn
    · rw [(cancelOrder_fresh book order b hn hb).1]
      exact List.mem_cons_self _ _
  · intro hn b hb
    rw [(cancelOrder_fresh book order b hn hb).2]
    exact retry_reports book.cancel order

theorem cancel_idempotence_witness :
    orderA1.Id ∈ bookB1A1Cancel.cancelIndex ∧
      cancelOrder bookB1A1Cancel orderA1 = .ok bookB1A1Cancel ∧
      orderA1.Id ∉ bookB1A1.cancelIndex ∧
      cancelOrder bookB1A1 orderA1 = .ok bookB1A1Cancel ∧
      cancelOrder bookB1A1Cancel orderA1 = .ok bookB1A1Cancel ∧
      bookB1A1Cancel.cancel.reports = bookB1A1.cancel.reports ++ [orderA1] :=
  ⟨by decide, (cancel_idempotence bookB1A1Cancel orderA1).1 (by decide), by decide,
    by decide,
    (cancel_idempotence bookB1A1 orderA1).2.1 bookB1A1Cancel (by decide) orderA1 rfl,
    (cancel_idempotence bookB1A1 orderA1).2.2 (by decide) bookB1A1Cancel (by decide)⟩


/-! ### The match step, submission and dispatch -/

/-- C13, as stated, fails.  The claim that `process` never decreases a FilledAmount
fails for an order whose FilledAmount is the largest value of its Go type and whose
RemainingAmount is 1: matched with the bid B1 the matched amount is 1, and Go's `+`
takes the FilledAmount of the order to 0. -/
theorem match_step_arithmetic_counterexample :
    orderFull.typed ∧ orderB1.typed ∧
      min orderFull.RemainingAmount orderB1.RemainingAmount = 1 ∧
      orderFull.FilledAmount = 18446744073709551615 ∧
      (process ⟨[], []⟩ orderFull orderB1).2.1.FilledAmount = 0 ∧
      ¬ (orderFull.FilledAmount ≤ (process ⟨[], []⟩ orderFull orderB1).2.1.FilledAmount) := by
  decide

/-- C13, amended.  Match step arithmetic.  For every order and opponent, `process`
takes `matchedAmount = min(order.RemainingAmount, opponent.RemainingAmount)`,
decreases both RemainingAmount fields by exactly that amount, sets both FilledAmount
fields to the sum with that amount as Go's `+` gives it, and leaves Id, Side, Type,
Price and Amount of both as they are.  The amount is at most each RemainingAmount, so
no subtraction goes below zero and RemainingAmount does not increase.  For an order
with `FilledAmount + RemainingAmount` below `2 ^ 64` the sum is exact: its
FilledAmount increases by exactly that amount and does not decrease; the same for
the opponent. -/
theorem match_step_arithmetic (transact : TransactCallback) (order opponent : Order) :
    ((process transact order opponent).2.1.RemainingAmount +
          min order.RemainingAmount opponent.RemainingAmount = order.RemainingAmount ∧
        (process transact order opponent).2.1.FilledAmount =
          wrap (order.FilledAmount + min order.RemainingAmount opponent.RemainingAmount) ∧
        (process transact order opponent).2.2.RemainingAmount +
          min order.RemainingAmount opponent.RemainingAmount = opponent.RemainingAmount ∧
        (process transact order opponent).2.2.FilledAmount =
          wrap (opponent.FilledAmount +
            min order.RemainingAmount opponent.RemainingAmount)) ∧
      ((process transact order opponent).2.1.ident = order.ident ∧
        (process transact order opponent).2.2.ident = opponent.ident) ∧
      ((process transact order opponent).2.1.RemainingAmount ≤ order.RemainingAmount ∧
        (process transact order opponent).2.2.RemainingAmount ≤ opponent.RemainingAmount) ∧
      (order.fits →
        (process transact order opponent).2.1.FilledAmount =
            order.FilledAmount + min order.RemainingAmount opponent.RemainingAmount ∧
          order.FilledAmount ≤ (process transact order opponent).2.1.FilledAmount ∧
          (process transact order opponent).2.1.fits) ∧
      (opponent.fits →
        (process transact order opponent).2.2.FilledAmount =
            opponent.FilledAmount + min order.RemainingAmount opponent.RemainingAmount ∧
          opponent.FilledAmount ≤ (process transact order opponent).2.2.FilledAmount ∧
          (process transact order opponent).2.2.fits) := by
  obtain ⟨a1, a2, a3, a4⟩ := process_amounts transact order opponent
  refine ⟨⟨?_, a2, ?_, a4⟩, process_ident transact order opponent, ⟨?_, ?_⟩, ?_, ?_⟩
  · omega
  · omega
  · omega
  · omega
  · intro hf
    unfold Order.fits at hf ⊢
    simp only [wrap] at a2
    refine ⟨?_, ?_, ?_⟩ <;> omega
  · intro hf
    unfold Order.fits at hf ⊢
    simp only [wrap] at a4
    refine ⟨?_, ?_, ?_⟩ <;> omega

theorem match_step_arithmetic_witness :
    orderA1.fits ∧ orderB1.fits ∧
      (process ⟨[], []⟩ orderA1 orderB1).2.1.FilledAmount =
        orderA1.FilledAmount + min orderA1.RemainingAmount orderB1.RemainingAmount ∧
      orderA1.FilledAmount ≤ (process ⟨[], []⟩ orderA1 orderB1).2.1.FilledAmount ∧
      (process ⟨[], []⟩ orderA1 orderB1).2.2.FilledAmount =
        orderB1.FilledAmount + min orderA1.RemainingAmount orderB1.RemainingAmount ∧
      (process ⟨[], []⟩ orderA1 orderB1).2 =
        (⟨"A1", PageSideAsk, OrderTypeLimit, 10, 3, 0, 3⟩,
          ⟨"B1", PageSideBid, OrderTypeLimit, 10, 5, 2, 3⟩) :=
  ⟨by decide, by decide,
    ((match_step_arithmetic ⟨[], []⟩ orderA1 orderB1).2.2.2.1 (by decide)).1,
    ((match_step_arithmetic ⟨[], []⟩ orderA1 orderB1).2.2.2.1 (by decide)).2.1,
    ((match_step_arithmetic ⟨[], []⟩ orderA1 orderB1).2.2.2.2 (by decide)).1,
    by decide⟩

/-- C14. Submit validation.  `AttachOrderEvent` ends in a fatal abort if and only if
the Side of the order is neither Ask nor Bid, or its Type is neither Limit nor
Market, or the action is neither CREATE nor CANCEL.  Otherwise it returns (the Go
function returns `nil`) a book that differs from the given one only in its queue,
which has the command `(order, action)` added at its tail. -/
theorem submit_validation (book : Book) (order : Order) (action : String) :
    ((∃ f, AttachOrderEvent book order action = .error f) ↔
        (¬(order.Side = PageSideAsk ∨ order.Side = PageSideBid) ∨
          ¬(order.«Type» = OrderTypeLimit ∨ order.«Type» = OrderTypeMarket) ∨
          ¬(action = OrderActionCreate ∨ action = OrderActionCancel))) ∧
      ((order.Side = PageSideAsk ∨ order.Side = PageSideBid) →
        (order.«Type» = OrderTypeLimit ∨ order.«Type» = OrderTypeMarket) →
        (action = OrderActionCreate ∨ action = OrderActionCancel) →
        AttachOrderEvent book order action =
          .ok { book with queue := book.queue ++ [⟨order, action⟩] }) := by
  have hok : (order.Side = PageSideAsk ∨ order.Side = PageSideBid) →
      (order.«Type» = OrderTypeLimit ∨ order.«Type» = OrderTypeMarket) →
      (action = OrderActionCreate ∨ action = OrderActionCancel) →
      AttachOrderEvent book order action =
        .ok { book with queue := book.queue ++ [⟨order, action⟩] } := by
    intro h1 h2 h3
    have n1 : ¬(order.Side ≠ PageSideAsk ∧ order.Side ≠ PageSideBid) := by
      rintro ⟨ha, hb⟩; rcases h1 with h | h
      · exact ha h
      · exact hb h
    have n2 : ¬(order.«Type» ≠ OrderTypeLimit ∧ order.«Type» ≠ OrderTypeMarket) := by
      rintro ⟨ha, hb⟩; rcases h2 with h | h
      · exact ha h
      · exact hb h
    simp only [AttachOrderEvent, if_neg n1, if_neg n2, if_pos h3]
  refine ⟨⟨?_, ?_⟩, hok⟩
  · rintro ⟨f, hf⟩
    by_contra hcon
    have h1 : order.Side = PageSideAsk ∨ order.Side = PageSideBid := by
      by_contra hc; exact hcon (Or.inl hc)
    have h2 : order.«Type» = OrderTypeLimit ∨ order.«Type» = OrderTypeMarket := by
      by_contra hc; exact hcon (Or.inr (Or.inl hc))
    have h3 : action = OrderActionCreate ∨ action = OrderActionCancel := by
      by_contra hc; exact hcon (Or.inr (Or.inr hc))
    rw [hok h1 h2 h3] at hf
    cases hf
  · intro h
    unfold AttachOrderEvent
    split
    · exact ⟨_, rfl⟩
    · rename_i n1
      split
      · exact ⟨_, rfl⟩
      · rename_i n2
        split
        · rename_i h3
          exfalso
          rcases h with h | h | h
          · exact h (by by_contra hc; simp only [not_or] at hc; exact n1 hc)
          · exact h (by by_contra hc; simp only [not_or] at hc; exact n2 hc)
          · exact h h3
        · exact ⟨_, rfl⟩

theorem submit_validation_witness :
    (orderB1.Side = PageSideAsk ∨ orderB1.Side = PageSideBid) ∧
      (orderB1.«Type» = OrderTypeLimit ∨ orderB1.«Type» = OrderTypeMarket) ∧
      (OrderActionCreate = OrderActionCreate ∨ OrderActionCreate = OrderActionCancel) ∧
      AttachOrderEvent bookB1 orderB1 OrderActionCreate =
        .ok { bookB1 with queue := bookB1.queue ++ [⟨orderB1, OrderActionCreate⟩] } ∧
      AttachOrderEvent bookB1 orderB1 "UPDATE" = .error Fatal.attachAction ∧
      AttachOrderEvent bookB1 { orderB1 with Side := "" } OrderActionCreate =
        .error Fatal.attachSide ∧
      AttachOrderEvent bookB1 { orderB1 with «Type» := "STOP" } OrderActionCreate =
        .error Fatal.attachType :=
  ⟨by decide, by decide, by decide,
    (submit_validation bookB1 orderB1 OrderActionCreate).2 (by decide) (by decide) (by decide),
    by decide, by decide, by decide⟩


theorem attach_valid (book : Book) (order : Order) (action : String) (b : Book)
    (h : AttachOrderEvent book order action = .ok b) :
    (⟨order, action⟩ : OrderEvent).valid ∧
      b = { book with queue := book.queue ++ [⟨order, action⟩] } := by
  unfold AttachOrderEvent at h
  split at h
  · cases h
  · rename_i n1
    split at h
    · cases h
    · rename_i n2
      split at h
      · rename_i h3
        cases h
        refine ⟨⟨?_, ?_, h3⟩, rfl⟩
        · by_contra hc; simp only [not_or] at hc; exact n1 hc
        · by_contra hc; simp only [not_or] at hc; exact n2 hc
      · cases h

theorem dispatch_valid (book : Book) (event : OrderEvent) (h : event.valid) :
    ∃ b, dispatch book event = .ok b := by
  obtain ⟨hs, _, ha⟩ := h
  unfold dispatch
  split
  · exact ⟨_, rfl⟩
  · rename_i hc
    have hcancel : event.Action = OrderActionCancel := by
      rcases ha with h | h
      · exact absurd h hc
      · exact h
    rw [if_pos hcancel]
    unfold cancelOrder
    split
    · exact ⟨_, rfl⟩
    · split
      · exact ⟨_, rfl⟩
      · rename_i hna
        have hb : event.Order.Side = PageSideBid := by
          rcases hs with h | h
          · exact absurd h hna
          · exact h
        rw [if_pos hb]
        exact ⟨_, rfl⟩

theorem dispatch_queue (book : Book) (event : OrderEvent) (b : Book)
    (h : dispatch book event = .ok b) : b.queue = book.queue := by
  unfold dispatch at h
  split at h
  · cases h
    by_cases hd : event.Order.Id ∈ book.createIndex
    · rw [createOrder_dup book event.Order hd]
    · by_cases hs : event.Order.Side = PageSideAsk
      · rw [createOrder_ask_eq book event.Order hd hs]
        split <;> rfl
      · by_cases hs2 : event.Order.Side = PageSideBid
        · rw [createOrder_bid_eq book event.Order hd hs2]
          split <;> rfl
        · rw [createOrder_other book event.Order hd hs hs2]
  · split at h
    · unfold cancelOrder at h
      split at h
      · cases h; rfl
      · split at h
        · cases h; rfl
        · split at h
          · cases h; rfl
          · cases h
    · cases h

theorem runQueue_valid :
    ∀ (events : List OrderEvent) (book : Book), (∀ ev ∈ events, ev.valid) →
      ∃ b, runQueue book events = .ok b
  | [], book, _ => ⟨book, rfl⟩
  | event :: events, book, h => by
    obtain ⟨b1, hb1⟩ := dispatch_valid { book with queue := events } event
      (h event (List.mem_cons_self _ _))
    obtain ⟨b, hb⟩ := runQueue_valid events b1 (fun ev hev => h ev (List.mem_cons_of_mem _ hev))
    exact ⟨b, by simp only [runQueue, hb1, hb]⟩

theorem attachEvents_queue :
    ∀ (events : List OrderEvent) (book b : Book), attachEvents book events = .ok b →
      (∀ ev ∈ book.queue, ev.valid) → ∀ ev ∈ b.queue, ev.valid
  | [], book, b, h, hq => by
    simp only [attachEvents] at h
    cases h; exact hq
  | event :: events, book, b, h, hq => by
    simp only [attachEvents] at h
    split at h
    · rename_i b1 hb1
      obtain ⟨hv, hb⟩ := attach_valid book event.Order event.Action b1 hb1
      refine attachEvents_queue events b1 b h ?_
      rw [hb]
      intro ev hev
      rcases List.mem_append.1 hev with hev | hev
      · exact hq ev hev
      · rw [List.mem_singleton.1 hev]; exact hv
    · cases h

/-- C17. Fatal branches are unreachable after validation.  A command that
`AttachOrderEvent` accepts is dispatched by `Run` without a fatal abort, whatever the
state of the book when it is taken from the queue: neither the abort of `Run` for an
unrecognized Action nor the abort of `cancelOrder` for a Side outside {Ask, Bid} is
reached.  So `Run` handles a queue filled through `AttachOrderEvent` without a fatal
abort. -/
theorem fatal_unreachable (book : Book) (order : Order) (action : String) (b : Book)
    (h : AttachOrderEvent book order action = .ok b) :
    (∀ book1 : Book,
      (∃ b1, dispatch book1 ⟨order, action⟩ = .ok b1) ∧
        dispatch book1 ⟨order, action⟩ ≠ .error Fatal.runAction ∧
        dispatch book1 ⟨order, action⟩ ≠ .error Fatal.cancelSide) ∧
      ∀ (events : List OrderEvent) (b2 : Book), (∀ ev ∈ book.queue, ev.valid) →
        attachEvents b events = .ok b2 → ∃ b3, Run b2 = .ok b3 := by
  obtain ⟨hv, hb⟩ := attach_valid book order action b h
  constructor
  · intro book1
    obtain ⟨b1, hb1⟩ := dispatch_valid book1 ⟨order, action⟩ hv
    refine ⟨⟨b1, hb1⟩, ?_, ?_⟩ <;> rw [hb1] <;> intro hc <;> cases hc
  · intro events b2 hq h2
    refine runQueue_valid b2.queue b2 (attachEvents_queue events b b2 h2 ?_)
    rw [hb]
    intro ev hev
    rcases List.mem_append.1 hev with hev | hev
    · exact hq ev hev
    · rw [List.mem_singleton.1 hev]; exact hv

theorem fatal_unreachable_witness :
    AttachOrderEvent bookB1 orderA1 OrderActionCancel =
        .ok { bookB1 with queue := [⟨orderA1, OrderActionCancel⟩] } ∧
      (∀ ev ∈ bookB1.queue, ev.valid) ∧
      attachEvents { bookB1 with queue := [⟨orderA1, OrderActionCancel⟩] }
          [⟨orderA1, OrderActionCreate⟩] =
        .ok { bookB1 with
          queue := [⟨orderA1, OrderActionCancel⟩, ⟨orderA1, OrderActionCreate⟩] } ∧
      (∃ b1, dispatch bookB1A1 ⟨orderA1, OrderActionCancel⟩ = .ok b1) ∧
      ∃ b3, Run { bookB1 with
          queue := [⟨orderA1, OrderActionCancel⟩, ⟨orderA1, OrderActionCreate⟩] } = .ok b3 :=
  ⟨by decide, by decide, by decide,
    ((fatal_unreachable bookB1 orderA1 OrderActionCancel
      { bookB1 with queue := [⟨orderA1, OrderActionCancel⟩] } (by decide)).1 bookB1A1).1,
    (fatal_unreachable bookB1 orderA1 OrderActionCancel
      { bookB1 with queue := [⟨orderA1, OrderActionCancel⟩] } (by decide)).2
      [⟨orderA1, OrderActionCreate⟩] _ (by decide) (by decide)⟩


/-! ### Retries -/

theorem retryLoop_first_success {α : Type} (a : α) (tail : List Bool)
    (ht : tail.head? ≠ some true) :
    ∀ (k : Nat) (calls : List (α × Bool)),
      retryLoop a (List.replicate k true ++ tail) calls =
        ⟨tail.tail, calls ++ List.replicate k (a, true) ++ [(a, false)]⟩
  | 0, calls => by
    cases tail with
    | nil => simp [retryLoop]
    | cons x rest =>
      cases x with
      | false => simp [retryLoop]
      | true => simp at ht
  | k + 1, calls => by
    have ih := retryLoop_first_success a tail ht k (calls ++ [(a, true)])
    show retryLoop a (List.replicate k true ++ tail) (calls ++ [(a, true)]) = _
    rw [ih]
    simp [List.replicate_succ]

theorem retry_first_success {α : Type} (cb : Callback α) (a : α) (k : Nat) (tail : List Bool)
    (hs : cb.script = List.replicate k true ++ tail) (ht : tail.head? ≠ some true) :
    cb.retry a = ⟨tail.tail, cb.calls ++ List.replicate k (a, true) ++ [(a, false)]⟩ := by
  unfold Callback.retry
  rw [hs]
  exact retryLoop_first_success a tail ht k cb.calls

theorem retryLoopTrace_last {α : Type} (a : α) :
    ∀ (script : List Bool) (calls : List (α × Bool)),
      (retryLoopTrace a script calls).getLast? = some (retryLoop a script calls)
  | [], calls => rfl
  | false :: script, calls => rfl
  | true :: script, calls => by
    have ih := retryLoopTrace_last a script (calls ++ [(a, true)])
    cases hr : retryLoopTrace a script (calls ++ [(a, true)]) with
    | nil => rw [hr] at ih; cases ih
    | cons x rest =>
      rw [hr] at ih
      show (_ :: retryLoopTrace a script (calls ++ [(a, true)])).getLast? =
        some (retryLoop a script (calls ++ [(a, true)]))
      rw [hr, List.getLast?_cons_cons]
      exact ih

theorem retryLoopTrace_calls {α : Type} (a : α) (tail : List Bool)
    (ht : tail.head? ≠ some true) :
    ∀ (k : Nat) (calls : List (α × Bool)),
      (retryLoopTrace a (List.replicate k true ++ tail) calls).map (fun cb => cb.calls) =
        (List.range k).map (fun i => calls ++ List.replicate (i + 1) (a, true)) ++
          [calls ++ List.replicate k (a, true) ++ [(a, false)]]
  | 0, calls => by
    cases tail with
    | nil => simp [retryLoopTrace]
    | cons x rest =>
      cases x with
      | false => simp [retryLoopTrace]
      | true => simp at ht
  | k + 1, calls => by
    have ih := retryLoopTrace_calls a tail ht k (calls ++ [(a, true)])
    show (calls ++ [(a, true)]) ::
        (retryLoopTrace a (List.replicate k true ++ tail) (calls ++ [(a, true)])).map
          (fun cb => cb.calls) = _
    rw [ih, List.range_succ_eq_map]
    simp [List.replicate_succ, Function.comp_def]

theorem cancelTrace_states (book1 : Book) (order : Order) (k : Nat) (tail : List Bool)
    (ht : tail.head? ≠ some true) (hs : book1.cancel.script = List.replicate k true ++ tail) :
    (book1 :: (book1.cancel.retryTrace order).map
        (fun cb => { book1 with cancel := cb })).map
        (fun s => (s.cancel.calls, s.asks, s.bids)) =
      (List.range (k + 1)).map
          (fun i => (book1.cancel.calls ++ List.replicate i (order, true),
            book1.asks, book1.bids)) ++
        [(book1.cancel.calls ++ List.replicate k (order, true) ++ [(order, false)],
          book1.asks, book1.bids)] := by
  have h := retryLoopTrace_calls order tail ht k book1.cancel.calls
  have hm : ((book1.cancel.retryTrace order).map (fun cb => { book1 with cancel := cb })).map
      (fun s => (s.cancel.calls, s.asks, s.bids)) =
      ((retryLoopTrace order (List.replicate k true ++ tail) book1.cancel.calls).map
        (fun cb => cb.calls)).map (fun c => (c, book1.asks, book1.bids)) := by
    unfold Callback.retryTrace
    rw [hs]
    simp [List.map_map, Function.comp_def]
  rw [List.map_cons, hm, h, List.range_succ_eq_map]
  simp [List.map_map, Function.comp_def]

theorem cancelOrderTrace_eq (book : Book) (order : Order) (hid : order.Id ∉ book.cancelIndex)
    (hside : order.Side = PageSideAsk ∨ order.Side = PageSideBid) :
    ∃ final : Book, cancelOrder book order = .ok final ∧
      cancelOrderTrace book order =
        ({ book with cancelIndex := order.Id :: book.cancelIndex } ::
          (({ book with cancelIndex := order.Id :: book.cancelIndex } : Book).cancel.retryTrace
            order).map
            (fun cb =>
              { ({ book with cancelIndex := order.Id :: book.cancelIndex } : Book) with
                cancel := cb })) ++ [final] := by
  rcases hside with hside | hside
  · refine ⟨{ book with
        cancelIndex := order.Id :: book.cancelIndex
        cancel := book.cancel.retry order
        asks := book.asks.Remove order }, ?_, ?_⟩
    · simp only [cancelOrder, if_neg hid, if_pos hside]
    · simp only [cancelOrderTrace, if_neg hid, if_pos hside]
  · have hna : order.Side ≠ PageSideAsk := by rw [hside]; exact side_ne
    refine ⟨{ book with
        cancelIndex := order.Id :: book.cancelIndex
        cancel := book.cancel.retry order
        bids := book.bids.Remove order }, ?_, ?_⟩
    · simp only [cancelOrder, if_neg hid, if_neg hna, if_pos hside]
    · simp only [cancelOrderTrace, if_neg hid, if_neg hna, if_pos hside]

/-- C16. Retry does not re-apply a match.  With a trade-report collaborator whose
first success is at position `k` of its outcomes (`k` failures first), `process`
invokes it exactly `k + 1` times, each time with the same pair of order and opponent
carrying the amounts already updated, and the amounts of the order and the opponent
that result are those of any other collaborator, the one that succeeds at once
included.  With a cancel-notice collaborator of that kind, `cancelOrder` for an Id
not yet cancelled invokes it exactly `k + 1` times with the order, the last call being
the successful one, and returns the book with the order removed from its ladder.  The
removal is the last statement it executes: in the states the book goes through before
it (after the Id is marked, after each of the `k` failed calls, and after the
successful call) both ladders are those of the given book. -/
theorem retry_does_not_reapply (k : Nat) (tail : List Bool) (ht : tail.head? ≠ some true) :
    (∀ (transact : TransactCallback) (order opponent : Order),
      transact.script = List.replicate k true ++ tail →
        (process transact order opponent).1 =
            ⟨tail.tail,
              transact.calls ++
                List.replicate k
                  (((process transact order opponent).2.1,
                    (process transact order opponent).2.2), true) ++
                [(((process transact order opponent).2.1,
                  (process transact order opponent).2.2), false)]⟩ ∧
          ∀ other : TransactCallback,
            (process transact order opponent).2 = (process other order opponent).2) ∧
      (∀ (book : Book) (order : Order), order.Id ∉ book.cancelIndex →
        book.cancel.script = List.replicate k true ++ tail →
          (order.Side = PageSideAsk →
            cancelOrder book order =
              .ok { book with
                cancelIndex := order.Id :: book.cancelIndex
                cancel := ⟨tail.tail,
                  book.cancel.calls ++ List.replicate k (order, true) ++ [(order, false)]⟩
                asks := book.asks.Remove order }) ∧
          (order.Side = PageSideBid →
            cancelOrder book order =
              .ok { book with
                cancelIndex := order.Id :: book.cancelIndex
                cancel := ⟨tail.tail,
                  book.cancel.calls ++ List.replicate k (order, true) ++ [(order, false)]⟩
                bids := book.bids.Remove order }) ∧
          (order.Side = PageSideAsk ∨ order.Side = PageSideBid →
            (cancelOrderTrace book order).getLast?.map Except.ok =
                some (cancelOrder book order) ∧
              (cancelOrderTrace book order).dropLast.map
                  (fun s => (s.cancel.calls, s.asks, s.bids)) =
                (List.range (k + 1)).map
                    (fun i => (book.cancel.calls ++ List.replicate i (order, true),
                      book.asks, book.bids)) ++
                  [(book.cancel.calls ++ List.replicate k (order, true) ++ [(order, false)],
                    book.asks, book.bids)])) := by
  constructor
  · intro transact order opponent hs
    exact ⟨retry_first_success transact _ k tail hs ht, fun _ => rfl⟩
  · intro book order hid hs
    have hr := retry_first_success book.cancel order k tail hs ht
    have hst := cancelTrace_states { book with cancelIndex := order.Id :: book.cancelIndex }
      order k tail ht hs
    refine ⟨?_, ?_, ?_⟩
    · intro hside
      simp only [cancelOrder, if_neg hid, if_pos hside, hr]
    · intro hside
      have hna : order.Side ≠ PageSideAsk := by rw [hside]; exact side_ne
      simp only [cancelOrder, if_neg hid, if_neg hna, if_pos hside, hr]
    · intro hside
      obtain ⟨final, hf, htr⟩ := cancelOrderTrace_eq book order hid hside
      rw [htr, hf, List.getLast?_concat, List.dropLast_concat]
      exact ⟨rfl, hst⟩

theorem retry_does_not_reapply_witness :
    ([false, true] : List Bool).head? ≠ some true ∧
      flakyTransact.script = List.replicate 2 true ++ [false, true] ∧
      orderB1.Id ∉ bookB1flaky.cancelIndex ∧
      bookB1flaky.cancel.script = List.replicate 2 true ++ [false, true] ∧
      orderB1.Side = PageSideBid ∧
      (process flakyTransact orderA1 orderB1).1 =
        ⟨[true],
          [((⟨"A1", PageSideAsk, OrderTypeLimit, 10, 3, 0, 3⟩,
              ⟨"B1", PageSideBid, OrderTypeLimit, 10, 5, 2, 3⟩), true),
            ((⟨"A1", PageSideAsk, OrderTypeLimit, 10, 3, 0, 3⟩,
              ⟨"B1", PageSideBid, OrderTypeLimit, 10, 5, 2, 3⟩), true),
            ((⟨"A1", PageSideAsk, OrderTypeLimit, 10, 3, 0, 3⟩,
              ⟨"B1", PageSideBid, OrderTypeLimit, 10, 5, 2, 3⟩), false)]⟩ ∧
      (process flakyTransact orderA1 orderB1).2 =
        (process ⟨[], []⟩ orderA1 orderB1).2 ∧
      cancelOrder bookB1flaky orderB1 =
        .ok { bookB1flaky with
          cancelIndex := orderB1.Id :: bookB1flaky.cancelIndex
          cancel := ⟨[true],
            bookB1flaky.cancel.calls ++ List.replicate 2 (orderB1, true) ++ [(orderB1, false)]⟩
          bids := bookB1flaky.bids.Remove orderB1 } ∧
      (bookB1flaky.bids.Remove orderB1).points = [] ∧
      (cancelOrderTrace bookB1flaky orderB1).getLast?.map Except.ok =
        some (cancelOrder bookB1flaky orderB1) ∧
      (cancelOrderTrace bookB1flaky orderB1).map
          (fun s => (s.cancel.calls.map (fun c => c.2), s.bids.bestFirst.map (fun o => o.Id))) =
        [([], ["B1"]), ([true], ["B1"]), ([true, true], ["B1"]),
          ([true, true, false], ["B1"]), ([true, true, false], [])] :=
  ⟨by decide, by decide, by decide, by decide, by decide, by decide,
    ((retry_does_not_reapply 2 [false, true] (by decide)).1 flakyTransact orderA1 orderB1
      (by decide)).2 ⟨[], []⟩,
    ((retry_does_not_reapply 2 [false, true] (by decide)).2 bookB1flaky orderB1 (by decide)
      (by decide)).2.1 (by decide),
    by decide,
    (((retry_does_not_reapply 2 [false, true] (by decide)).2 bookB1flaky orderB1 (by decide)
      (by decide)).2.2 (by decide)).1,
    by decide⟩


/-! ### Cancel -/

theorem removePoints_absent (order : Order) :
    ∀ (es : List Entry), (∀ o ∈ es.flatMap (fun e => e.list), o.Id ≠ order.Id) →
      removePoints order es = es
  | [], _ => rfl
  | e :: es, h => by
    have he : ∀ o ∈ e.list, o.Id ≠ order.Id :=
      fun o ho => h o (by simp only [List.flatMap_cons, List.mem_append]; exact Or.inl ho)
    have hes : ∀ o ∈ es.flatMap (fun e => e.list), o.Id ≠ order.Id :=
      fun o ho => h o (by simp only [List.flatMap_cons, List.mem_append]; exact Or.inr ho)
    by_cases hp : e.price = order.Price
    · have hany : ¬ (e.list.any (fun o => decide (o.Id = order.Id)) = true) := by
        simp only [List.any_eq_true, decide_eq_true_eq, not_exists, not_and]
        exact he
      simp only [removePoints, if_pos hp, if_neg hany]
    · simp only [removePoints, if_neg hp, removePoints_absent order es hes]

theorem Remove_absent (page : Page) (order : Order)
    (h : ∀ o ∈ page.bestFirst, o.Id ≠ order.Id) : page.Remove order = page := by
  unfold Page.Remove
  rw [removePoints_absent order page.points h]

/-- C11. Cancel-after-fill.  For an order with Side Ask or Bid whose Id is not in
`cancelIndex` and which is not resting (no order of the ladder of its side carries
its Id: it was fully matched, it is a Market order, or it was never created),
`cancelOrder` returns the book with the Id added to `cancelIndex`, the cancel-notice
collaborator invoked on that order until it succeeds (exactly one successful call),
and both ladders exactly as they were. -/
theorem cancel_after_fill (book : Book) (order : Order) (hid : order.Id ∉ book.cancelIndex) :
    (order.Side = PageSideAsk → (∀ o ∈ book.asks.bestFirst, o.Id ≠ order.Id) →
      cancelOrder book order =
        .ok { book with
          cancelIndex := order.Id :: book.cancelIndex
          cancel := book.cancel.retry order }) ∧
      (order.Side = PageSideBid → (∀ o ∈ book.bids.bestFirst, o.Id ≠ order.Id) →
        cancelOrder book order =
          .ok { book with
            cancelIndex := order.Id :: book.cancelIndex
            cancel := book.cancel.retry order }) ∧
      (book.cancel.retry order).reports = book.cancel.reports ++ [order] ∧
      ∃ k, (book.cancel.retry order).calls =
        book.cancel.calls ++ List.replicate k (order, true) ++ [(order, false)] := by
  refine ⟨?_, ?_, retry_reports book.cancel order, retry_calls book.cancel order⟩
  · intro hs hn
    simp only [cancelOrder, if_neg hid, if_pos hs, Remove_absent book.asks order hn]
  · intro hs hn
    have hna : order.Side ≠ PageSideAsk := by rw [hs]; exact side_ne
    simp only [cancelOrder, if_neg hid, if_neg hna, if_pos hs, Remove_absent book.bids order hn]

theorem cancel_after_fill_witness :
    orderA1.Id ∉ bookB1A1.cancelIndex ∧ orderA1.Side = PageSideAsk ∧
      (∀ o ∈ bookB1A1.asks.bestFirst, o.Id ≠ orderA1.Id) ∧
      cancelOrder bookB1A1 orderA1 =
        .ok { bookB1A1 with
          cancelIndex := orderA1.Id :: bookB1A1.cancelIndex
          cancel := bookB1A1.cancel.retry orderA1 } ∧
      (bookB1A1.cancel.retry orderA1).calls = [(orderA1, false)] :=
  ⟨by decide, by decide, by decide,
    (cancel_after_fill bookB1A1 orderA1 (by decide)).1 (by decide) (by decide), by decide⟩


/-! ### What a walk, `Put` and `Remove` keep of a ladder -/

theorem iterateList_map_sublist {σ β : Type} (hook : σ → Order → σ × Order × Bool)
    (f : Order → β) (hf : ∀ s o, f (hook s o).2.1 = f o) :
    ∀ (l : List Order) (s : σ), ((iterateList hook s l).2.1.map f).Sublist (l.map f)
  | [], s => by simp [iterateList]
  | o :: rest, s => by
    have ih := iterateList_map_sublist hook f hf rest (hook s o).1
    have hk : ∀ tl1 tl2 : List Order, (tl1.map f).Sublist (tl2.map f) →
        (((if (hook s o).2.1.RemainingAmount = 0 then [] else [(hook s o).2.1]) ++ tl1).map
          f).Sublist ((o :: tl2).map f) := by
      intro tl1 tl2 h
      split
      · simpa using List.Sublist.cons (f o) h
      · simpa [hf] using List.Sublist.cons₂ (f o) h
    by_cases hd : (hook s o).2.2 = true
    · simp only [iterateList, hd, if_true]
      exact hk rest rest (List.Sublist.refl _)
    · simp only [iterateList, hd]
      exact hk _ rest ih

theorem matchHook_ident (stops : Order → Order → Bool) (s : TransactCallback × Order)
    (o : Order) : (matchHook stops s o).2.1.ident = o.ident := by
  unfold matchHook
  split <;> rfl

theorem appendAt_flat (order : Order) :
    ∀ (es : List Entry), (∃ e ∈ es, e.price = order.Price) →
      (es.flatMap (fun e => e.list)).Sublist ((appendAt order es).flatMap (fun e => e.list)) ∧
        ((appendAt order es).flatMap (fun e => e.list)).Perm
          (order :: es.flatMap (fun e => e.list))
  | [], h => by simp at h
  | e :: es, h => by
    by_cases hp : e.price = order.Price
    · simp only [appendAt, if_pos hp, List.flatMap_cons, List.append_assoc]
      constructor
      · exact List.Sublist.append (List.Sublist.refl _) (List.sublist_append_right _ _)
      · simp
    · have h2 : ∃ e ∈ es, e.price = order.Price := by
        obtain ⟨e1, he1, hp1⟩ := h
        rcases List.mem_cons.1 he1 with he1 | he1
        · exact absurd (he1 ▸ hp1) hp
        · exact ⟨e1, he1, hp1⟩
      obtain ⟨ih1, ih2⟩ := appendAt_flat order es h2
      simp only [appendAt, if_neg hp, List.flatMap_cons]
      constructor
      · exact List.Sublist.append (List.Sublist.refl _) ih1
      · exact ((List.Perm.append_left e.list ih2).trans List.perm_middle)

theorem insertLevel_flat (side : String) (order : Order) :
    ∀ (es : List Entry),
      (es.flatMap (fun e => e.list)).Sublist
          ((insertLevel side order es).flatMap (fun e => e.list)) ∧
        ((insertLevel side order es).flatMap (fun e => e.list)).Perm
          (order :: es.flatMap (fun e => e.list))
  | [] => by simp [insertLevel]
  | e :: es => by
    obtain ⟨ih1, ih2⟩ := insertLevel_flat side order es
    by_cases hb : better side order.Price e.price = true
    · simp only [insertLevel, if_pos hb, List.flatMap_cons, List.singleton_append]
      exact ⟨List.Sublist.cons _ (List.Sublist.refl _), List.Perm.refl _⟩
    · simp only [insertLevel, if_neg hb, List.flatMap_cons]
      constructor
      · exact List.Sublist.append (List.Sublist.refl _) ih1
      · exact ((List.Perm.append_left e.list ih2).trans List.perm_middle)

theorem Put_flat (page : Page) (order : Order) :
    page.bestFirst.Sublist (page.Put order).bestFirst ∧
      (page.Put order).bestFirst.Perm (order :: page.bestFirst) := by
  unfold Page.Put Page.bestFirst
  split
  · rename_i h
    have h2 : ∃ e ∈ page.points, e.price = order.Price := by
      simpa [List.any_eq_true] using h
    exact appendAt_flat order page.points h2
  · exact insertLevel_flat page.Side order page.points

theorem removePoints_flat (order : Order) :
    ∀ (es : List Entry),
      ((removePoints order es).flatMap (fun e => e.list)).Sublist
        (es.flatMap (fun e => e.list))
  | [] => by simp [removePoints]
  | e :: es => by
    by_cases hp : e.price = order.Price
    · simp only [removePoints, if_pos hp]
      split
      · split
        · simp only [List.flatMap_cons]
          exact List.sublist_append_right _ _
        · simp only [List.flatMap_cons]
          exact List.Sublist.append (List.eraseP_sublist _) (List.Sublist.refl _)
      · exact List.Sublist.refl _
    · simp only [removePoints, if_neg hp, List.flatMap_cons]
      exact List.Sublist.append (List.Sublist.refl _) (removePoints_flat order es)

theorem Remove_flat (page : Page) (order : Order) :
    (page.Remove order).bestFirst.Sublist page.bestFirst :=
  removePoints_flat order page.points


/-! ### The frame of a create -/

theorem createOrder_indexes (book : Book) (order : Order) :
    (createOrder book order).1.cancelIndex = book.cancelIndex ∧
      (createOrder book order).1.createIndex =
        (if order.Id ∈ book.createIndex then book.createIndex
          else order.Id :: book.createIndex) := by
  by_cases hd : order.Id ∈ book.createIndex
  · rw [createOrder_dup book order hd, if_pos hd]; exact ⟨rfl, rfl⟩
  · rw [if_neg hd]
    by_cases hs : order.Side = PageSideAsk
    · rw [createOrder_ask_eq book order hd hs]
      split <;> exact ⟨rfl, rfl⟩
    · by_cases hs2 : order.Side = PageSideBid
      · rw [createOrder_bid_eq book order hd hs2]
        split <;> exact ⟨rfl, rfl⟩
      · rw [createOrder_other book order hd hs hs2]; exact ⟨rfl, rfl⟩

/-- C20. Frame of a create.  `createOrder` never changes `cancelIndex` and adds to
`createIndex` exactly the Id of the incoming order.  For an order on side S, the
ladder of side S is either unchanged or the result of inserting the incoming order
itself: the orders that rested in it are still there, with the same values and in the
same order.  Nothing is inserted into the opposite ladder: the orders resting in it
afterwards are, in order, among those that rested in it before. -/
theorem frame_of_create (book : Book) (order : Order) :
    (createOrder book order).1.cancelIndex = book.cancelIndex ∧
      (∀ id, id ∈ (createOrder book order).1.createIndex ↔
        id ∈ book.createIndex ∨ id = order.Id) ∧
      (order.Side = PageSideAsk →
        ((createOrder book order).1.asks = book.asks ∨
          (createOrder book order).1.asks = book.asks.Put (createOrder book order).2) ∧
        book.asks.bestFirst.Sublist (createOrder book order).1.asks.bestFirst ∧
        (∀ x ∈ (createOrder book order).1.asks.bestFirst,
          x ∈ book.asks.bestFirst ∨ x = (createOrder book order).2) ∧
        ((createOrder book order).1.bids.bestFirst.map Order.ident).Sublist
          (book.bids.bestFirst.map Order.ident)) ∧
      (order.Side = PageSideBid →
        ((createOrder book order).1.bids = book.bids ∨
          (createOrder book order).1.bids = book.bids.Put (createOrder book order).2) ∧
        book.bids.bestFirst.Sublist (createOrder book order).1.bids.bestFirst ∧
        (∀ x ∈ (createOrder book order).1.bids.bestFirst,
          x ∈ book.bids.bestFirst ∨ x = (createOrder book order).2) ∧
        ((createOrder book order).1.asks.bestFirst.map Order.ident).Sublist
          (book.asks.bestFirst.map Order.ident)) := by
  obtain ⟨hc, hi⟩ := createOrder_indexes book order
  refine ⟨hc, ?_, ?_, ?_⟩
  · intro id
    rw [hi]
    split
    · rename_i hd
      constructor
      · exact Or.inl
      · rintro (h | h)
        · exact h
        · rw [h]; exact hd
    · simp only [List.mem_cons]
      tauto
  · intro hs
    by_cases hd : order.Id ∈ book.createIndex
    · rw [createOrder_dup book order hd]
      exact ⟨Or.inl rfl, List.Sublist.refl _, fun x hx => Or.inl hx, List.Sublist.refl _⟩
    · obtain ⟨e1, _, e3, e4⟩ := createOrder_ask book order hd hs
      rw [← e1] at e4
      have hopp : ((createOrder book order).1.bids.bestFirst.map Order.ident).Sublist
          (book.bids.bestFirst.map Order.ident) := by
        rw [e3]
        exact iterateList_map_sublist (matchHook askStops) Order.ident
          (matchHook_ident askStops) _ _
      rw [e4]
      split
      · exact ⟨Or.inr rfl, (Put_flat _ _).1, fun x hx => (Put_mem _ _ _).1 hx, hopp⟩
      · exact ⟨Or.inl rfl, List.Sublist.refl _, fun x hx => Or.inl hx, hopp⟩
  · intro hs
    by_cases hd : order.Id ∈ book.createIndex
    · rw [createOrder_dup book order hd]
      exact ⟨Or.inl rfl, List.Sublist.refl _, fun x hx => Or.inl hx, List.Sublist.refl _⟩
    · obtain ⟨e1, _, e3, e4⟩ := createOrder_bid book order hd hs
      rw [← e1] at e4
      have hopp : ((createOrder book order).1.asks.bestFirst.map Order.ident).Sublist
          (book.asks.bestFirst.map Order.ident) := by
        rw [e3]
        exact iterateList_map_sublist (matchHook bidStops) Order.ident
          (matchHook_ident bidStops) _ _
      rw [e4]
      split
      · exact ⟨Or.inr rfl, (Put_flat _ _).1, fun x hx => (Put_mem _ _ _).1 hx, hopp⟩
      · exact ⟨Or.inl rfl, List.Sublist.refl _, fun x hx => Or.inl hx, hopp⟩

theorem frame_of_create_witness :
    orderA2.Side = PageSideAsk ∧
      (createOrder bookB8S9 orderA2).1.cancelIndex = bookB8S9.cancelIndex ∧
      (createOrder bookB8S9 orderA2).1.createIndex = "A2" :: bookB8S9.createIndex ∧
      (createOrder bookB8S9 orderA2).1.asks.bestFirst = [orderS9, orderA2] ∧
      bookB8S9.asks.bestFirst = [orderS9] ∧
      (((createOrder bookB8S9 orderA2).1.asks = bookB8S9.asks ∨
          (createOrder bookB8S9 orderA2).1.asks =
            bookB8S9.asks.Put (createOrder bookB8S9 orderA2).2) ∧
        bookB8S9.asks.bestFirst.Sublist (createOrder bookB8S9 orderA2).1.asks.bestFirst ∧
        (∀ x ∈ (createOrder bookB8S9 orderA2).1.asks.bestFirst,
          x ∈ bookB8S9.asks.bestFirst ∨ x = (createOrder bookB8S9 orderA2).2) ∧
        ((createOrder bookB8S9 orderA2).1.bids.bestFirst.map Order.ident).Sublist
          (bookB8S9.bids.bestFirst.map Order.ident)) :=
  ⟨by decide, by decide, by decide, by decide, by decide,
    (frame_of_create bookB8S9 orderA2).2.2.1 (by decide)⟩


/-! ### Every trade moves a positive amount -/

theorem process_positive (t : TransactCallback) (o p : Order) (ho : 0 < o.RemainingAmount)
    (hp : 0 < p.RemainingAmount) :
    ((process t o p).2.1.RemainingAmount < o.RemainingAmount ∧
        (o.fits → o.FilledAmount < (process t o p).2.1.FilledAmount ∧
          (process t o p).2.1.fits)) ∧
      ((p.fits → p.FilledAmount < (process t o p).2.2.FilledAmount) ∧
        (process t o p).2.2.RemainingAmount < p.RemainingAmount ∧
        (process t o p).2.2.ident = p.ident) := by
  obtain ⟨a1, a2, a3, a4⟩ := process_amounts t o p
  simp only [wrap] at a2 a4
  unfold Order.fits
  refine ⟨⟨?_, ?_⟩, ?_, ?_, rfl⟩
  · omega
  · intro hf
    constructor <;> omega
  · intro hf
    omega
  · omega

theorem chain_fits : ∀ (l : List Order) (a : Order), a.fits →
    List.Chain (fun a b => b.RemainingAmount < a.RemainingAmount ∧
      (a.fits → a.FilledAmount < b.FilledAmount ∧ b.fits)) a l →
    List.Chain (fun a b => a.FilledAmount < b.FilledAmount ∧
      b.RemainingAmount < a.RemainingAmount) a l
  | [], _, _, _ => List.Chain.nil
  | b :: l, a, ha, h => by
    cases h with
    | cons hab hl =>
      exact List.Chain.cons ⟨(hab.2 ha).1, hab.1⟩ (chain_fits l b (hab.2 ha).2 hl)

theorem chain_remaining : ∀ (l : List Order) (a : Order),
    List.Chain (fun a b => b.RemainingAmount < a.RemainingAmount ∧
      (a.fits → a.FilledAmount < b.FilledAmount ∧ b.fits)) a l →
    List.Chain (fun a b => b.RemainingAmount < a.RemainingAmount) a l
  | [], _, _ => List.Chain.nil
  | b :: l, _, h => by
    cases h with
    | cons hab hl => exact List.Chain.cons hab.1 (chain_remaining l b hl)

theorem walk_nonempty (stops : Order → Order → Bool) :
    ∀ (l : List Order) (s : TransactCallback × Order), 0 < s.2.RemainingAmount →
      (∀ p ∈ l, 0 < p.RemainingAmount) →
      ∃ news : List (Order × Order),
        (iterateList (matchHook stops) s l).1.1.reports = s.1.reports ++ news ∧
        List.Chain (fun a b => b.RemainingAmount < a.RemainingAmount ∧
          (a.fits → a.FilledAmount < b.FilledAmount ∧ b.fits)) s.2 (news.map Prod.fst) ∧
        List.Forall₂ (fun p c => (p.fits → p.FilledAmount < c.2.FilledAmount) ∧
          c.2.RemainingAmount < p.RemainingAmount ∧ c.2.ident = p.ident)
          (l.take news.length) news ∧
        ∀ c ∈ news.dropLast, 0 < c.1.RemainingAmount
  | [], s, _, _ => ⟨[], by simp [walk_nil]⟩
  | p :: tail, s, hs, hl => by
    by_cases h : s.2.«Type» = OrderTypeLimit ∧ stops s.2 p = true
    · rw [walk_stop stops s p tail h]
      exact ⟨[], by simp⟩
    · have hpp := process_positive s.1 s.2 p hs (hl p (List.mem_cons_self _ _))
      by_cases hz : (process s.1 s.2 p).2.1.RemainingAmount = 0
      · rw [walk_done stops s p tail h hz]
        refine ⟨[((process s.1 s.2 p).2.1, (process s.1 s.2 p).2.2)], ?_, ?_, ?_, ?_⟩
        · exact process_reports s.1 s.2 p
        · exact List.Chain.cons hpp.1 List.Chain.nil
        · exact List.Forall₂.cons hpp.2 List.Forall₂.nil
        · simp
      · rw [walk_next stops s p tail h hz]
        obtain ⟨news, h1, h2, h3, h4⟩ :=
          walk_nonempty stops tail ((process s.1 s.2 p).1, (process s.1 s.2 p).2.1)
            (Nat.pos_of_ne_zero hz) (fun q hq => hl q (List.mem_cons_of_mem _ hq))
        refine ⟨((process s.1 s.2 p).2.1, (process s.1 s.2 p).2.2) :: news, ?_, ?_, ?_, ?_⟩
        · rw [h1, process_reports]
          simp
        · exact List.Chain.cons hpp.1 h2
        · exact List.Forall₂.cons hpp.2 h3
        · intro c hc
          rcases mem_dropLast_cons _ _ _ hc with hc | hc
          · rw [hc]; exact Nat.pos_of_ne_zero hz
          · exact h4 c hc

theorem walk_nonempty_calls (stops : Order → Order → Bool) (l : List Order)
    (s : TransactCallback × Order) (hs : 0 < s.2.RemainingAmount)
    (hl : ∀ p ∈ l, 0 < p.RemainingAmount) :
    ∃ news : List (Order × Order),
      (iterateList (matchHook stops) s l).1.1.reports = s.1.reports ++ news ∧
      List.Chain (fun a b => b.RemainingAmount < a.RemainingAmount) s.2
        (news.map Prod.fst) ∧
      (s.2.fits → List.Chain (fun a b => a.FilledAmount < b.FilledAmount ∧
        b.RemainingAmount < a.RemainingAmount) s.2 (news.map Prod.fst)) ∧
      List.Forall₂ (fun p c => (p.fits → p.FilledAmount < c.2.FilledAmount) ∧
        c.2.RemainingAmount < p.RemainingAmount ∧ c.2.ident = p.ident)
        (l.take news.length) news ∧
      (∀ c ∈ news.dropLast, 0 < c.1.RemainingAmount) ∧
      ∀ c ∈ (iterateList (matchHook stops) s l).1.1.calls, c ∈ s.1.calls ∨ c.1 ∈ news := by
  obtain ⟨news, h1, h2, h3, h4⟩ := walk_nonempty stops l s hs hl
  obtain ⟨nw, g1, g2⟩ := walk_calls_reported stops s l
  have hnw : nw = news := List.append_cancel_left (g1.symm.trans h1)
  exact ⟨news, h1, chain_remaining _ _ h2, fun hf => chain_fits _ _ hf h2, h3, h4, hnw ▸ g2⟩

/-- C19, as stated, fails.  With `RemainingAmount > 0` for the incoming order and for
every resting order, a trade report need not carry a FilledAmount of the incoming
order above the one it came with: an ask whose FilledAmount is the largest value of
its Go type, with 1 remaining, is matched with the resting bid B1 and reported with
FilledAmount 0. -/
theorem reported_trade_nonempty_counterexample :
    0 < orderFull.RemainingAmount ∧ (∀ o ∈ bookB1.resting, 0 < o.RemainingAmount) ∧
      orderFull.typed ∧ (∀ o ∈ bookB1.resting, o.typed) ∧
      (createOrder bookB1 orderFull).1.transact.reports.map
          (fun c => (c.1.Id, c.2.Id, c.1.FilledAmount)) = [("A9", "B1", 0)] ∧
      ∃ c ∈ (createOrder bookB1 orderFull).1.transact.reports,
        ¬ (orderFull.FilledAmount < c.1.FilledAmount) := by
  decide

/-- C19, amended.  Every reported trade is non-empty.  If the incoming order and every
resting order have `RemainingAmount > 0`, then every match step of `createOrder`
moves a positive amount: along the trades it reports, the RemainingAmount of the
incoming order strictly decreases at each trade, the opponent of each trade is
reported with a RemainingAmount strictly below the one it had in the ladder, and
every call of the collaborator, retries included, carries one of these trades.  If
`FilledAmount + RemainingAmount` of the incoming order is below `2 ^ 64`, its
FilledAmount strictly increases at each trade, and an opponent for which that sum is
below `2 ^ 64` is reported with a FilledAmount strictly above the one it had in the
ladder.  Only the last trade can leave the incoming order with RemainingAmount 0: the
walk does not match again after that. -/
theorem reported_trade_nonempty (book : Book) (order : Order)
    (hpos : 0 < order.RemainingAmount) (hrest : ∀ o ∈ book.resting, 0 < o.RemainingAmount) :
    (order.Side = PageSideAsk →
      ∃ news : List (Order × Order),
        (createOrder book order).1.transact.reports = book.transact.reports ++ news ∧
        List.Chain (fun a b => b.RemainingAmount < a.RemainingAmount) order
          (news.map Prod.fst) ∧
        (order.fits → List.Chain (fun a b => a.FilledAmount < b.FilledAmount ∧
          b.RemainingAmount < a.RemainingAmount) order (news.map Prod.fst)) ∧
        List.Forall₂ (fun p c => (p.fits → p.FilledAmount < c.2.FilledAmount) ∧
          c.2.RemainingAmount < p.RemainingAmount ∧ c.2.ident = p.ident)
          (book.bids.bestFirst.take news.length) news ∧
        (∀ c ∈ news.dropLast, 0 < c.1.RemainingAmount) ∧
        ∀ c ∈ (createOrder book order).1.transact.calls,
          c ∈ book.transact.calls ∨ c.1 ∈ news) ∧
    (order.Side = PageSideBid →
      ∃ news : List (Order × Order),
        (createOrder book order).1.transact.reports = book.transact.reports ++ news ∧
        List.Chain (fun a b => b.RemainingAmount < a.RemainingAmount) order
          (news.map Prod.fst) ∧
        (order.fits → List.Chain (fun a b => a.FilledAmount < b.FilledAmount ∧
          b.RemainingAmount < a.RemainingAmount) order (news.map Prod.fst)) ∧
        List.Forall₂ (fun p c => (p.fits → p.FilledAmount < c.2.FilledAmount) ∧
          c.2.RemainingAmount < p.RemainingAmount ∧ c.2.ident = p.ident)
          (book.asks.bestFirst.take news.length) news ∧
        (∀ c ∈ news.dropLast, 0 < c.1.RemainingAmount) ∧
        ∀ c ∈ (createOrder book order).1.transact.calls,
          c ∈ book.transact.calls ∨ c.1 ∈ news) := by
  have hra : ∀ o ∈ book.asks.bestFirst, 0 < o.RemainingAmount :=
    fun o h => hrest o (List.mem_append.2 (Or.inl h))
  have hrb : ∀ o ∈ book.bids.bestFirst, 0 < o.RemainingAmount :=
    fun o h => hrest o (List.mem_append.2 (Or.inr h))
  by_cases hid : order.Id ∈ book.createIndex
  · rw [createOrder_dup book order hid]
    exact ⟨fun _ => ⟨[], by simp, List.Chain.nil, fun _ => List.Chain.nil, by simp, by simp,
        fun c hc => Or.inl hc⟩,
      fun _ => ⟨[], by simp, List.Chain.nil, fun _ => List.Chain.nil, by simp, by simp,
        fun c hc => Or.inl hc⟩⟩
  constructor
  · intro hs
    obtain ⟨_, e2, _, _⟩ := createOrder_ask book order hid hs
    rw [e2]
    exact walk_nonempty_calls askStops book.bids.bestFirst (book.transact, order) hpos hrb
  · intro hs
    obtain ⟨_, e2, _, _⟩ := createOrder_bid book order hid hs
    rw [e2]
    exact walk_nonempty_calls bidStops book.asks.bestFirst (book.transact, order) hpos hra

theorem reported_trade_nonempty_witness :
    0 < orderA4.RemainingAmount ∧ (∀ o ∈ bookB1B3.resting, 0 < o.RemainingAmount) ∧
      orderA4.Side = PageSideAsk ∧ orderA4.fits ∧ (∀ o ∈ bookB1B3.resting, o.fits) ∧
      (createOrder bookB1B3 orderA4).1.transact.reports.map
          (fun c => (c.1.FilledAmount, c.2.FilledAmount)) = [(5, 5), (7, 2)] ∧
      ∃ news : List (Order × Order),
        (createOrder bookB1B3 orderA4).1.transact.reports =
          bookB1B3.transact.reports ++ news ∧
        List.Chain (fun a b => b.RemainingAmount < a.RemainingAmount) orderA4
          (news.map Prod.fst) ∧
        (orderA4.fits → List.Chain (fun a b => a.FilledAmount < b.FilledAmount ∧
          b.RemainingAmount < a.RemainingAmount) orderA4 (news.map Prod.fst)) ∧
        List.Forall₂ (fun p c => (p.fits → p.FilledAmount < c.2.FilledAmount) ∧
          c.2.RemainingAmount < p.RemainingAmount ∧ c.2.ident = p.ident)
          (bookB1B3.bids.bestFirst.take news.length) news ∧
        (∀ c ∈ news.dropLast, 0 < c.1.RemainingAmount) ∧
        ∀ c ∈ (createOrder bookB1B3 orderA4).1.transact.calls,
          c ∈ bookB1B3.transact.calls ∨ c.1 ∈ news :=
  ⟨by decide, by decide, by decide, by decide, by decide, by decide,
    (reported_trade_nonempty bookB1B3 orderA4 (by decide) (by decide)).1 (by decide)⟩


/-! ### The resting orders are known to the book -/

theorem walk_ids_sublist (stops : Order → Order → Bool) (s : TransactCallback × Order)
    (l : List Order) :
    ((iterateList (matchHook stops) s l).2.1.map (fun o => o.Id)).Sublist
      (l.map (fun o => o.Id)) :=
  iterateList_map_sublist (matchHook stops) (fun o => o.Id) (matchHook_id stops) l s

theorem matchHook_side (stops : Order → Order → Bool) (s : TransactCallback × Order)
    (o : Order) : (matchHook stops s o).2.1.Side = o.Side := by
  unfold matchHook
  split <;> rfl

theorem walk_sides (stops : Order → Order → Bool) (s : TransactCallback × Order)
    (l : List Order) (side : String) (hl : ∀ o ∈ l, o.Side = side) :
    ∀ o ∈ (iterateList (matchHook stops) s l).2.1, o.Side = side :=
  iterateList_keeps (matchHook stops) (fun o => o.Side = side)
    (fun s o ho _ => by
      show (matchHook stops s o).2.1.Side = side
      rw [matchHook_side]; exact ho) l s hl

theorem walk_side (stops : Order → Order → Bool)
    (hst : ∀ a b p q : Order, a.Price = b.Price → p.Price = q.Price → stops a p = stops b q)
    (l : List Order) (s : TransactCallback × Order) :
    (iterateList (matchHook stops) s l).1.2.Side = s.2.Side := by
  obtain ⟨_, _, _, _, _, _, _, _, _, h8⟩ := walk_spec stops hst l s
  simp only [Order.ident, Prod.mk.injEq] at h8
  exact h8.2.1

/-- The ids of the resting orders stay distinct and in `createIndex` when the ladders
lose orders and the index grows. -/
theorem ids_of_sublist (ids ids1 index index1 : List String) (hsub : ids1.Sublist ids)
    (hindex : ∀ id ∈ index, id ∈ index1) (h : ids.Nodup ∧ ∀ id ∈ ids, id ∈ index) :
    ids1.Nodup ∧ ∀ id ∈ ids1, id ∈ index1 :=
  ⟨h.1.sublist hsub, fun id hid => hindex id (h.2 id (hsub.subset hid))⟩

theorem ids_of_insert (ids ids0 ids1 index : List String) (x : String)
    (hsub : ids0.Sublist ids) (hperm : ids1.Perm (x :: ids0)) (hx : x ∉ index)
    (h : ids.Nodup ∧ ∀ id ∈ ids, id ∈ index) :
    ids1.Nodup ∧ ∀ id ∈ ids1, id ∈ x :: index := by
  have h0 := ids_of_sublist ids ids0 index index hsub (fun _ h => h) h
  constructor
  · rw [hperm.nodup_iff, List.nodup_cons]
    exact ⟨fun hm => hx (h0.2 x hm), h0.1⟩
  · intro id hid
    rcases List.mem_cons.1 (hperm.subset hid) with hid | hid
    · rw [hid]; exact List.mem_cons_self _ _
    · exact List.mem_cons_of_mem _ (h0.2 id hid)

theorem idsOK_iff (book : Book) :
    book.idsOK ↔
      ((book.resting.map (fun o => o.Id)).Nodup ∧
        ∀ id ∈ book.resting.map (fun o => o.Id), id ∈ book.createIndex) ∧
      (∀ o ∈ book.asks.bestFirst, o.Side = PageSideAsk) ∧
      ∀ o ∈ book.bids.bestFirst, o.Side = PageSideBid := by
  unfold Book.idsOK
  constructor
  · rintro ⟨h1, h2, h3, h4⟩
    refine ⟨⟨h1, ?_⟩, h3, h4⟩
    intro id hid
    obtain ⟨o, ho, hoid⟩ := List.mem_map.1 hid
    rw [← hoid]; exact h2 o ho
  · rintro ⟨⟨h1, h2⟩, h3, h4⟩
    exact ⟨h1, fun o ho => h2 o.Id (List.mem_map.2 ⟨o, ho, rfl⟩), h3, h4⟩

theorem createOrder_idsOK (book : Book) (order : Order) (h : book.idsOK) :
    (createOrder book order).1.idsOK := by
  by_cases hd : order.Id ∈ book.createIndex
  · rw [createOrder_dup book order hd]; exact h
  rw [idsOK_iff] at h ⊢
  obtain ⟨hids, hsa, hsb⟩ := h
  have hci := (createOrder_indexes book order).2
  rw [if_neg hd] at hci
  by_cases hs : order.Side = PageSideAsk
  · obtain ⟨e1, _, e3, e4⟩ := createOrder_ask book order hd hs
    have hsub := walk_ids_sublist askStops (book.transact, order) book.bids.bestFirst
    have hside := walk_sides askStops (book.transact, order) book.bids.bestFirst _ hsb
    have hoid := (walk_ident askStops askStops_price book.bids.bestFirst
      (book.transact, order)).1
    have hoside := walk_side askStops askStops_price book.bids.bestFirst (book.transact, order)
    rw [← e3] at hsub hside
    rw [← e1] at e4 hoid hoside
    have hsub0 : ((book.asks.bestFirst ++ (createOrder book order).1.bids.bestFirst).map
        (fun o => o.Id)).Sublist (book.resting.map (fun o => o.Id)) := by
      simp only [Book.resting, List.map_append]
      exact List.Sublist.append (List.Sublist.refl _) hsub
    rw [hci]
    by_cases hc : (createOrder book order).2.«Type» = OrderTypeLimit ∧
        (createOrder book order).2.RemainingAmount > 0
    · rw [if_pos hc] at e4
      refine ⟨?_, ?_, hside⟩
      · refine ids_of_insert _ _ _ _ order.Id hsub0 ?_ hd hids
        simp only [Book.resting, e4, List.map_append]
        have hp := ((Put_flat book.asks (createOrder book order).2).2).map (fun o => o.Id)
        rw [List.map_cons, hoid] at hp
        exact (hp.append_right _).trans (by simp)
      · intro o ho
        rw [e4] at ho
        rcases (Put_mem _ _ _).1 ho with ho | ho
        · exact hsa o ho
        · rw [ho, hoside]; exact hs
    · rw [if_neg hc] at e4
      refine ⟨?_, by rw [e4]; exact hsa, hside⟩
      refine ids_of_sublist _ _ _ _ ?_ (fun _ hh => List.mem_cons_of_mem _ hh) hids
      simp only [Book.resting, e4]
      exact hsub0
  · by_cases hs2 : order.Side = PageSideBid
    · obtain ⟨e1, _, e3, e4⟩ := createOrder_bid book order hd hs2
      have hsub := walk_ids_sublist bidStops (book.transact, order) book.asks.bestFirst
      have hside := walk_sides bidStops (book.transact, order) book.asks.bestFirst _ hsa
      have hoid := (walk_ident bidStops bidStops_price book.asks.bestFirst
        (book.transact, order)).1
      have hoside := walk_side bidStops bidStops_price book.asks.bestFirst
        (book.transact, order)
      rw [← e3] at hsub hside
      rw [← e1] at e4 hoid hoside
      have hsub0 : (((createOrder book order).1.asks.bestFirst ++ book.bids.bestFirst).map
          (fun o => o.Id)).Sublist (book.resting.map (fun o => o.Id)) := by
        simp only [Book.resting, List.map_append]
        exact List.Sublist.append hsub (List.Sublist.refl _)
      rw [hci]
      by_cases hc : (createOrder book order).2.«Type» = OrderTypeLimit ∧
          (createOrder book order).2.RemainingAmount > 0
      · rw [if_pos hc] at e4
        refine ⟨?_, hside, ?_⟩
        · refine ids_of_insert _ _ _ _ order.Id hsub0 ?_ hd hids
          simp only [Book.resting, e4, List.map_append]
          have hp := ((Put_flat book.bids (createOrder book order).2).2).map (fun o => o.Id)
          rw [List.map_cons, hoid] at hp
          exact (hp.append_left _).trans List.perm_middle
        · intro o ho
          rw [e4] at ho
          rcases (Put_mem _ _ _).1 ho with ho | ho
          · exact hsb o ho
          · rw [ho, hoside]; exact hs2
      · rw [if_neg hc] at e4
        refine ⟨?_, hside, by rw [e4]; exact hsb⟩
        refine ids_of_sublist _ _ _ _ ?_ (fun _ hh => List.mem_cons_of_mem _ hh) hids
        simp only [Book.resting, e4]
        exact hsub0
    · rw [createOrder_other book order hd hs hs2]
      exact ⟨ids_of_sublist _ _ _ _ (List.Sublist.refl _)
        (fun _ hh => List.mem_cons_of_mem _ hh) hids, hsa, hsb⟩


theorem cancelOrder_cases (book : Book) (order : Order) (b : Book)
    (h : cancelOrder book order = .ok b) :
    b.createIndex = book.createIndex ∧
      ((b.asks = book.asks ∧ b.bids = book.bids) ∨
        (order.Side = PageSideAsk ∧ order.Id ∉ book.cancelIndex ∧
          b.asks = book.asks.Remove order ∧ b.bids = book.bids) ∨
        (order.Side = PageSideBid ∧ order.Id ∉ book.cancelIndex ∧
          b.asks = book.asks ∧ b.bids = book.bids.Remove order)) := by
  unfold cancelOrder at h
  split at h
  · cases h; exact ⟨rfl, Or.inl ⟨rfl, rfl⟩⟩
  · rename_i hid
    split at h
    · rename_i hs
      cases h
      exact ⟨rfl, Or.inr (Or.inl ⟨hs, hid, rfl, rfl⟩)⟩
    · split at h
      · rename_i hs
        cases h
        exact ⟨rfl, Or.inr (Or.inr ⟨hs, hid, rfl, rfl⟩)⟩
      · cases h

theorem cancelOrder_idsOK (book : Book) (order : Order) (b : Book)
    (h : cancelOrder book order = .ok b) (hi : book.idsOK) : b.idsOK := by
  obtain ⟨hci, hcases⟩ := cancelOrder_cases book order b h
  have hr := cancelOrder_resting book order b h
  rw [idsOK_iff] at hi ⊢
  obtain ⟨hids, hsa, hsb⟩ := hi
  refine ⟨?_, fun o ho => hsa o (hr.1 o ho), fun o ho => hsb o (hr.2 o ho)⟩
  rw [hci]
  refine ids_of_sublist _ _ _ _ ?_ (fun _ hh => hh) hids
  simp only [Book.resting, List.map_append]
  rcases hcases with ⟨ha, hb⟩ | ⟨_, _, ha, hb⟩ | ⟨_, _, ha, hb⟩
  · rw [ha, hb]
  · rw [ha, hb]
    exact List.Sublist.append ((Remove_flat _ _).map _) (List.Sublist.refl _)
  · rw [ha, hb]
    exact List.Sublist.append (List.Sublist.refl _) ((Remove_flat _ _).map _)

theorem dispatch_idsOK (book : Book) (event : OrderEvent) (b : Book)
    (h : dispatch book event = .ok b) (hi : book.idsOK) : b.idsOK := by
  unfold dispatch at h
  split at h
  · cases h; exact createOrder_idsOK book event.Order hi
  · split at h
    · exact cancelOrder_idsOK book event.Order b h hi
    · cases h

theorem applyEvents_idsOK :
    ∀ (events : List OrderEvent) (book b : Book), applyEvents book events = .ok b →
      book.idsOK → b.idsOK
  | [], book, b, h, hi => by
    simp only [applyEvents] at h
    cases h; exact hi
  | event :: events, book, b, h, hi => by
    simp only [applyEvents] at h
    split at h
    · rename_i b1 hb1
      exact applyEvents_idsOK events b1 b h (dispatch_idsOK book event b1 hb1 hi)
    · cases h

/-- In every book reached from a new book the resting orders are known to the book. -/
theorem reachable_idsOK (pricePrecision amountPrecision : Int) (transact : TransactCallback)
    (cancel : CancelCallback) (events : List OrderEvent) (b : Book)
    (h : applyEvents (NewBook pricePrecision amountPrecision transact cancel) events = .ok b) :
    b.idsOK :=
  applyEvents_idsOK events _ b h
    (by simp [NewBook, Book.idsOK, Book.resting, NewPage, Page.bestFirst])

/-! ### `Remove` of an order that rests -/

theorem eraseP_id_filter (id : String) :
    ∀ (l : List Order), (l.map (fun o => o.Id)).Nodup →
      l.eraseP (fun o => decide (o.Id = id)) = l.filter (fun o => decide (o.Id ≠ id))
  | [], _ => rfl
  | x :: xs, h => by
    rw [List.map_cons, List.nodup_cons] at h
    by_cases hx : x.Id = id
    · have hnone : ∀ o ∈ xs, ¬ ((fun o : Order => decide (o.Id ≠ id)) o = true) → False := by
        intro o ho hn
        simp only [ne_eq, decide_not, Bool.not_eq_true', decide_eq_false_iff_not,
          not_not] at hn
        exact h.1 (List.mem_map.2 ⟨o, ho, hn.trans hx.symm⟩)
      have hf : xs.filter (fun o => decide (o.Id ≠ id)) = xs :=
        List.filter_eq_self.2 (fun o ho => by
          by_contra hn
          exact hnone o ho hn)
      rw [List.eraseP_cons_of_pos (by simp [hx]), List.filter_cons_of_neg (by simp [hx]), hf]
    · have ih := eraseP_id_filter id xs h.2
      rw [List.eraseP_cons_of_neg (by simp [hx]), List.filter_cons_of_pos (by simp [hx]), ih]

theorem filter_id_absent (id : String) (l : List Order) (h : ∀ o ∈ l, o.Id ≠ id) :
    l.filter (fun o => decide (o.Id ≠ id)) = l :=
  List.filter_eq_self.2 (fun o ho => by simpa using h o ho)

theorem removePoints_filter (order : Order) :
    ∀ (es : List Entry), es.Pairwise (fun e f => e.price ≠ f.price) →
      (∀ e ∈ es, ∀ o ∈ e.list, o.Price = e.price) →
      ((es.flatMap (fun e => e.list)).map (fun o => o.Id)).Nodup →
      (∃ r ∈ es.flatMap (fun e => e.list), r.Id = order.Id ∧ r.Price = order.Price) →
      (removePoints order es).flatMap (fun e => e.list) =
        (es.flatMap (fun e => e.list)).filter (fun o => decide (o.Id ≠ order.Id))
  | [], _, _, _, h => by simp at h
  | e :: es, hp, hl, hn, hr => by
    have hpc := List.pairwise_cons.1 hp
    have he := hl e (List.mem_cons_self _ _)
    have hes : ∀ x ∈ es, ∀ o ∈ x.list, o.Price = x.price :=
      fun x hx => hl x (List.mem_cons_of_mem _ hx)
    simp only [List.flatMap_cons, List.map_append] at hn
    have hn1 := (List.nodup_append.1 hn).1
    have hn2 := (List.nodup_append.1 hn).2.1
    have hdis := (List.nodup_append.1 hn).2.2
    obtain ⟨r, hrmem, hrid, hrprice⟩ := hr
    simp only [List.flatMap_cons, List.mem_append] at hrmem
    by_cases hprice : e.price = order.Price
    · have hre : r ∈ e.list := by
        rcases hrmem with hrmem | hrmem
        · exact hrmem
        · exfalso
          obtain ⟨f, hf, hrf⟩ := List.mem_flatMap.1 hrmem
          exact hpc.1 f hf (by rw [hprice, ← hrprice, hes f hf r hrf])
      have hany : e.list.any (fun o => decide (o.Id = order.Id)) = true := by
        simp only [List.any_eq_true, decide_eq_true_eq]
        exact ⟨r, hre, hrid⟩
      have hrest : ∀ o ∈ es.flatMap (fun e => e.list), o.Id ≠ order.Id := by
        intro o ho hoid
        exact hdis (List.mem_map.2 ⟨r, hre, rfl⟩)
          (List.mem_map.2 ⟨o, ho, by simp only [hoid, hrid]⟩)
      simp only [removePoints, if_pos hprice, hany, if_true, List.flatMap_cons,
        List.filter_append, filter_id_absent order.Id _ hrest]
      rw [← eraseP_id_filter order.Id e.list hn1]
      split
      · rename_i hempty
        simp only [List.isEmpty_iff] at hempty
        rw [hempty]; rfl
      · rfl
    · have hrr : r ∈ es.flatMap (fun e => e.list) := by
        rcases hrmem with hrmem | hrmem
        · exact absurd ((he r hrmem).symm.trans hrprice) hprice
        · exact hrmem
      have hhead : ∀ o ∈ e.list, o.Id ≠ order.Id := by
        intro o ho hoid
        exact hdis (List.mem_map.2 ⟨o, ho, rfl⟩)
          (List.mem_map.2 ⟨r, hrr, by simp only [hoid, hrid]⟩)
      simp only [removePoints, if_neg hprice, List.flatMap_cons, List.filter_append,
        filter_id_absent order.Id _ hhead]
      rw [removePoints_filter order es hpc.2 hes hn2 ⟨r, hrr, hrid, hrprice⟩]

theorem better_irrefl (side : String) (p : Nat) : ¬ better side p p = true := by
  unfold better
  split <;> simp

theorem Remove_filter (page : Page) (order : Order) (hw : page.wf)
    (hn : (page.bestFirst.map (fun o => o.Id)).Nodup)
    (hr : ∃ r ∈ page.bestFirst, r.Id = order.Id ∧ r.Price = order.Price) :
    (page.Remove order).bestFirst =
      page.bestFirst.filter (fun o => decide (o.Id ≠ order.Id)) := by
  refine removePoints_filter order page.points ?_ hw.2 hn hr
  refine hw.1.imp ?_
  intro e f hb heq
  rw [heq] at hb
  exact better_irrefl _ _ hb


theorem idsOK_asks_nodup (book : Book) (h : book.idsOK) :
    (book.asks.bestFirst.map (fun o => o.Id)).Nodup ∧
      (book.bids.bestFirst.map (fun o => o.Id)).Nodup := by
  have h1 := h.1
  simp only [Book.resting, List.map_append] at h1
  exact ⟨(List.nodup_append.1 h1).1, (List.nodup_append.1 h1).2.1⟩

/-- C12. Cancel of a resting order.  In a book reached from a new book, for an order
whose Id is not in `cancelIndex` and which rests in the ladder of its side (an order
with its Id rests there at its Price), `cancelOrder` returns the book with the Id in
`cancelIndex`, the collaborator notified, and that ladder without the order: its
best-first sequence is the former one without the order of that Id, so every other
order is still there with the same values and in the same relative order.  The
opposite ladder is unchanged and no amount of any order is modified. -/
theorem cancel_of_resting_order (pricePrecision amountPrecision : Int)
    (transact : TransactCallback) (cancel : CancelCallback) (events : List OrderEvent)
    (book : Book)
    (hreach : applyEvents (NewBook pricePrecision amountPrecision transact cancel) events =
      .ok book)
    (order : Order) (hid : order.Id ∉ book.cancelIndex) :
    (order.Side = PageSideAsk →
      (∃ r ∈ book.asks.bestFirst, r.Id = order.Id ∧ r.Price = order.Price) →
      cancelOrder book order =
          .ok { book with
            cancelIndex := order.Id :: book.cancelIndex
            cancel := book.cancel.retry order
            asks := book.asks.Remove order } ∧
        (book.asks.Remove order).bestFirst =
          book.asks.bestFirst.filter (fun o => decide (o.Id ≠ order.Id)) ∧
        ∀ o ∈ (book.asks.Remove order).bestFirst, o.Id ≠ order.Id) ∧
    (order.Side = PageSideBid →
      (∃ r ∈ book.bids.bestFirst, r.Id = order.Id ∧ r.Price = order.Price) →
      cancelOrder book order =
          .ok { book with
            cancelIndex := order.Id :: book.cancelIndex
            cancel := book.cancel.retry order
            bids := book.bids.Remove order } ∧
        (book.bids.Remove order).bestFirst =
          book.bids.bestFirst.filter (fun o => decide (o.Id ≠ order.Id)) ∧
        ∀ o ∈ (book.bids.Remove order).bestFirst, o.Id ≠ order.Id) := by
  have hwf := reachable_wf pricePrecision amountPrecision transact cancel events book hreach
  have hids := idsOK_asks_nodup book
    (reachable_idsOK pricePrecision amountPrecision transact cancel events book hreach)
  constructor
  · intro hs hr
    have hf := Remove_filter book.asks order hwf.2.2.1 hids.1 hr
    refine ⟨?_, hf, ?_⟩
    · simp only [cancelOrder, if_neg hid, if_pos hs]
    · intro o ho
      rw [hf] at ho
      simpa using (List.mem_filter.1 ho).2
  · intro hs hr
    have hna : order.Side ≠ PageSideAsk := by rw [hs]; exact side_ne
    have hf := Remove_filter book.bids order hwf.2.2.2 hids.2 hr
    refine ⟨?_, hf, ?_⟩
    · simp only [cancelOrder, if_neg hid, if_neg hna, if_pos hs]
    · intro o ho
      rw [hf] at ho
      simpa using (List.mem_filter.1 ho).2

theorem cancel_of_resting_order_witness :
    applyEvents (NewBook 8 8 ⟨[], []⟩ ⟨[], []⟩)
        [⟨orderB1, OrderActionCreate⟩, ⟨orderB3, OrderActionCreate⟩] = .ok bookB1B3 ∧
      orderB1.Id ∉ bookB1B3.cancelIndex ∧ orderB1.Side = PageSideBid ∧
      (∃ r ∈ bookB1B3.bids.bestFirst, r.Id = orderB1.Id ∧ r.Price = orderB1.Price) ∧
      bookB1B3.bids.bestFirst = [orderB1, orderB3] ∧
      (bookB1B3.bids.Remove orderB1).bestFirst = [orderB3] ∧
      (cancelOrder bookB1B3 orderB1 =
          .ok { bookB1B3 with
            cancelIndex := orderB1.Id :: bookB1B3.cancelIndex
            cancel := bookB1B3.cancel.retry orderB1
            bids := bookB1B3.bids.Remove orderB1 } ∧
        (bookB1B3.bids.Remove orderB1).bestFirst =
          bookB1B3.bids.bestFirst.filter (fun o => decide (o.Id ≠ orderB1.Id)) ∧
        ∀ o ∈ (bookB1B3.bids.Remove orderB1).bestFirst, o.Id ≠ orderB1.Id) :=
  ⟨by decide, by decide, by decide, by decide, by decide, by decide,
    (cancel_of_resting_order 8 8 ⟨[], []⟩ ⟨[], []⟩
      [⟨orderB1, OrderActionCreate⟩, ⟨orderB3, OrderActionCreate⟩] bookB1B3 (by decide)
      orderB1 (by decide)).2 (by decide) (by decide)⟩

/-! ### Orders that stay off the book -/

theorem createOrder_absent (book : Book) (order : Order) (id : String)
    (hc : id ∈ book.createIndex) (hr : ∀ o ∈ book.resting, o.Id ≠ id) :
    id ∈ (createOrder book order).1.createIndex ∧
      ∀ o ∈ (createOrder book order).1.resting, o.Id ≠ id := by
  have hra : ∀ o ∈ book.asks.bestFirst, o.Id ≠ id :=
    fun o h => hr o (List.mem_append.2 (Or.inl h))
  have hrb : ∀ o ∈ book.bids.bestFirst, o.Id ≠ id :=
    fun o h => hr o (List.mem_append.2 (Or.inr h))
  by_cases hd : order.Id ∈ book.createIndex
  · rw [createOrder_dup book order hd]; exact ⟨hc, hr⟩
  have hne : order.Id ≠ id := fun h => hd (h ▸ hc)
  have hci := (createOrder_indexes book order).2
  rw [if_neg hd] at hci
  refine ⟨by rw [hci]; exact List.mem_cons_of_mem _ hc, ?_⟩
  by_cases hs : order.Side = PageSideAsk
  · obtain ⟨e1, _, e3, e4⟩ := createOrder_ask book order hd hs
    have hoid := (walk_ident askStops askStops_price book.bids.bestFirst
      (book.transact, order)).1
    rw [← e1] at e4 hoid
    intro o ho
    rcases List.mem_append.1 ho with ho | ho
    · rw [e4] at ho
      split at ho
      · rcases (Put_mem _ _ _).1 ho with ho | ho
        · exact hra o ho
        · rw [ho, hoid]; exact hne
      · exact hra o ho
    · rw [e3] at ho
      exact walk_ids askStops (book.transact, order) _ id hrb o ho
  · by_cases hs2 : order.Side = PageSideBid
    · obtain ⟨e1, _, e3, e4⟩ := createOrder_bid book order hd hs2
      have hoid := (walk_ident bidStops bidStops_price book.asks.bestFirst
        (book.transact, order)).1
      rw [← e1] at e4 hoid
      intro o ho
      rcases List.mem_append.1 ho with ho | ho
      · rw [e3] at ho
        exact walk_ids bidStops (book.transact, order) _ id hra o ho
      · rw [e4] at ho
        split at ho
        · rcases (Put_mem _ _ _).1 ho with ho | ho
          · exact hrb o ho
          · rw [ho, hoid]; exact hne
        · exact hrb o ho
    · rw [createOrder_other book order hd hs hs2]; exact hr

theorem dispatch_absent (book : Book) (event : OrderEvent) (b : Book) (id : String)
    (h : dispatch book event = .ok b) (hc : id ∈ book.createIndex)
    (hr : ∀ o ∈ book.resting, o.Id ≠ id) :
    id ∈ b.createIndex ∧ ∀ o ∈ b.resting, o.Id ≠ id := by
  unfold dispatch at h
  split at h
  · cases h; exact createOrder_absent book event.Order id hc hr
  · split at h
    · have hci := (cancelOrder_cases book event.Order b h).1
      have hsub := cancelOrder_resting book event.Order b h
      refine ⟨by rw [hci]; exact hc, ?_⟩
      intro o ho
      rcases List.mem_append.1 ho with ho | ho
      · exact hr o (List.mem_append.2 (Or.inl (hsub.1 o ho)))
      · exact hr o (List.mem_append.2 (Or.inr (hsub.2 o ho)))
    · cases h

theorem applyEvents_absent (id : String) :
    ∀ (events : List OrderEvent) (book b : Book), applyEvents book events = .ok b →
      id ∈ book.createIndex → (∀ o ∈ book.resting, o.Id ≠ id) → ∀ o ∈ b.resting, o.Id ≠ id
  | [], book, b, h, _, hr => by
    simp only [applyEvents] at h
    cases h; exact hr
  | event :: events, book, b, h, hc, hr => by
    simp only [applyEvents] at h
    split at h
    · rename_i b1 hb1
      obtain ⟨hc1, hr1⟩ := dispatch_absent book event b1 id hb1 hc hr
      exact applyEvents_absent id events b1 b h hc1 hr1
    · cases h

theorem cancelOrder_absent (book : Book) (order : Order) (b : Book) (hw : book.wf)
    (hi : book.idsOK) (hid : order.Id ∉ book.cancelIndex)
    (hsame : ∀ r ∈ book.resting, r.Id = order.Id →
      r.Side = order.Side ∧ r.Price = order.Price)
    (h : cancelOrder book order = .ok b) : ∀ o ∈ b.resting, o.Id ≠ order.Id := by
  have hids := idsOK_asks_nodup book hi
  have hsa := hi.2.2.1
  have hsb := hi.2.2.2
  unfold cancelOrder at h
  rw [if_neg hid] at h
  split at h
  · rename_i hs
    cases h
    intro o ho hoid
    rcases List.mem_append.1 ho with ho | ho
    · have hmem : o ∈ book.asks.bestFirst := Remove_mem _ _ _ ho
      have hp := (hsame o (List.mem_append.2 (Or.inl hmem)) hoid).2
      rw [Remove_filter book.asks order hw.2.2.1 hids.1 ⟨o, hmem, hoid, hp⟩] at ho
      simpa [hoid] using (List.mem_filter.1 ho).2
    · have h1 := (hsame o (List.mem_append.2 (Or.inr ho)) hoid).1
      rw [hsb o ho, hs] at h1
      exact side_ne h1
  · split at h
    · rename_i hs
      cases h
      intro o ho hoid
      rcases List.mem_append.1 ho with ho | ho
      · have h1 := (hsame o (List.mem_append.2 (Or.inl ho)) hoid).1
        rw [hsa o ho, hs] at h1
        exact side_ne h1.symm
      · have hmem : o ∈ book.bids.bestFirst := Remove_mem _ _ _ ho
        have hp := (hsame o (List.mem_append.2 (Or.inr hmem)) hoid).2
        rw [Remove_filter book.bids order hw.2.2.2 hids.2 ⟨o, hmem, hoid, hp⟩] at ho
        simpa [hoid] using (List.mem_filter.1 ho).2
    · cases h

/-- C15 (amended). Cancelled orders stay off the book once they were created.  In a
book reached from a new book, let the first Cancel command for an Id be applied by
`cancelOrder` when the Id is already in `createIndex`, the command carrying the Side
and the Price with which an order of that Id rests, if one rests.  Then no order with
that Id is resting in any state reached by any further sequence of commands. -/
theorem cancelled_stays_off (pricePrecision amountPrecision : Int)
    (transact : TransactCallback) (cancel : CancelCallback) (events : List OrderEvent)
    (book : Book)
    (hreach : applyEvents (NewBook pricePrecision amountPrecision transact cancel) events =
      .ok book)
    (order : Order) (hcreated : order.Id ∈ book.createIndex)
    (hid : order.Id ∉ book.cancelIndex)
    (hsame : ∀ r ∈ book.resting, r.Id = order.Id →
      r.Side = order.Side ∧ r.Price = order.Price)
    (b1 : Book) (hcancel : cancelOrder book order = .ok b1) :
    ∀ (events2 : List OrderEvent) (b2 : Book), applyEvents b1 events2 = .ok b2 →
      ∀ o ∈ b2.resting, o.Id ≠ order.Id := by
  intro events2 b2 h2
  have hwf := reachable_wf pricePrecision amountPrecision transact cancel events book hreach
  have hi := reachable_idsOK pricePrecision amountPrecision transact cancel events book hreach
  have h1 := cancelOrder_absent book order b1 hwf hi hid hsame hcancel
  have hc1 : order.Id ∈ b1.createIndex := by
    rw [(cancelOrder_cases book order b1 hcancel).1]; exact hcreated
  exact applyEvents_absent order.Id events2 b1 b2 h2 hc1 h1

theorem cancelled_stays_off_witness :
    applyEvents (NewBook 8 8 ⟨[], []⟩ ⟨[], []⟩)
        [⟨orderB1, OrderActionCreate⟩, ⟨orderB3, OrderActionCreate⟩] = .ok bookB1B3 ∧
      orderB1.Id ∈ bookB1B3.createIndex ∧ orderB1.Id ∉ bookB1B3.cancelIndex ∧
      (∀ r ∈ bookB1B3.resting, r.Id = orderB1.Id →
        r.Side = orderB1.Side ∧ r.Price = orderB1.Price) ∧
      cancelOrder bookB1B3 orderB1 = .ok bookB1B3CancelB1 ∧
      applyEvents bookB1B3CancelB1 [⟨orderB1, OrderActionCreate⟩] = .ok bookB1B3CancelB1 ∧
      bookB1B3CancelB1.resting = [orderB3] ∧
      ∀ o ∈ bookB1B3CancelB1.resting, o.Id ≠ orderB1.Id :=
  ⟨by decide, by decide, by decide, by decide, by decide, by decide, by decide,
    cancelled_stays_off 8 8 ⟨[], []⟩ ⟨[], []⟩
      [⟨orderB1, OrderActionCreate⟩, ⟨orderB3, OrderActionCreate⟩] bookB1B3 (by decide)
      orderB1 (by decide) (by decide) (by decide) bookB1B3CancelB1 (by decide)
      [⟨orderB1, OrderActionCreate⟩] bookB1B3CancelB1 (by decide)⟩

/-- C15 as stated fails: from a new book, Cancel B1 followed by Create B1 leaves B1
resting in the bid ladder although its Cancel has been applied (`createOrder` does
not read `cancelIndex`). -/
theorem cancelled_stays_off_counterexample :
    cancelOrder (NewBook 8 8 ⟨[], []⟩ ⟨[], []⟩) orderB1 = .ok bookCancelB1 ∧
      orderB1.Id ∈ bookCancelB1.cancelIndex ∧
      applyEvents (NewBook 8 8 ⟨[], []⟩ ⟨[], []⟩)
          [⟨orderB1, OrderActionCancel⟩, ⟨orderB1, OrderActionCreate⟩] =
        .ok (createOrder bookCancelB1 orderB1).1 ∧
      (createOrder bookCancelB1 orderB1).1.bids.bestFirst = [orderB1] ∧
      ¬ (∀ o ∈ (createOrder bookCancelB1 orderB1).1.resting, o.Id ≠ orderB1.Id) := by
  decide


/-! ### The book is never crossed -/

theorem walk_rest_stops (stops : Order → Order → Bool)
    (hst : ∀ a b p q : Order, a.Price = b.Price → p.Price = q.Price → stops a p = stops b q) :
    ∀ (l : List Order) (s : TransactCallback × Order), s.2.«Type» = OrderTypeLimit →
      l.Pairwise (fun a b => stops s.2 a = true → stops s.2 b = true) →
      (iterateList (matchHook stops) s l).1.2.RemainingAmount ≠ 0 →
      ∀ x ∈ (iterateList (matchHook stops) s l).2.1, stops s.2 x = true
  | [], s, _, _, _ => by simp [walk_nil]
  | p :: tail, s, hl, hsorted, hrem => by
    have hp := List.pairwise_cons.1 hsorted
    by_cases hx : stops s.2 p = true
    · rw [walk_stop stops s p tail ⟨hl, hx⟩]
      intro x hmem
      rcases List.mem_append.1 hmem with hmem | hmem
      · unfold keep at hmem
        split at hmem
        · simp at hmem
        · rw [List.mem_singleton.1 hmem]; exact hx
      · exact hp.1 x hmem hx
    · have hno : ¬(s.2.«Type» = OrderTypeLimit ∧ stops s.2 p = true) := fun h => hx h.2
      by_cases hz : (process s.1 s.2 p).2.1.RemainingAmount = 0
      · rw [walk_done stops s p tail hno hz] at hrem
        exact absurd hz hrem
      · rw [walk_next stops s p tail hno hz] at hrem ⊢
        have hsame : ∀ q, stops (process s.1 s.2 p).2.1 q = stops s.2 q :=
          fun q => hst _ _ q q rfl rfl
        have ih := walk_rest_stops stops hst tail
          ((process s.1 s.2 p).1, (process s.1 s.2 p).2.1) hl
          (by simpa [hsame] using hp.2) hrem
        simpa [hsame] using ih

theorem walk_prices (stops : Order → Order → Bool) (s : TransactCallback × Order)
    (l : List Order) :
    ∀ x ∈ (iterateList (matchHook stops) s l).2.1, ∃ y ∈ l, x.Price = y.Price := by
  intro x hx
  have hsub := iterateList_map_sublist (matchHook stops) (fun o => o.Price)
    (matchHook_price stops) l s
  have hm : x.Price ∈ l.map (fun o => o.Price) :=
    hsub.subset (List.mem_map.2 ⟨x, hx, rfl⟩)
  obtain ⟨y, hy, hyp⟩ := List.mem_map.1 hm
  exact ⟨y, hy, hyp.symm⟩

theorem createOrder_uncrossed (book : Book) (order : Order) (hw : book.wf)
    (hu : book.uncrossed) : (createOrder book order).1.uncrossed := by
  obtain ⟨hsb, hsa⟩ := wf_sorted book hw
  by_cases hd : order.Id ∈ book.createIndex
  · rw [createOrder_dup book order hd]; exact hu
  by_cases hs : order.Side = PageSideAsk
  · obtain ⟨e1, _, e3, e4⟩ := createOrder_ask book order hd hs
    obtain ⟨_, hty, hpr⟩ := walk_ident askStops askStops_price book.bids.bestFirst
      (book.transact, order)
    have hold : ∀ a ∈ book.asks.bestFirst, ∀ b ∈ (createOrder book order).1.bids.bestFirst,
        b.Price < a.Price := by
      intro a ha b hb
      rw [e3] at hb
      obtain ⟨y, hy, hyp⟩ := walk_prices askStops (book.transact, order) _ b hb
      rw [hyp]; exact hu a ha y hy
    intro a ha b hb
    rw [e4] at ha
    split at ha
    · rename_i hc
      rcases (Put_mem _ _ _).1 ha with ha | ha
      · exact hold a ha b hb
      · have hl : order.«Type» = OrderTypeLimit := by rw [← hty]; exact hc.1
        have hstops := walk_rest_stops askStops askStops_price book.bids.bestFirst
          (book.transact, order) hl
          (hsb.imp (by
            intro x y hxy hx
            simp only [askStops, decide_eq_true_eq] at hx ⊢
            omega))
          (by have := hc.2; omega)
        rw [e3] at hb
        have := hstops b hb
        simp only [askStops, decide_eq_true_eq] at this
        rw [ha, hpr]; exact this
    · exact hold a ha b hb
  · by_cases hs2 : order.Side = PageSideBid
    · obtain ⟨e1, _, e3, e4⟩ := createOrder_bid book order hd hs2
      obtain ⟨_, hty, hpr⟩ := walk_ident bidStops bidStops_price book.asks.bestFirst
        (book.transact, order)
      have hold : ∀ a ∈ (createOrder book order).1.asks.bestFirst, ∀ b ∈ book.bids.bestFirst,
          b.Price < a.Price := by
        intro a ha b hb
        rw [e3] at ha
        obtain ⟨y, hy, hyp⟩ := walk_prices bidStops (book.transact, order) _ a ha
        rw [hyp]; exact hu y hy b hb
      intro a ha b hb
      rw [e4] at hb
      split at hb
      · rename_i hc
        rcases (Put_mem _ _ _).1 hb with hb | hb
        · exact hold a ha b hb
        · have hl : order.«Type» = OrderTypeLimit := by rw [← hty]; exact hc.1
          have hstops := walk_rest_stops bidStops bidStops_price book.asks.bestFirst
            (book.transact, order) hl
            (hsa.imp (by
              intro x y hxy hx
              simp only [bidStops, decide_eq_true_eq] at hx ⊢
              omega))
            (by have := hc.2; omega)
          rw [e3] at ha
          have := hstops a ha
          simp only [bidStops, decide_eq_true_eq] at this
          rw [hb, hpr]; exact this
      · exact hold a ha b hb
    · rw [createOrder_other book order hd hs hs2]; exact hu

theorem cancelOrder_uncrossed (book : Book) (order : Order) (b : Book)
    (h : cancelOrder book order = .ok b) (hu : book.uncrossed) : b.uncrossed := by
  have hsub := cancelOrder_resting book order b h
  intro a ha x hx
  exact hu a (hsub.1 a ha) x (hsub.2 x hx)

theorem dispatch_uncrossed (book : Book) (event : OrderEvent) (b : Book)
    (h : dispatch book event = .ok b) (hw : book.wf) (hu : book.uncrossed) : b.uncrossed := by
  unfold dispatch at h
  split at h
  · cases h; exact createOrder_uncrossed book event.Order hw hu
  · split at h
    · exact cancelOrder_uncrossed book event.Order b h hu
    · cases h

theorem applyEvents_uncrossed :
    ∀ (events : List OrderEvent) (book b : Book), applyEvents book events = .ok b →
      book.wf → book.uncrossed → b.uncrossed
  | [], book, b, h, _, hu => by
    simp only [applyEvents] at h
    cases h; exact hu
  | event :: events, book, b, h, hw, hu => by
    simp only [applyEvents] at h
    split at h
    · rename_i b1 hb1
      exact applyEvents_uncrossed events b1 b h (dispatch_wf book event b1 hb1 hw)
        (dispatch_uncrossed book event b1 hb1 hw hu)
    · cases h

/-- C18. The book is never crossed.  In every state reached from a new book by a
finite sequence of Create and Cancel commands, every resting bid has a Price strictly
lower than every resting ask; in particular the best bid is below the best ask when
both ladders hold orders. -/
theorem book_never_crossed (pricePrecision amountPrecision : Int)
    (transact : TransactCallback) (cancel : CancelCallback) (events : List OrderEvent)
    (b : Book)
    (h : applyEvents (NewBook pricePrecision amountPrecision transact cancel) events = .ok b) :
    (∀ ask ∈ b.asks.bestFirst, ∀ bid ∈ b.bids.bestFirst, bid.Price < ask.Price) ∧
      ∀ ask bid, b.asks.bestFirst.head? = some ask → b.bids.bestFirst.head? = some bid →
        bid.Price < ask.Price := by
  have hu : b.uncrossed :=
    applyEvents_uncrossed events _ b h
      (NewBook_wf pricePrecision amountPrecision transact cancel)
      (by simp [NewBook, Book.uncrossed, NewPage, Page.bestFirst])
  refine ⟨hu, ?_⟩
  intro ask bid ha hb
  exact hu ask (List.mem_of_mem_head? ha) bid (List.mem_of_mem_head? hb)

theorem book_never_crossed_witness :
    applyEvents (NewBook 8 8 ⟨[], []⟩ ⟨[], []⟩)
        [⟨orderB1, OrderActionCreate⟩, ⟨orderB2, OrderActionCreate⟩,
          ⟨orderA3, OrderActionCreate⟩] = .ok (createOrder bookB1B2 orderA3).1 ∧
      (createOrder bookB1B2 orderA3).1.asks.bestFirst =
        [⟨"A3", PageSideAsk, OrderTypeLimit, 11, 3, 2, 1⟩] ∧
      (createOrder bookB1B2 orderA3).1.bids.bestFirst = [orderB1] ∧
      ((∀ ask ∈ (createOrder bookB1B2 orderA3).1.asks.bestFirst,
          ∀ bid ∈ (createOrder bookB1B2 orderA3).1.bids.bestFirst, bid.Price < ask.Price) ∧
        ∀ ask bid, (createOrder bookB1B2 orderA3).1.asks.bestFirst.head? = some ask →
          (createOrder bookB1B2 orderA3).1.bids.bestFirst.head? = some bid →
          bid.Price < ask.Price) :=
  ⟨by decide, by decide, by decide,
    book_never_crossed 8 8 ⟨[], []⟩ ⟨[], []⟩
      [⟨orderB1, OrderActionCreate⟩, ⟨orderB2, OrderActionCreate⟩,
        ⟨orderA3, OrderActionCreate⟩] (createOrder bookB1B2 orderA3).1 (by decide)⟩

end engine
